import Mathlib

/-!
# Calendar notification bot: the scheduler core

A shallow embedding of `internal/scheduler/scheduler.go` (the three periodic
checks and the two trackers they share) together with the parts of
`internal/calendar/client.go` the checks call.

Conventions of the embedding

* A `time.Time` is the instant it denotes, an integer number of nanoseconds
  counted from Go's zero time.  `Equal`, `After` and `Before` compare instants,
  so they are `=`, `>` and `<`; `Add` is `+` (instants are not bounded: the
  range of `time.Time`, hundreds of billions of years, is never reached from a
  clock reading by adding a duration).
* A `time.Duration` is a signed 64-bit count of nanoseconds; the one product
  the scheduler computes at run time (`ReminderMinutes * time.Minute`) wraps
  like Go's `int64` multiplication.
* A Go `map[string]V` is a finite association list with pairwise distinct
  keys (`AList`); `range` over the map visits its entries once each, in the
  order of the list, which stands for the unspecified order of Go.
* What a check reads from outside (the clock, the calendar feed, the result
  of the Telegram call) is gathered in a `World`; a check is a function from
  the world and the scheduler state to the new state and the list of sends
  it attempted, in the order the code issues them.
* A message is kept as the call that renders it (`FormatReminder ev n`,
  `FormatEventChanged ev kind`, `FormatDaySchedule events`).
-/

namespace TgCalendarBot

/-! ## Time -/

/-- Instant denoted by a `time.Time`, in nanoseconds since Go's zero time. -/
abbrev Time := Int

/-- Nanoseconds in `time.Second`. -/
def Second : Int := 1000000000

/-- Nanoseconds in `time.Minute`. -/
def Minute : Int := 60 * Second

/-- Nanoseconds in `time.Hour`. -/
def Hour : Int := 60 * Minute

/-- Value kept by a signed 64-bit integer after an arithmetic result `x`
(two's complement wrap-around, as Go specifies for `int64`). -/
def wrapInt64 (x : Int) : Int := (x + 2 ^ 63) % 2 ^ 64 - 2 ^ 63

/-- A `*time.Location`, taken as a fixed offset east of UTC in seconds. -/
structure Location where
  offset : Int
deriving DecidableEq, Repr

/-- Wall-clock hour of `t.In(loc)`. -/
def localHour (loc : Location) (t : Time) : Nat :=
  (((t + loc.offset * Second) / Hour) % 24).toNat

/-- Wall-clock minute of `t.In(loc)`. -/
def localMinute (loc : Location) (t : Time) : Nat :=
  (((t + loc.offset * Second) / Minute) % 60).toNat

/-- Instant of `time.Date(y, m, d, 0, 0, 0, 0, loc)` for the local day of `t`. -/
def startOfDay (loc : Location) (t : Time) : Time :=
  t - (t + loc.offset * Second) % (24 * Hour)

/-- Two-digit rendering of the verb `%02d` for a non-negative number. -/
def pad2 (n : Nat) : String :=
  if n < 10 then "0" ++ toString n else toString n

/-! ## Data model (`internal/calendar/client.go`, `internal/config/config.go`) -/

/-- The `calendar.Event` record. -/
structure Event where
  ID : String
  Title : String
  Start : Time
  End : Time
  Description : String
  Location : String
  MeetLink : String
  Links : List String
  Updated : Time
deriving DecidableEq, Repr

/-- The fields of `config.Config` the scheduler reads. -/
structure Config where
  MorningScheduleTime : String
  ReminderMinutes : Int
  Location : Location
deriving DecidableEq, Repr

/-- A Go `map[string]V`. -/
abbrev GoMap (V : Type) := AList (fun _ : String => V)

/-- Text handed to `Scheduler.send`, kept as the formatter call that makes it. -/
inductive Notification where
  | reminder (ev : Event) (minutesBefore : Int)
  | eventChanged (ev : Event) (changeType : String)
  | daySchedule (events : List Event)
deriving DecidableEq, Repr

/-- The event a message is about, when it is about one. -/
def Notification.event? : Notification → Option Event
  | Notification.reminder ev _ => some ev
  | Notification.eventChanged ev _ => some ev
  | Notification.daySchedule _ => none

/-- Whether a message is a reminder or change notice for identity `id`. -/
def Notification.about (id : String) (n : Notification) : Bool :=
  match n.event? with
  | some ev => ev.ID == id
  | none => false

/-- Whether a message is a reminder for identity `id`. -/
def Notification.isReminderFor (id : String) : Notification → Bool
  | Notification.reminder ev _ => ev.ID == id
  | _ => false

/-- One call of `tg.Send`: the message and whether Telegram accepted it. -/
structure SendAttempt where
  msg : Notification
  delivered : Bool
deriving DecidableEq, Repr

/-- What one invocation of a check observes outside the process: the clock
reading (every `time.Now()` of one invocation is taken to give the same
instant, the loops doing only in-memory work), the answer of the calendar feed
to a window query (`calendar.FetchEvents(url, from, to, loc)`), and the outcome
of `tg.Send` for a message. -/
structure World where
  now : Time
  FetchEvents : Time → Time → Except String (List Event)
  tgSend : Notification → Bool

/-- The mutable fields of `scheduler.Scheduler`. -/
structure Scheduler where
  reminded : GoMap Bool
  knownEvents : GoMap Event

/-- Result of a check: the state it leaves and the sends it attempted. -/
abbrev Outcome := Scheduler × List SendAttempt

/-- Constructor `scheduler.New`: both trackers start empty. -/
def New : Scheduler := ⟨∅, ∅⟩

/-! ## Calendar queries -/

/-- Query of `calendar.TodayEvents`: the local day of the clock reading. -/
def TodayEvents (loc : Location) (w : World) : Except String (List Event) :=
  let start := startOfDay loc w.now
  w.FetchEvents start (start + 24 * Hour)

/-- Query of `calendar.UpcomingEvents`: the seven days after the clock reading. -/
def UpcomingEvents (w : World) : Except String (List Event) :=
  w.FetchEvents w.now (w.now + 7 * 24 * Hour)

/-! ## The scheduler (`internal/scheduler/scheduler.go`) -/

/-- Method `Scheduler.send`: one Telegram call; a failure is only logged. -/
def send (w : World) (text : Notification) : SendAttempt :=
  ⟨text, w.tgSend text⟩

/-- Key of the reminded map, `fmt.Sprintf("%s-%d", ev.ID, minutes)`. -/
def reminderKey (id : String) (minutes : Int) : String :=
  id ++ "-" ++ toString minutes

/-- Go expression `s.reminded[key]`: the stored flag, `false` for an absent key. -/
def isReminded (s : Scheduler) (key : String) : Bool :=
  (s.reminded.lookup key).getD false

/-- Instant `targetStart` of `checkReminders`: the clock reading plus
`time.Duration(ReminderMinutes) * time.Minute`, a 64-bit product. -/
def targetStart (cfg : Config) (now : Time) : Time :=
  now + wrapInt64 (cfg.ReminderMinutes * Minute)

/-- Bounds `(from, to)` of the window `checkReminders` asks the feed for. -/
def reminderWindow (cfg : Config) (now : Time) : Time × Time :=
  (targetStart cfg now + (-30) * Second, targetStart cfg now + 30 * Second)

/-- Body of the loop of `checkReminders` for one fetched event: test and mark
the key, then send unless the key was already marked. -/
def remindOne (cfg : Config) (w : World) (acc : Outcome) (ev : Event) : Outcome :=
  let key := reminderKey ev.ID cfg.ReminderMinutes
  let already := isReminded acc.1 key
  if already then acc
  else
    (⟨acc.1.reminded.insert key true, acc.1.knownEvents⟩,
      acc.2 ++ [send w (Notification.reminder ev cfg.ReminderMinutes)])

/-- Method `Scheduler.checkReminders`. -/
def checkReminders (cfg : Config) (w : World) (s : Scheduler) : Outcome :=
  match w.FetchEvents (reminderWindow cfg w.now).1 (reminderWindow cfg w.now).2 with
  | Except.error _ => (s, [])
  | Except.ok events => events.foldl (remindOne cfg w) (s, [])

/-- Body of the first loop of `checkChanges` for one fetched event: read the
previous snapshot, store the new one, report `new` or `moved`. -/
def changeOne (w : World) (acc : GoMap Event × List SendAttempt) (ev : Event) :
    GoMap Event × List SendAttempt :=
  let known := acc.1.insert ev.ID ev
  match acc.1.lookup ev.ID with
  | none => (known, acc.2 ++ [send w (Notification.eventChanged ev "new")])
  | some prev =>
    if prev.Start ≠ ev.Start then
      (known, acc.2 ++ [send w (Notification.eventChanged ev "moved")])
    else (known, acc.2)

/-- Body of the second loop of `checkChanges` for one entry of the map: an
identity missing from the fetched list whose known start is after the clock
reading is reported `cancelled` and deleted. -/
def cancelOne (w : World) (events : List Event)
    (acc : GoMap Event × List SendAttempt) (entry : (_ : String) × Event) :
    GoMap Event × List SendAttempt :=
  let found := events.any (fun ev => ev.ID == entry.1)
  if !found && decide (entry.2.Start > w.now) then
    (acc.1.erase entry.1, acc.2 ++ [send w (Notification.eventChanged entry.2 "cancelled")])
  else acc

/-- The two loops of `checkChanges` on a fetched list. -/
def diffEvents (w : World) (known : GoMap Event) (events : List Event) :
    GoMap Event × List SendAttempt :=
  let r := events.foldl (changeOne w) (known, [])
  r.1.entries.foldl (cancelOne w events) r

/-- Method `Scheduler.checkChanges`. -/
def checkChanges (w : World) (s : Scheduler) : Outcome :=
  match UpcomingEvents w with
  | Except.error _ => (s, [])
  | Except.ok events =>
    let r := diffEvents w s.knownEvents events
    (⟨s.reminded, r.1⟩, r.2)

/-- Method `Scheduler.checkMorningSchedule`. -/
def checkMorningSchedule (cfg : Config) (w : World) (s : Scheduler) : Outcome :=
  if pad2 (localHour cfg.Location w.now) ++ ":" ++ pad2 (localMinute cfg.Location w.now)
      ≠ cfg.MorningScheduleTime then (s, [])
  else
    match TodayEvents cfg.Location w with
    | Except.error _ => (s, [])
    | Except.ok events => (s, [send w (Notification.daySchedule events)])

/-- Method `Scheduler.initKnownEvents`: seed the known events, no message. -/
def initKnownEvents (w : World) (s : Scheduler) : Scheduler :=
  match UpcomingEvents w with
  | Except.error _ => s
  | Except.ok events =>
    ⟨s.reminded, events.foldl (fun m ev => m.insert ev.ID ev) s.knownEvents⟩

/-! ## Running checks one after another -/

/-- Successive invocations of `checkReminders`, one per world, on the shared
state; the sends are listed in the order of the invocations. -/
def runReminders (cfg : Config) : List World → Scheduler → Outcome
  | [], s => (s, [])
  | w :: ws, s =>
    let r := checkReminders cfg w s
    let r2 := runReminders cfg ws r.1
    (r2.1, r.2 ++ r2.2)

/-- Number of reminders for identity `id` among the attempted sends. -/
def remindersFor (id : String) (sent : List SendAttempt) : Nat :=
  sent.countP (fun a => a.msg.isReminderFor id)

/-- Attempted sends that are about identity `id`. -/
def sendsAbout (id : String) (sent : List SendAttempt) : List SendAttempt :=
  sent.filter (fun a => a.msg.about id)

/-- The known-events map is keyed by the identity of the event it stores,
as every write `knownEvents[ev.ID] = ev` keeps it. -/
def KeyedByID (m : GoMap Event) : Prop :=
  ∀ e ∈ m.entries, e.2.ID = e.1

instance (m : GoMap Event) : Decidable (KeyedByID m) := by
  unfold KeyedByID; infer_instance

/-! ## Vocabulary for the change-detection check -/

/-- Sends of the first loop of `checkChanges` for a fetched event `ev` when
the map read before the write gave `prev`. -/
def firstPass (w : World) (prev : Option Event) (ev : Event) : List SendAttempt :=
  match prev with
  | none => [send w (Notification.eventChanged ev "new")]
  | some p =>
    if p.Start ≠ ev.Start then [send w (Notification.eventChanged ev "moved")] else []

/-- Condition under which the second loop of `checkChanges` cancels an entry:
its key is not among the fetched identities and its start is after the clock
reading. -/
def shouldCancel (w : World) (events : List Event) (entry : (_ : String) × Event) : Bool :=
  !events.any (fun ev => ev.ID == entry.1) && decide (entry.2.Start > w.now)

/-- Classification the specification prescribes for one identity, written from
its words: fetched and unknown is `new`; fetched and known with another start
is `moved`; known, not fetched and still to start is `cancelled`; nothing
otherwise.  The fetched event of an identity is the first one listed for it. -/
def expectedChanges (w : World) (known : GoMap Event) (events : List Event) (id : String) :
    List SendAttempt :=
  match events.find? (fun ev => ev.ID == id), known.lookup id with
  | some ev, none => [send w (Notification.eventChanged ev "new")]
  | some ev, some prev =>
    if prev.Start ≠ ev.Start then [send w (Notification.eventChanged ev "moved")] else []
  | none, some prev =>
    if prev.Start > w.now then [send w (Notification.eventChanged prev "cancelled")] else []
  | none, none => []

/-- The events of a fetched list that carry identity `id` all start at the
same instant. -/
def SameStart (events : List Event) (id : String) : Prop :=
  ∀ e1 ∈ events, ∀ e2 ∈ events, e1.ID = id → e2.ID = id → e1.Start = e2.Start

/-- An instant lies in a window given by its two bounds, both included. -/
def inWindow (win : Time × Time) (t : Time) : Prop :=
  win.1 ≤ t ∧ t ≤ win.2

instance (win : Time × Time) (t : Time) : Decidable (inWindow win t) := by
  unfold inWindow; infer_instance

/-- Modelled from the spec: the Event Source contract of section 6, "time
window is inclusive of overlap, not strict containment".  The parsing library
that applies the window is not part of the repository; an event is returned
for a window when its span from start to end meets the window. -/
def overlapsWindow (ev : Event) (a b : Time) : Bool :=
  decide (ev.Start ≤ b) && decide (a ≤ ev.End)

/-- Modelled from the spec: a feed that holds the events `all` and answers a
window query with those that overlap the window, in feed order. -/
def feedOf (all : List Event) (a b : Time) : Except String (List Event) :=
  Except.ok (all.filter (fun ev => overlapsWindow ev a b))

/-! ## Concrete data for the worked instances -/

/-- A meeting with identity `A` that starts at instant 100. -/
def meetingA : Event := ⟨"A", "Standup", 100, 200, "", "", "", [], 0⟩

/-- A meeting with identity `B` that starts at instant 300. -/
def meetingB : Event := ⟨"B", "Review", 300, 400, "", "", "", [], 0⟩

/-- Meeting `A` moved to instant 150 and renamed. -/
def meetingAMoved : Event := ⟨"A", "Standup (moved)", 150, 250, "", "", "", [], 0⟩

/-- Meeting `A` with the same start and a new title and place. -/
def meetingARenamed : Event := ⟨"A", "Daily", 100, 230, "agenda", "room 2", "", [], 5⟩

/-- A configuration with a lead time of 30 minutes. -/
def cfg30 : Config := ⟨"09:00", 30, ⟨0⟩⟩

/-- A world whose feed answers every query with `F` and whose sends succeed. -/
def worldOk (now : Time) (F : List Event) : World :=
  ⟨now, fun _ _ => Except.ok F, fun _ => true⟩

/-- A world whose feed answers every query with `F` and whose sends fail. -/
def worldSendFails (now : Time) (F : List Event) : World :=
  ⟨now, fun _ _ => Except.ok F, fun _ => false⟩

/-- A world whose feed fails on every query. -/
def worldFetchFails (now : Time) : World :=
  ⟨now, fun _ _ => Except.error "timeout", fun _ => true⟩

/-- A scheduler that knows meeting `A` and has reminded nobody. -/
def knowsA : Scheduler := ⟨∅, (∅ : GoMap Event).insert "A" meetingA⟩

/-- A configuration whose lead time, in nanoseconds, exceeds the 64-bit range. -/
def cfgHuge : Config := ⟨"09:00", 153722868, ⟨0⟩⟩

/-- A workshop that runs from minute 10 to minute 60. -/
def workshop : Event := ⟨"X", "Workshop", 600 * Second, 3600 * Second, "", "", "", [], 0⟩

/-- A world at instant 0 whose feed holds the workshop and answers by overlap. -/
def worldWorkshop : World := ⟨0, feedOf [workshop], fun _ => true⟩

/-! ## Sequences of checks -/

/-- One invocation of a periodic check, with the world it runs in. -/
inductive Check where
  | reminders (w : World)
  | changes (w : World)
  | morning (w : World)

/-- Run one invocation on the scheduler state. -/
def Check.run (cfg : Config) : Check → Scheduler → Outcome
  | Check.reminders w, s => checkReminders cfg w s
  | Check.changes w, s => checkChanges w s
  | Check.morning w, s => checkMorningSchedule cfg w s

/-- Successive invocations of any of the three checks on the shared state. -/
def runChecks (cfg : Config) : List Check → Scheduler → Outcome
  | [], s => (s, [])
  | c :: cs, s =>
    let r := c.run cfg s
    let r2 := runChecks cfg cs r.1
    (r2.1, r.2 ++ r2.2)

/-! ## Vocabulary for the morning check -/

/-- Text `fmt.Sprintf("%02d:%02d", now.Hour(), now.Minute())` of an instant. -/
def clockText (loc : Location) (t : Time) : String :=
  pad2 (localHour loc t) ++ ":" ++ pad2 (localMinute loc t)

/-- Successive invocations of `checkMorningSchedule`, one per world. -/
def runMorning (cfg : Config) (ws : List World) (s : Scheduler) : Outcome :=
  runChecks cfg (ws.map Check.morning) s

/-! ## Vocabulary for the reminder key -/

/-- Number written by a list of decimal digit characters. -/
def decValue (cs : List Char) : Nat :=
  cs.foldl (fun acc c => 10 * acc + (c.toNat - 48)) 0

/-! ## Text helpers of the calendar client (`internal/calendar/client.go`)

A Go string is taken as the sequence of its characters (valid UTF-8).  The
delimiters and the trimmed characters are ASCII, so cutting at bytes and at
characters agree; `len` is the length in bytes. -/

/-- The characters of the `case` list in `splitWords`: space, line feed, tab,
carriage return, `<`, `>`, the double quote and the backslash. -/
def isWordBreak (c : Char) : Bool :=
  c == ' ' || c == Char.ofNat 10 || c == Char.ofNat 9 || c == Char.ofNat 13
    || c == '<' || c == '>' || c == Char.ofNat 34 || c == Char.ofNat 92

/-- One turn of the loop of `splitWords`.  The state is the words found and the
characters from index `start` to the current index, `none` for `start = -1`. -/
def splitStep (st : List String × Option (List Char)) (c : Char) :
    List String × Option (List Char) :=
  if isWordBreak c then
    match st.2 with
    | some word => (st.1 ++ [String.mk word], none)
    | none => st
  else
    match st.2 with
    | some word => (st.1, some (word ++ [c]))
    | none => (st.1, some [c])

/-- Function `splitWords`: the maximal runs of characters between breaks. -/
def splitWords (s : String) : List String :=
  let st := s.data.foldl splitStep ([], none)
  match st.2 with
  | some word => st.1 ++ [String.mk word]
  | none => st.1

/-- The characters of the `case` list in `trimLinkSuffix`: `.`, `,`, `;`, `:`,
`!`, `?`, `)`, the double quote and the apostrophe. -/
def isLinkSuffix (c : Char) : Bool :=
  c == '.' || c == ',' || c == ';' || c == ':' || c == '!' || c == '?' || c == ')'
    || c == Char.ofNat 34 || c == Char.ofNat 39

/-- The loop of `trimLinkSuffix` on the characters read from the end: drop the
last character while it is in the list. -/
def dropSuffixChars : List Char → List Char
  | [] => []
  | c :: rest => if isLinkSuffix c then dropSuffixChars rest else c :: rest

/-- Function `trimLinkSuffix`. -/
def trimLinkSuffix (s : String) : String :=
  String.mk (dropSuffixChars s.data.reverse).reverse

/-- The characters of the host name `meet.google.com`. -/
def meetHost : List Char := "meet.google.com".data

/-- Test `strings.Contains(word, "meet.google.com")`. -/
def containsMeet (word : String) : Bool :=
  decide (meetHost <:+: word.data)

/-- Function `findMeetLink`: the first word that contains the Meet host,
trimmed; the empty string when there is none. -/
def findMeetLink (text : String) : String :=
  match (splitWords text).find? containsMeet with
  | some word => trimLinkSuffix word
  | none => ""

/-- The characters of `http://`. -/
def httpScheme : List Char := "http://".data

/-- The characters of `https://`. -/
def httpsScheme : List Char := "https://".data

/-- Whether a string starts with `http://` or with `https://`
(`strings.HasPrefix`). -/
def startsWithHttp (w : String) : Bool :=
  decide (httpScheme <+: w.data) || decide (httpsScheme <+: w.data)

/-- Test of `extractLinks` on a word: more than 8 bytes long and starting with
`http://` or `https://`. -/
def isLinkWord (w : String) : Bool :=
  decide (w.utf8ByteSize > 8) && startsWithHttp w

/-- One turn of the loop of `extractLinks`: the links found and the `seen` map. -/
def linkStep (acc : List String × GoMap Bool) (w : String) : List String × GoMap Bool :=
  if isLinkWord w then
    let link := trimLinkSuffix w
    if (acc.2.lookup link).getD false then acc
    else (acc.1 ++ [link], acc.2.insert link true)
  else acc

/-- Function `extractLinks`. -/
def extractLinks (text : String) : List String :=
  if text = "" then []
  else ((splitWords text).foldl linkStep ([], ∅)).1

/-- The words of a text that pass the test of `extractLinks`, trimmed, in the
order of the text. -/
def linkCandidates (text : String) : List String :=
  ((splitWords text).filter isLinkWord).map trimLinkSuffix

/-- Append a string to a list unless the list holds it. -/
def addNew (links : List String) (l : String) : List String :=
  if l ∈ links then links else links ++ [l]

/-- The fields of `gocal.Event` that `convertEvent` reads; a nil pointer is
`none`. -/
structure GocalEvent where
  Uid : String
  Summary : String
  Description : String
  Location : String
  Start : Option Time
  End : Option Time
  LastModified : Option Time
deriving DecidableEq, Repr

/-- Function `convertEvent`; `none` is the nil result.  A time keeps its
instant under `In(loc)`, and a field never assigned is the zero time. -/
def convertEvent (e : GocalEvent) (_loc : Location) : Option Event :=
  if e.Summary = "" then none
  else
    some
      { ID := e.Uid
        Title := e.Summary
        Description := e.Description
        Location := e.Location
        Start := e.Start.getD 0
        End := e.End.getD 0
        Updated := e.LastModified.getD 0
        MeetLink :=
          (([e.Description, e.Location].map findMeetLink).find? (fun link => link ≠ "")).getD ""
        Links := extractLinks e.Description }

/-- The loop of `FetchEvents` over the parsed entries: keep what `convertEvent`
returns. -/
def convertEvents (entries : List GocalEvent) (loc : Location) : List Event :=
  entries.filterMap (fun e => convertEvent e loc)

/-- Modelled from the spec: what `parser.Parse()` leaves in `parser.Events`
when it succeeds.  The parser is the library `gocal`, which is not under
`src/`; the spec has an entry whose identity is absent or empty "discarded
upstream", so the entries handed to the loop of `FetchEvents` all carry a
`Uid`. -/
structure ParsedFeed where
  Events : List GocalEvent
  identified : Events.all (fun e => e.Uid != "") = true

/-- Function `FetchEvents` after the download: `parsed` is the outcome of
`parser.Parse()`; its error is wrapped and returned before the loop, and the
loop keeps what `convertEvent` returns. -/
def FetchEvents (parsed : Except String ParsedFeed) (loc : Location) :
    Except String (List Event) :=
  match parsed with
  | Except.error err => Except.error ("ошибка парсинга ics: " ++ err)
  | Except.ok feed => Except.ok (convertEvents feed.Events loc)

/-! ## Concrete calendar entries -/

/-- An entry with a title and an empty `Uid`; no outcome of the parser holds
one. -/
def entryNoUid : GocalEvent := ⟨"", "Lunch", "", "", some 100, some 200, none⟩

/-- A parsed entry whose description names the Meet host without a scheme. -/
def entryBareMeet : GocalEvent :=
  ⟨"m1", "Sync", "join meet.google.com/abc-defg-hij, please", "", some 100, some 200, none⟩

/-- A parsed entry whose description holds the Meet link inside an HTML tag. -/
def entryHtmlMeet : GocalEvent :=
  ⟨"m2", "Sync", "<a href=\"https://meet.google.com/xyz\">join</a>", "room", some 100, none, none⟩

/-! ## Formatting (`internal/bot/formatter.go`) -/

/-- The backslash character. -/
def backslash : Char := Char.ofNat 92

/-- The characters `EscMD` gives to `strings.NewReplacer` as strings to
replace, in the order of the source: `_ * [ ] ( ) ~` backtick `> # + - = |`
opening brace, closing brace, `. !`. -/
def mdSpecials : List Char :=
  ['_', '*', '[', ']', '(', ')', '~', Char.ofNat 96, '>', '#', '+', '-', '=', '|',
    Char.ofNat 123, Char.ofNat 125, '.', '!']

/-- Replacement of one character by the replacer of `EscMD`: a listed
character becomes a backslash and the character, any other stays. -/
def escChar (c : Char) : List Char :=
  if c ∈ mdSpecials then [backslash, c] else [c]

/-- Function `EscMD`: the replacer applied along the string. -/
def EscMD (s : String) : String :=
  String.mk (s.data.flatMap escChar)

/-- Deleting the backslashes that stand right before a listed character. -/
def unescapeChars : List Char → List Char
  | [] => []
  | [c] => [c]
  | c :: d :: rest =>
    if c = backslash ∧ d ∈ mdSpecials then d :: unescapeChars rest
    else c :: unescapeChars (d :: rest)

/-- Function `formatLinks`. -/
def formatLinks (ev : Event) : String :=
  (if ev.MeetLink ≠ "" then "   📹 [Подключиться к Meet](" ++ ev.MeetLink ++ ")\n" else "")
    ++ String.join ((ev.Links.filter (fun link => link ≠ ev.MeetLink)).map
        (fun link => "   🔗 " ++ link ++ "\n"))

/-- Text `ev.Start.Format("15:04")`, followed by an en dash and the end when
the end is not the zero time. -/
def timeRange (ev : Event) (loc : Location) : String :=
  if ev.End ≠ 0 then clockText loc ev.Start ++ "–" ++ clockText loc ev.End
  else clockText loc ev.Start

/-- Function `formatShort`: the numbered entry of one event. -/
def formatShort (num : Nat) (ev : Event) (loc : Location) : String :=
  toString num ++ "\\. *" ++ EscMD ev.Title ++ "* \\(" ++ EscMD (timeRange ev loc) ++ "\\)\n"
    ++ formatLinks ev ++ "\n"

/-- Civil date `(year, month, day)` of `t.In(loc)` in the proleptic Gregorian
calendar, day 0 being 1 January of year 1. -/
def civilDate (loc : Location) (t : Time) : Int × Int × Int :=
  let z := (t + loc.offset * Second) / (24 * Hour) + 306
  let era := z / 146097
  let doe := z - era * 146097
  let yoe := (doe - doe / 1460 + doe / 36524 - doe / 146096) / 365
  let doy := doe - (365 * yoe + yoe / 4 - yoe / 100)
  let mp := (5 * doy + 2) / 153
  let d := doy - (153 * mp + 2) / 5 + 1
  let m := if mp < 10 then mp + 3 else mp - 9
  (yoe + era * 400 + (if m ≤ 2 then 1 else 0), m, d)

/-- The genitive month names of `russianDate`, indexed from 1. -/
def russianMonths : List String :=
  ["", "января", "февраля", "марта", "апреля", "мая", "июня",
    "июля", "августа", "сентября", "октября", "ноября", "декабря"]

/-- Function `russianDate`: day, month name and year. -/
def russianDate (loc : Location) (t : Time) : String :=
  toString (civilDate loc t).2.2 ++ " " ++ russianMonths.getD (civilDate loc t).2.1.toNat ""
    ++ " " ++ toString (civilDate loc t).1

/-- One turn of the loop of `FormatDaySchedule`: the text built and the index
of the next event. -/
def scheduleStep (loc : Location) (st : String × Nat) (ev : Event) : String × Nat :=
  (st.1 ++ formatShort (st.2 + 1) ev loc, st.2 + 1)

/-- Function `FormatDaySchedule`; `now` is the reading of `time.Now()`. -/
def FormatDaySchedule (events : List Event) (loc : Location) (now : Time) : String :=
  if events.length = 0 then
    "📅 *" ++ EscMD (russianDate loc now) ++ "*\n\nСвободный день, встреч нет 🎉"
  else
    (events.foldl (scheduleStep loc)
        ("📅 *" ++ EscMD (russianDate loc now) ++ "* — расписание дня\n\n", 0)).1
      ++ "\n_Всего встреч: " ++ toString events.length ++ "_"

/-- Heading of the day schedule of a day with events. -/
def scheduleHeader (loc : Location) (now : Time) : String :=
  "📅 *" ++ EscMD (russianDate loc now) ++ "* — расписание дня\n\n"

/-- Closing line of the day schedule of `n` events. -/
def scheduleFooter (n : Nat) : String :=
  "\n_Всего встреч: " ++ toString n ++ "_"

/-- Concatenation of a list of strings, as successive `WriteString` calls
build it. -/
def concatAll : List String → String
  | [] => ""
  | s :: rest => s ++ concatAll rest

/-- A meeting from 12:00 to 13:00 of the first day. -/
def meetingNoon : Event :=
  ⟨"N", "Lunch talk", 12 * Hour, 13 * Hour, "", "", "", [], 0⟩

/-- A meeting from 10:00 to 10:30 of the first day. -/
def meetingTen : Event :=
  ⟨"T", "Standup", 10 * Hour, 10 * Hour + 30 * Minute, "", "", "", [], 0⟩

/-! ## Overlapping invocations of `checkReminders`

Invocations started by successive ticks run as goroutines and may overlap.
Each one is followed here statement by statement through the body of its loop,
and the mutex `s.mu` is part of the state: a schedule picks, turn after turn,
the invocation that runs its next statement.  The accesses to `s.reminded`
all happen with the mutex held, so the program has no data race and its runs
are the interleavings of these statements. -/

/-- Program points of the body of the loop of `checkReminders`. -/
inductive Pc where
  /-- Before `s.mu.Lock()`. -/
  | lock
  /-- Mutex held, before `already := s.reminded[key]`. -/
  | read
  /-- Mutex held, before `if !already ... s.reminded[key] = true`. -/
  | mark (already : Bool)
  /-- Mutex held, before `s.mu.Unlock()`. -/
  | unlock (already : Bool)
  /-- Mutex released, before `if already ... continue` and the send. -/
  | branch (already : Bool)
deriving DecidableEq, Repr

/-- Whether the mutex is held at a program point. -/
def Pc.holding : Pc → Bool
  | Pc.read => true
  | Pc.mark _ => true
  | Pc.unlock _ => true
  | _ => false

/-- One running invocation of `checkReminders` after its fetch: its world, the
fetched events not yet handled (the first is the `ev` of the current turn of
the loop), its program point, and the sends it attempted. -/
structure Invocation where
  world : World
  todo : List Event
  pc : Pc
  sent : List SendAttempt

/-- The scheduler shared by the running invocations: its maps, the invocation
that holds `s.mu` if any, and the invocations by number. -/
structure Shared where
  state : Scheduler
  holder : Option Nat
  threads : Nat → Invocation

/-- The next statement of invocation `i`, which handles event `ev` with `rest`
to follow.  `Lock` on a held mutex does not proceed. -/
def stepOn (cfg : Config) (i : Nat) (st : Shared) (t : Invocation) (ev : Event)
    (rest : List Event) : Pc → Shared
  | Pc.lock =>
    match st.holder with
    | none => ⟨st.state, some i, Function.update st.threads i ⟨t.world, t.todo, Pc.read, t.sent⟩⟩
    | some _ => st
  | Pc.read =>
    ⟨st.state, st.holder, Function.update st.threads i
      ⟨t.world, t.todo,
        Pc.mark (isReminded st.state (reminderKey ev.ID cfg.ReminderMinutes)), t.sent⟩⟩
  | Pc.mark already =>
    ⟨if already then st.state
      else ⟨st.state.reminded.insert (reminderKey ev.ID cfg.ReminderMinutes) true,
        st.state.knownEvents⟩,
      st.holder, Function.update st.threads i ⟨t.world, t.todo, Pc.unlock already, t.sent⟩⟩
  | Pc.unlock already =>
    ⟨st.state, none, Function.update st.threads i ⟨t.world, t.todo, Pc.branch already, t.sent⟩⟩
  | Pc.branch already =>
    if already then
      ⟨st.state, st.holder, Function.update st.threads i ⟨t.world, rest, Pc.lock, t.sent⟩⟩
    else
      ⟨st.state, st.holder, Function.update st.threads i
        ⟨t.world, rest, Pc.lock,
          t.sent ++ [send t.world (Notification.reminder ev cfg.ReminderMinutes)]⟩⟩

/-- One turn of the schedule: invocation `i` runs its next statement, if it has
events left. -/
def stepThread (cfg : Config) (i : Nat) (st : Shared) : Shared :=
  match (st.threads i).todo with
  | [] => st
  | ev :: rest => stepOn cfg i st (st.threads i) ev rest (st.threads i).pc

/-- Run of a schedule, a list of invocation numbers. -/
def runSchedule (cfg : Config) (schedule : List Nat) (st : Shared) : Shared :=
  schedule.foldl (fun acc i => stepThread cfg i acc) st

/-- An invocation with nothing to do. -/
def idleInvocation : Invocation :=
  ⟨⟨0, fun _ _ => Except.ok [], fun _ => true⟩, [], Pc.lock, []⟩

/-- Starting point: the invocations, each with its world and the list it
fetched, are about to enter their loops; nobody holds the mutex. -/
def startShared (s : Scheduler) (invs : List (World × List Event)) : Shared :=
  ⟨s, none, fun i =>
    match invs[i]? with
    | some p => ⟨p.1, p.2, Pc.lock, []⟩
    | none => idleInvocation⟩

/-- The invocation is in a turn of its loop for an event of identity `id`. -/
def Invocation.onID (t : Invocation) (id : String) : Bool :=
  match t.todo with
  | [] => false
  | ev :: _ => ev.ID == id

/-- The invocation has found the key of identity `id` unmarked in its current
turn and has not sent yet. -/
def Invocation.willSend (t : Invocation) (id : String) : Bool :=
  t.onID id && (t.pc == Pc.mark false || t.pc == Pc.unlock false || t.pc == Pc.branch false)

/-- Reminders for identity `id` the invocation has sent or is bound to send in
its current turn. -/
def Invocation.credit (t : Invocation) (id : String) : Nat :=
  remindersFor id t.sent + (if t.willSend id then 1 else 0)

/-- What holds of every state reached by overlapping invocations, for one
identity `id` and the lists `fetched` the invocations started with: an
invocation without events left is at the head of its loop; the mutex is held
by exactly the invocation inside the critical section; while the key is
unmarked nobody has sent for `id` nor passed the marking; once it is marked
one invocation has sent or is bound to send `total` reminders and the others
none, `total` being 1 when the key started unmarked and 0 when it started
marked; and an invocation that has gone past an event of identity `id` has
left the key marked. -/
structure ConcInv (cfg : Config) (id : String) (total : Nat) (fetched : Nat → List Event)
    (st : Shared) : Prop where
  idle : ∀ i, (st.threads i).todo = [] → (st.threads i).pc = Pc.lock
  mutex : ∀ i, (st.threads i).pc.holding = true ↔ st.holder = some i
  unmarked : isReminded st.state (reminderKey id cfg.ReminderMinutes) = false →
    ∀ i, remindersFor id (st.threads i).sent = 0
      ∧ ((st.threads i).onID id = true →
          (st.threads i).pc = Pc.lock ∨ (st.threads i).pc = Pc.read
            ∨ (st.threads i).pc = Pc.mark false)
  marked : isReminded st.state (reminderKey id cfg.ReminderMinutes) = true →
    ∃ o, (st.threads o).credit id = total ∧ ∀ j, j ≠ o → (st.threads j).credit id = 0
  quota : isReminded st.state (reminderKey id cfg.ReminderMinutes) = false → total = 1
  handled : ∀ i, (∃ ev ∈ fetched i, ev.ID = id) →
    (∃ ev ∈ (st.threads i).todo, ev.ID = id)
      ∨ isReminded st.state (reminderKey id cfg.ReminderMinutes) = true

/-- Two invocations that both fetched meeting `A`, the first one twice. -/
def twoInvocations : List (World × List Event) :=
  [(worldOk 0 [meetingA, meetingA], [meetingA, meetingA]), (worldOk 1 [meetingA], [meetingA])]

/-- Statements the invocation has still to run when nobody else holds the
mutex: five for each event, less those of the current turn already run. -/
def Invocation.stepsLeft (t : Invocation) : Nat :=
  match t.todo, t.pc with
  | [], _ => 0
  | _ :: rest, Pc.lock => 5 * rest.length + 5
  | _ :: rest, Pc.read => 5 * rest.length + 4
  | _ :: rest, Pc.mark _ => 5 * rest.length + 3
  | _ :: rest, Pc.unlock _ => 5 * rest.length + 2
  | _ :: rest, Pc.branch _ => 5 * rest.length + 1

/-- State left by an earlier reminder check that reminded of meeting `A`. -/
def remindedA : Scheduler := (checkReminders cfg30 (worldOk 0 [meetingA]) New).1

/-! ## Reminder tracker -/

theorem reminderKey_left_inj (a b : String) (n : Int)
    (h : reminderKey a n = reminderKey b n) : a = b := by
  unfold reminderKey at h
  have h2 := congrArg String.data h
  simp only [String.data_append] at h2
  have h3 := List.append_cancel_right (List.append_cancel_right h2)
  exact String.ext h3

theorem isReminded_remindOne (cfg : Config) (w : World) (acc : Outcome) (ev : Event)
    (id : String) :
    isReminded (remindOne cfg w acc ev).1 (reminderKey id cfg.ReminderMinutes)
      = (isReminded acc.1 (reminderKey id cfg.ReminderMinutes) || decide (ev.ID = id)) := by
  unfold remindOne
  by_cases hid : ev.ID = id
  · subst hid
    cases hm : isReminded acc.1 (reminderKey ev.ID cfg.ReminderMinutes)
    · simp only [hm, Bool.false_eq_true, if_false]
      simp [isReminded, AList.lookup_insert]
    · simp [hm]
  · have hk : reminderKey id cfg.ReminderMinutes ≠ reminderKey ev.ID cfg.ReminderMinutes :=
      fun h => hid (reminderKey_left_inj _ _ _ h).symm
    cases hm : isReminded acc.1 (reminderKey ev.ID cfg.ReminderMinutes)
    · simp only [hm, Bool.false_eq_true, if_false]
      simp [hid, isReminded, AList.lookup_insert_ne hk]
    · simp [hm, hid]

theorem remindersFor_remindOne (cfg : Config) (w : World) (acc : Outcome) (ev : Event)
    (id : String) :
    remindersFor id (remindOne cfg w acc ev).2
      = remindersFor id acc.2
        + (if isReminded acc.1 (reminderKey id cfg.ReminderMinutes) = false ∧ ev.ID = id
            then 1 else 0) := by
  unfold remindOne
  by_cases hid : ev.ID = id
  · subst hid
    cases hm : isReminded acc.1 (reminderKey ev.ID cfg.ReminderMinutes)
    · simp [hm, remindersFor, send, Notification.isReminderFor, List.countP_append]
    · simp [hm]
  · cases hm : isReminded acc.1 (reminderKey ev.ID cfg.ReminderMinutes)
    · simp [hm, hid, remindersFor, send, Notification.isReminderFor, List.countP_append]
    · simp [hm, hid]

theorem foldl_remindOne (cfg : Config) (w : World) (id : String) (F : List Event) :
    ∀ acc : Outcome,
      isReminded (F.foldl (remindOne cfg w) acc).1 (reminderKey id cfg.ReminderMinutes)
          = (isReminded acc.1 (reminderKey id cfg.ReminderMinutes)
              || F.any (fun ev => decide (ev.ID = id)))
      ∧ remindersFor id (F.foldl (remindOne cfg w) acc).2
          = remindersFor id acc.2
            + (if isReminded acc.1 (reminderKey id cfg.ReminderMinutes) = false
                  ∧ F.any (fun ev => decide (ev.ID = id)) = true then 1 else 0) := by
  induction F with
  | nil => intro acc; simp
  | cons ev rest ih =>
    intro acc
    have h := ih (remindOne cfg w acc ev)
    rw [isReminded_remindOne, remindersFor_remindOne] at h
    simp only [List.foldl_cons, List.any_cons]
    refine ⟨by rw [h.1, Bool.or_assoc], ?_⟩
    rw [h.2]
    cases hm : isReminded acc.1 (reminderKey id cfg.ReminderMinutes) <;>
      by_cases hid : ev.ID = id <;> simp [hm, hid]

theorem checkReminders_ok (cfg : Config) (w : World) (s : Scheduler) (F : List Event)
    (h : w.FetchEvents (reminderWindow cfg w.now).1 (reminderWindow cfg w.now).2 = Except.ok F) :
    checkReminders cfg w s = F.foldl (remindOne cfg w) (s, []) := by
  unfold checkReminders
  rw [h]

theorem runReminders_of_reminded (cfg : Config) (id : String) :
    ∀ (ws : List World) (s : Scheduler),
      isReminded s (reminderKey id cfg.ReminderMinutes) = true →
      remindersFor id (runReminders cfg ws s).2 = 0 := by
  intro ws
  induction ws with
  | nil => intro s _; simp [runReminders, remindersFor]
  | cons w ws ih =>
    intro s hs
    have hstep : isReminded (checkReminders cfg w s).1 (reminderKey id cfg.ReminderMinutes) = true
        ∧ remindersFor id (checkReminders cfg w s).2 = 0 := by
      unfold checkReminders
      cases w.FetchEvents (reminderWindow cfg w.now).1 (reminderWindow cfg w.now).2 with
      | error e => exact ⟨hs, by simp [remindersFor]⟩
      | ok F =>
        have h := foldl_remindOne cfg w id F (s, [])
        simp only [hs, Bool.true_or] at h
        exact ⟨h.1, by rw [h.2]; simp [remindersFor]⟩
    have hrest := ih (checkReminders cfg w s).1 hstep.1
    simp only [runReminders, remindersFor, List.countP_append] at *
    omega

/-- Claim C1 (idempotent reminders).  Start from a state whose reminded map
does not mark the key of event `E`, and run `checkReminders` once per world of
the non-empty sequence `w :: ws` on the shared state with the same lead time,
every fetch returning a list that holds the identity of `E` (once or several
times).  Then exactly one reminder for that identity is sent over the whole
sequence, and it is sent by the first invocation. -/
theorem checkReminders_idempotent (cfg : Config) (E : Event) (w : World) (ws : List World)
    (s : Scheduler)
    (hnew : isReminded s (reminderKey E.ID cfg.ReminderMinutes) = false)
    (hfetch : ∀ v ∈ w :: ws, ∃ F,
      v.FetchEvents (reminderWindow cfg v.now).1 (reminderWindow cfg v.now).2 = Except.ok F
        ∧ ∃ ev ∈ F, ev.ID = E.ID) :
    remindersFor E.ID (runReminders cfg (w :: ws) s).2 = 1
      ∧ remindersFor E.ID (checkReminders cfg w s).2 = 1 := by
  obtain ⟨F, hF, ev, hev, hid⟩ := hfetch w (List.mem_cons_self w ws)
  have hany : F.any (fun e => decide (e.ID = E.ID)) = true :=
    List.any_eq_true.mpr ⟨ev, hev, by simpa using hid⟩
  have h := foldl_remindOne cfg w E.ID F (s, [])
  rw [← checkReminders_ok cfg w s F hF] at h
  simp only [hnew, hany, Bool.or_true, and_self, if_true] at h
  have hfirst : remindersFor E.ID (checkReminders cfg w s).2 = 1 := by
    rw [h.2]; simp [remindersFor]
  have hrest := runReminders_of_reminded cfg E.ID ws (checkReminders cfg w s).1 h.1
  refine ⟨?_, hfirst⟩
  simp only [runReminders, remindersFor, List.countP_append] at *
  omega

/-- Instance of C1: two ticks, the first fetch listing meeting `A` twice. -/
theorem checkReminders_idempotent_witness :
    isReminded New (reminderKey meetingA.ID cfg30.ReminderMinutes) = false
      ∧ remindersFor "A"
          (runReminders cfg30 [worldOk 0 [meetingA, meetingA], worldOk 60 [meetingA]] New).2 = 1
      ∧ remindersFor "A" (checkReminders cfg30 (worldOk 0 [meetingA, meetingA]) New).2 = 1 :=
  ⟨by decide,
    checkReminders_idempotent cfg30 meetingA (worldOk 0 [meetingA, meetingA])
      [worldOk 60 [meetingA]] New (by decide)
      (by
        intro v hv
        simp only [List.mem_cons, List.mem_singleton, List.not_mem_nil, or_false] at hv
        rcases hv with rfl | rfl
        · exact ⟨_, rfl, meetingA, by simp, rfl⟩
        · exact ⟨_, rfl, meetingA, by simp, rfl⟩)⟩

/-! ## Change detection: the first loop -/

theorem changeOne_eq (w : World) (acc : GoMap Event × List SendAttempt) (ev : Event) :
    changeOne w acc ev
      = (acc.1.insert ev.ID ev, acc.2 ++ firstPass w (acc.1.lookup ev.ID) ev) := by
  unfold changeOne firstPass
  cases h : acc.1.lookup ev.ID with
  | none => simp
  | some p => by_cases hs : p.Start = ev.Start <;> simp [hs]

theorem foldl_changeOne_fst (w : World) (F : List Event) :
    ∀ acc : GoMap Event × List SendAttempt,
      (F.foldl (changeOne w) acc).1 = F.foldl (fun m ev => m.insert ev.ID ev) acc.1 := by
  induction F with
  | nil => intro acc; rfl
  | cons e rest ih =>
    intro acc
    simp only [List.foldl_cons]
    rw [ih, changeOne_eq]

theorem lookup_foldl_insert_of_forall_ne (id : String) (F : List Event)
    (h : ∀ e ∈ F, e.ID ≠ id) :
    ∀ m : GoMap Event,
      (F.foldl (fun m ev => m.insert ev.ID ev) m).lookup id = m.lookup id := by
  induction F with
  | nil => intro m; rfl
  | cons e rest ih =>
    intro m
    simp only [List.foldl_cons]
    rw [ih (fun x hx => h x (List.mem_cons_of_mem _ hx))]
    exact AList.lookup_insert_ne (fun hid => h e (List.mem_cons_self _ _) hid.symm)

theorem lookup_foldl_insert_last (l1 l2 : List Event) (ev : Event)
    (h : ∀ e ∈ l2, e.ID ≠ ev.ID) (m : GoMap Event) :
    ((l1 ++ ev :: l2).foldl (fun m e => m.insert e.ID e) m).lookup ev.ID = some ev := by
  rw [List.foldl_append, List.foldl_cons, lookup_foldl_insert_of_forall_ne ev.ID l2 h]
  exact AList.lookup_insert _

theorem exists_last_with_ID (id : String) (F : List Event) (h : ∃ e ∈ F, e.ID = id) :
    ∃ l1 ev l2, F = l1 ++ ev :: l2 ∧ ev.ID = id ∧ ∀ e ∈ l2, e.ID ≠ id := by
  induction F with
  | nil => obtain ⟨e, he, _⟩ := h; cases he
  | cons a rest ih =>
    by_cases hr : ∃ e ∈ rest, e.ID = id
    · obtain ⟨l1, ev, l2, hF, hid, hl2⟩ := ih hr
      exact ⟨a :: l1, ev, l2, by rw [hF]; rfl, hid, hl2⟩
    · obtain ⟨e, he, hid⟩ := h
      rcases List.mem_cons.mp he with rfl | he2
      · exact ⟨[], e, rest, rfl, hid, fun x hx hxid => hr ⟨x, hx, hxid⟩⟩
      · exact absurd ⟨e, he2, hid⟩ hr

theorem sendsAbout_append (id : String) (a b : List SendAttempt) :
    sendsAbout id (a ++ b) = sendsAbout id a ++ sendsAbout id b := by
  unfold sendsAbout
  exact List.filter_append _ _

theorem sendsAbout_firstPass_self (w : World) (prev : Option Event) (ev : Event) :
    sendsAbout ev.ID (firstPass w prev ev) = firstPass w prev ev := by
  unfold firstPass sendsAbout
  cases prev with
  | none => simp [send, Notification.about, Notification.event?]
  | some p =>
    by_cases hs : p.Start = ev.Start <;>
      simp [hs, send, Notification.about, Notification.event?]

theorem sendsAbout_firstPass_of_ne (w : World) (prev : Option Event) (ev : Event) (id : String)
    (h : ev.ID ≠ id) : sendsAbout id (firstPass w prev ev) = [] := by
  unfold firstPass sendsAbout
  cases prev with
  | none => simp [send, Notification.about, Notification.event?, h]
  | some p =>
    by_cases hs : p.Start = ev.Start <;>
      simp [hs, send, Notification.about, Notification.event?, h]

theorem sendsAbout_foldl_changeOne (w : World) (id : String) (F : List Event)
    (hF : SameStart F id) :
    ∀ acc : GoMap Event × List SendAttempt,
      sendsAbout id (F.foldl (changeOne w) acc).2
        = sendsAbout id acc.2
          ++ (match F.find? (fun ev => ev.ID == id) with
              | none => []
              | some ev => firstPass w (acc.1.lookup id) ev) := by
  induction F with
  | nil => intro acc; simp
  | cons e rest ih =>
    intro acc
    have hrest : SameStart rest id := fun a ha b hb =>
      hF a (List.mem_cons_of_mem _ ha) b (List.mem_cons_of_mem _ hb)
    simp only [List.foldl_cons]
    rw [ih hrest, changeOne_eq, sendsAbout_append]
    by_cases hid : e.ID = id
    · subst hid
      have hnil : (match rest.find? (fun ev => ev.ID == e.ID) with
          | none => ([] : List SendAttempt)
          | some ev => firstPass w ((acc.1.insert e.ID e).lookup e.ID) ev) = [] := by
        cases hfind : rest.find? (fun ev => ev.ID == e.ID) with
        | none => rfl
        | some ev2 =>
          have hmem : ev2 ∈ rest := List.mem_of_find?_eq_some hfind
          have hid2 : ev2.ID = e.ID := by
            have := List.find?_some hfind
            simpa using this
          have hst : e.Start = ev2.Start :=
            hF e (List.mem_cons_self _ _) ev2 (List.mem_cons_of_mem _ hmem) rfl hid2
          simp [AList.lookup_insert, firstPass, hst]
      rw [hnil, sendsAbout_firstPass_self]
      simp
    · have hne : id ≠ e.ID := fun h => hid h.symm
      rw [sendsAbout_firstPass_of_ne w _ e id hid]
      simp [List.find?_cons, hid, AList.lookup_insert_ne hne]

/-! ## Change detection: the second loop -/

theorem cancelOne_eq (w : World) (F : List Event) (acc : GoMap Event × List SendAttempt)
    (e : (_ : String) × Event) :
    cancelOne w F acc e
      = if shouldCancel w F e then
          (acc.1.erase e.1, acc.2 ++ [send w (Notification.eventChanged e.2 "cancelled")])
        else acc := rfl

theorem foldl_cancelOne (w : World) (F : List Event) (es : List ((_ : String) × Event)) :
    ∀ acc : GoMap Event × List SendAttempt,
      es.foldl (cancelOne w F) acc
        = ((es.filter (shouldCancel w F)).foldl (fun m e => m.erase e.1) acc.1,
            acc.2 ++ (es.filter (shouldCancel w F)).map
              (fun e => send w (Notification.eventChanged e.2 "cancelled"))) := by
  induction es with
  | nil => intro acc; simp
  | cons e rest ih =>
    intro acc
    simp only [List.foldl_cons]
    rw [ih, cancelOne_eq]
    cases hc : shouldCancel w F e <;> simp [List.filter_cons, hc]

theorem lookup_foldl_erase (id : String) (cs : List ((_ : String) × Event)) :
    ∀ m : GoMap Event,
      (cs.foldl (fun m e => m.erase e.1) m).lookup id
        = if id ∈ cs.keys then none else m.lookup id := by
  induction cs with
  | nil => intro m; simp
  | cons c rest ih =>
    intro m
    simp only [List.foldl_cons, List.keys_cons, List.mem_cons]
    rw [ih]
    by_cases hr : id ∈ rest.keys
    · simp [hr]
    · by_cases hc : id = c.1
      · subst hc; simp [hr, AList.lookup_erase]
      · simp [hr, hc, AList.lookup_erase_ne hc]

theorem mem_keys_filter_entries (m : GoMap Event) (q : (_ : String) × Event → Bool)
    (id : String) :
    id ∈ (m.entries.filter q).keys ↔ ∃ p, m.lookup id = some p ∧ q ⟨id, p⟩ = true := by
  rw [List.mem_keys]
  constructor
  · rintro ⟨p, hp⟩
    rw [List.mem_filter] at hp
    exact ⟨p, AList.mem_lookup_iff.mpr hp.1, hp.2⟩
  · rintro ⟨p, hp, hq⟩
    exact ⟨p, List.mem_filter.mpr ⟨AList.mem_lookup_iff.mp hp, hq⟩⟩

theorem sendsAbout_cancelled (w : World) (F : List Event) (id : String) :
    ∀ es : List ((_ : String) × Event), es.NodupKeys → (∀ e ∈ es, e.2.ID = e.1) →
      sendsAbout id ((es.filter (shouldCancel w F)).map
          (fun e => send w (Notification.eventChanged e.2 "cancelled")))
        = match es.dlookup id with
          | some p =>
            if shouldCancel w F ⟨id, p⟩ then
              [send w (Notification.eventChanged p "cancelled")]
            else []
          | none => [] := by
  intro es
  induction es with
  | nil => intro _ _; simp [sendsAbout]
  | cons e rest ih =>
    intro hnd hkey
    have hrest := ih (List.nodupKeys_of_nodupKeys_cons hnd)
      (fun x hx => hkey x (List.mem_cons_of_mem _ hx))
    have he : e.2.ID = e.1 := hkey e (List.mem_cons_self _ _)
    obtain ⟨k, p⟩ := e
    simp only at he
    by_cases hid : k = id
    · subst hid
      have hnot : k ∉ rest.keys := List.not_mem_keys_of_nodupKeys_cons hnd
      rw [List.dlookup_eq_none.mpr hnot] at hrest
      rw [List.dlookup_cons_eq]
      cases hc : shouldCancel w F ⟨k, p⟩
      · simpa [List.filter_cons, hc] using hrest
      · simp only [List.filter_cons, hc, if_true, List.map_cons]
        have hsplit : sendsAbout k
            (send w (Notification.eventChanged p "cancelled")
              :: (rest.filter (shouldCancel w F)).map
                  (fun e => send w (Notification.eventChanged e.2 "cancelled")))
            = send w (Notification.eventChanged p "cancelled")
              :: sendsAbout k ((rest.filter (shouldCancel w F)).map
                  (fun e => send w (Notification.eventChanged e.2 "cancelled"))) := by
          simp [sendsAbout, send, Notification.about, Notification.event?, he]
        rw [hsplit, hrest]
    · have hne : id ≠ k := fun h => hid h.symm
      have hlook : List.dlookup id ((⟨k, p⟩ : (_ : String) × Event) :: rest)
          = List.dlookup id rest := List.dlookup_cons_ne rest _ hne
      rw [hlook, ← hrest]
      cases hc : shouldCancel w F ⟨k, p⟩
      · simp [List.filter_cons, hc]
      · have hpid : ¬ p.ID = id := by rw [he]; exact hid
        simp [List.filter_cons, hc, sendsAbout, send, Notification.about, Notification.event?,
          hpid]

/-! ## Change detection: both loops -/

theorem diffEvents_eq (w : World) (S : GoMap Event) (F : List Event) :
    diffEvents w S F
      = (((F.foldl (fun m ev => m.insert ev.ID ev) S).entries.filter (shouldCancel w F)).foldl
            (fun m e => m.erase e.1) (F.foldl (fun m ev => m.insert ev.ID ev) S),
          (F.foldl (changeOne w) (S, [])).2
            ++ ((F.foldl (fun m ev => m.insert ev.ID ev) S).entries.filter
                (shouldCancel w F)).map
              (fun e => send w (Notification.eventChanged e.2 "cancelled"))) := by
  unfold diffEvents
  simp only []
  rw [foldl_cancelOne, foldl_changeOne_fst]

theorem lookup_diffEvents (w : World) (S : GoMap Event) (F : List Event) (id : String) :
    (diffEvents w S F).1.lookup id
      = match (F.foldl (fun m ev => m.insert ev.ID ev) S).lookup id with
        | some p => if shouldCancel w F ⟨id, p⟩ then none else some p
        | none => none := by
  rw [diffEvents_eq]
  simp only []
  rw [lookup_foldl_erase]
  cases hl : (F.foldl (fun m ev => m.insert ev.ID ev) S).lookup id with
  | none =>
    have : ¬ id ∈ ((F.foldl (fun m ev => m.insert ev.ID ev) S).entries.filter
        (shouldCancel w F)).keys := by
      rw [mem_keys_filter_entries]; rintro ⟨p, hp, _⟩; rw [hl] at hp; cases hp
    simp [this]
  | some p =>
    by_cases hc : shouldCancel w F ⟨id, p⟩ = true
    · have : id ∈ ((F.foldl (fun m ev => m.insert ev.ID ev) S).entries.filter
          (shouldCancel w F)).keys := by
        rw [mem_keys_filter_entries]; exact ⟨p, hl, hc⟩
      simp [this, hc]
    · have : ¬ id ∈ ((F.foldl (fun m ev => m.insert ev.ID ev) S).entries.filter
          (shouldCancel w F)).keys := by
        rw [mem_keys_filter_entries]
        rintro ⟨q, hq, hcq⟩
        rw [hl] at hq
        cases hq
        exact hc hcq
      simp [this, hc]

theorem shouldCancel_of_mem (w : World) (F : List Event) (ev p : Event) (h : ev ∈ F) :
    shouldCancel w F ⟨ev.ID, p⟩ = false := by
  have hany : F.any (fun e => e.ID == ev.ID) = true :=
    List.any_eq_true.mpr ⟨ev, h, by simp⟩
  simp [shouldCancel, hany]

theorem shouldCancel_of_forall_ne (w : World) (F : List Event) (id : String) (p : Event)
    (h : ∀ e ∈ F, e.ID ≠ id) :
    shouldCancel w F ⟨id, p⟩ = decide (p.Start > w.now) := by
  have hany : F.any (fun e => e.ID == id) = false := by
    rw [List.any_eq_false]
    intro e he
    simpa using h e he
  simp [shouldCancel, hany]

theorem lookup_diffEvents_last (w : World) (S : GoMap Event) (l1 l2 : List Event) (ev : Event)
    (h : ∀ e ∈ l2, e.ID ≠ ev.ID) :
    (diffEvents w S (l1 ++ ev :: l2)).1.lookup ev.ID = some ev := by
  rw [lookup_diffEvents, lookup_foldl_insert_last l1 l2 ev h]
  have hmem : ev ∈ l1 ++ ev :: l2 := by simp
  simp [shouldCancel_of_mem w _ ev ev hmem]

theorem lookup_diffEvents_of_forall_ne (w : World) (S : GoMap Event) (F : List Event)
    (id : String) (h : ∀ e ∈ F, e.ID ≠ id) :
    (diffEvents w S F).1.lookup id
      = match S.lookup id with
        | some p => if p.Start > w.now then none else some p
        | none => none := by
  rw [lookup_diffEvents, lookup_foldl_insert_of_forall_ne id F h]
  cases S.lookup id with
  | none => rfl
  | some p => simp [shouldCancel_of_forall_ne w F id p h]

theorem find?_ID_eq_none (F : List Event) (id : String) :
    F.find? (fun ev => ev.ID == id) = none ↔ ∀ e ∈ F, e.ID ≠ id := by
  rw [List.find?_eq_none]
  constructor
  · intro h e he; simpa using h e he
  · intro h e he; simpa using h e he

theorem keyedByID_iff (m : GoMap Event) :
    KeyedByID m ↔ ∀ id ev, m.lookup id = some ev → ev.ID = id := by
  unfold KeyedByID
  constructor
  · intro h id ev hl
    exact h ⟨id, ev⟩ (AList.mem_lookup_iff.mp hl)
  · rintro h ⟨k, v⟩ he
    exact h k v (AList.mem_lookup_iff.mpr he)

theorem keyedByID_insert (m : GoMap Event) (ev : Event) (h : KeyedByID m) :
    KeyedByID (m.insert ev.ID ev) := by
  rw [keyedByID_iff] at *
  intro id e hl
  by_cases hid : id = ev.ID
  · subst hid
    rw [AList.lookup_insert] at hl
    cases hl
    rfl
  · rw [AList.lookup_insert_ne hid] at hl
    exact h id e hl

theorem keyedByID_foldl_insert (F : List Event) :
    ∀ m : GoMap Event, KeyedByID m → KeyedByID (F.foldl (fun m ev => m.insert ev.ID ev) m) := by
  induction F with
  | nil => intro m h; exact h
  | cons e rest ih => intro m h; exact ih _ (keyedByID_insert m e h)

theorem keyedByID_diffEvents (w : World) (S : GoMap Event) (F : List Event)
    (h : KeyedByID S) : KeyedByID (diffEvents w S F).1 := by
  have h1 := (keyedByID_iff _).mp (keyedByID_foldl_insert F S h)
  rw [keyedByID_iff]
  intro id ev hl
  rw [lookup_diffEvents] at hl
  cases hm : (F.foldl (fun m ev => m.insert ev.ID ev) S).lookup id with
  | none => rw [hm] at hl; cases hl
  | some p =>
    rw [hm] at hl
    by_cases hc : shouldCancel w F ⟨id, p⟩ = true
    · simp [hc] at hl
    · simp only [hc, Bool.false_eq_true, if_false, Option.some.injEq] at hl
      subst hl
      exact h1 id p hm

theorem sameStart_of_nodup (F : List Event) (h : (F.map Event.ID).Nodup) (id : String) :
    SameStart F id := by
  intro e1 h1 e2 h2 hid1 hid2
  have : e1 = e2 := List.inj_on_of_nodup_map h h1 h2 (hid1.trans hid2.symm)
  rw [this]

theorem sendsAbout_diffEvents (w : World) (S : GoMap Event) (F : List Event) (id : String)
    (hkeyed : KeyedByID S) (hsame : SameStart F id) :
    sendsAbout id (diffEvents w S F).2 = expectedChanges w S F id := by
  rw [diffEvents_eq]
  simp only []
  rw [sendsAbout_append, sendsAbout_foldl_changeOne w id F hsame,
    sendsAbout_cancelled w F id _ (AList.nodupKeys _) (keyedByID_foldl_insert F S hkeyed)]
  change _ ++ (match (F.foldl (fun m ev => m.insert ev.ID ev) S).lookup id with
    | some p =>
      if shouldCancel w F ⟨id, p⟩ then [send w (Notification.eventChanged p "cancelled")]
      else []
    | none => []) = _
  unfold expectedChanges
  cases hfind : F.find? (fun ev => ev.ID == id) with
  | some ev =>
    have hmem : ev ∈ F := List.mem_of_find?_eq_some hfind
    have hid : ev.ID = id := by simpa using List.find?_some hfind
    subst hid
    have hnil : (match (F.foldl (fun m e => m.insert e.ID e) S).lookup ev.ID with
        | some p =>
          if shouldCancel w F ⟨ev.ID, p⟩ then
            [send w (Notification.eventChanged p "cancelled")]
          else []
        | none => ([] : List SendAttempt)) = [] := by
      cases (F.foldl (fun m e => m.insert e.ID e) S).lookup ev.ID with
      | none => rfl
      | some p => simp [shouldCancel_of_mem w F ev p hmem]
    rw [hnil]
    cases S.lookup ev.ID <;> simp [sendsAbout, firstPass]
  | none =>
    have hne := (find?_ID_eq_none F id).mp hfind
    rw [lookup_foldl_insert_of_forall_ne id F hne]
    cases S.lookup id with
    | none => simp [sendsAbout]
    | some p => simp [sendsAbout, shouldCancel_of_forall_ne w F id p hne]

theorem checkChanges_ok (w : World) (s : Scheduler) (F : List Event)
    (h : UpcomingEvents w = Except.ok F) :
    checkChanges w s = (⟨s.reminded, (diffEvents w s.knownEvents F).1⟩,
      (diffEvents w s.knownEvents F).2) := by
  unfold checkChanges
  rw [h]

theorem eventChanged_of_mem_diffEvents (w : World) (S : GoMap Event) (F : List Event)
    (a : SendAttempt) (h : a ∈ (diffEvents w S F).2) :
    ∃ ev kind, a.msg = Notification.eventChanged ev kind := by
  rw [diffEvents_eq] at h
  simp only [] at h
  rcases List.mem_append.mp h with h1 | h2
  · have key : ∀ (G : List Event) (acc : GoMap Event × List SendAttempt),
        (∀ b ∈ acc.2, ∃ ev kind, b.msg = Notification.eventChanged ev kind) →
        ∀ b ∈ (G.foldl (changeOne w) acc).2,
          ∃ ev kind, b.msg = Notification.eventChanged ev kind := by
      intro G
      induction G with
      | nil => intro acc hacc; exact hacc
      | cons e rest ih =>
        intro acc hacc
        simp only [List.foldl_cons]
        apply ih
        rw [changeOne_eq]
        intro b hb
        rcases List.mem_append.mp hb with hb1 | hb2
        · exact hacc b hb1
        · unfold firstPass at hb2
          cases hl : acc.1.lookup e.ID with
          | none =>
            rw [hl] at hb2
            simp only [List.mem_singleton] at hb2
            subst hb2
            exact ⟨e, "new", rfl⟩
          | some p =>
            rw [hl] at hb2
            by_cases hs : p.Start = e.Start
            · simp [hs] at hb2
            · simp only [ne_eq, hs, not_false_eq_true, if_true, List.mem_singleton] at hb2
              subst hb2
              exact ⟨e, "moved", rfl⟩
    exact key F (S, []) (fun b hb => by cases hb) a h1
  · obtain ⟨e, _, he⟩ := List.mem_map.mp h2
    exact ⟨e.2, "cancelled", by rw [← he]; rfl⟩

theorem foldl_changeOne_quiet (w : World) (F : List Event) (hsame : ∀ id, SameStart F id) :
    ∀ acc : GoMap Event × List SendAttempt,
      (∀ e ∈ F, ∃ p, acc.1.lookup e.ID = some p ∧ p.Start = e.Start) →
      (F.foldl (changeOne w) acc).2 = acc.2 := by
  induction F with
  | nil => intro acc _; rfl
  | cons e rest ih =>
    intro acc h
    have hrest : ∀ id, SameStart rest id := fun id a ha b hb =>
      hsame id a (List.mem_cons_of_mem _ ha) b (List.mem_cons_of_mem _ hb)
    simp only [List.foldl_cons]
    rw [ih hrest]
    · rw [changeOne_eq]
      obtain ⟨p, hp, hs⟩ := h e (List.mem_cons_self _ _)
      simp [hp, firstPass, hs]
    · intro e2 he2
      rw [changeOne_eq]
      by_cases hid : e2.ID = e.ID
      · refine ⟨e, ?_, ?_⟩
        · rw [hid]; exact AList.lookup_insert _
        · exact hsame e.ID e (List.mem_cons_self _ _) e2 (List.mem_cons_of_mem _ he2) rfl hid
      · obtain ⟨p, hp, hs⟩ := h e2 (List.mem_cons_of_mem _ he2)
        exact ⟨p, by rw [← hp]; exact AList.lookup_insert_ne hid, hs⟩

theorem lookup_diffEvents_of_mem (w : World) (S : GoMap Event) (F : List Event) (ev : Event)
    (h : ev ∈ F) :
    ∃ e ∈ F, e.ID = ev.ID ∧ (diffEvents w S F).1.lookup ev.ID = some e := by
  obtain ⟨l1, e, l2, hF, hid, hl2⟩ := exists_last_with_ID ev.ID F ⟨ev, h, rfl⟩
  refine ⟨e, by rw [hF]; simp, hid, ?_⟩
  have := lookup_diffEvents_last w S l1 l2 e (by rw [hid]; exact hl2)
  rw [← hF, hid] at this
  exact this

/-! ## The claims on `checkChanges` -/

/-- Claim C2 (diff completeness), as amended.  When the fetch succeeds with a
list `F` in which events that share an identity share their start, and the
known-events map is keyed by identity, every send of `checkChanges` is a change
notice, and for each identity the sends about it are exactly what the
specification prescribes: one `new` when it is fetched and unknown, one `moved`
when it is fetched and known with another start, one `cancelled` when it is
known, not fetched and starts after the clock reading, and nothing otherwise. -/
theorem checkChanges_diff_complete (w : World) (s : Scheduler) (F : List Event)
    (hfetch : UpcomingEvents w = Except.ok F)
    (hkeyed : KeyedByID s.knownEvents)
    (hsame : ∀ id, SameStart F id) :
    (∀ a ∈ (checkChanges w s).2, ∃ ev kind, a.msg = Notification.eventChanged ev kind)
      ∧ ∀ id, sendsAbout id (checkChanges w s).2 = expectedChanges w s.knownEvents F id := by
  rw [checkChanges_ok w s F hfetch]
  exact ⟨fun a ha => eventChanged_of_mem_diffEvents w _ F a ha,
    fun id => sendsAbout_diffEvents w _ F id hkeyed (hsame id)⟩

/-- Instance of C2: meeting `A` known and unchanged in start, meeting `B` new. -/
theorem checkChanges_diff_complete_witness :
    UpcomingEvents (worldOk 50 [meetingARenamed, meetingB])
        = Except.ok [meetingARenamed, meetingB]
      ∧ KeyedByID knowsA.knownEvents
      ∧ sendsAbout "B" (checkChanges (worldOk 50 [meetingARenamed, meetingB]) knowsA).2
          = expectedChanges (worldOk 50 [meetingARenamed, meetingB]) knowsA.knownEvents
              [meetingARenamed, meetingB] "B" :=
  ⟨rfl, by decide,
    (checkChanges_diff_complete (worldOk 50 [meetingARenamed, meetingB]) knowsA
      [meetingARenamed, meetingB] rfl (by decide)
      (sameStart_of_nodup [meetingARenamed, meetingB] (by decide))).2 "B"⟩

/-- Claim C2 fails as stated: a fetched list that holds identity `A` twice with
two starts makes `checkChanges` send `new` and then `moved` for `A`, although
`A` was unknown before, so `A` gets two notices and a `moved` without having
been known. -/
theorem checkChanges_diff_complete_counterexample :
    New.knownEvents.lookup "A" = none
      ∧ sendsAbout "A" (checkChanges (worldOk 0 [meetingA, meetingAMoved]) New).2
          = [⟨Notification.eventChanged meetingA "new", true⟩,
             ⟨Notification.eventChanged meetingAMoved "moved", true⟩]
      ∧ sendsAbout "A" (checkChanges (worldOk 0 [meetingA, meetingAMoved]) New).2
          ≠ expectedChanges (worldOk 0 [meetingA, meetingAMoved]) New.knownEvents
              [meetingA, meetingAMoved] "A" := by
  decide

/-- Claim C3 (state after the change-detection check).  When the fetch succeeds
with list `F`, the keys of the known-events map afterwards are exactly the
identities of `F` together with the identities known before, absent from `F`,
whose known start is not after the clock reading; an identity known before,
absent from `F` and starting after the clock reading is removed; one absent
from `F` and not starting after it keeps its snapshot; and every identity of
`F` maps to the snapshot fetched for it, the one listed last when the identity
is listed several times. -/
theorem checkChanges_known_after (w : World) (s : Scheduler) (F : List Event)
    (hfetch : UpcomingEvents w = Except.ok F) :
    (∀ id, id ∈ (checkChanges w s).1.knownEvents ↔
        ((∃ ev ∈ F, ev.ID = id)
          ∨ ∃ p, s.knownEvents.lookup id = some p ∧ (∀ ev ∈ F, ev.ID ≠ id) ∧ ¬ p.Start > w.now))
      ∧ (∀ id p, s.knownEvents.lookup id = some p → (∀ ev ∈ F, ev.ID ≠ id) → p.Start > w.now →
          (checkChanges w s).1.knownEvents.lookup id = none)
      ∧ (∀ id p, s.knownEvents.lookup id = some p → (∀ ev ∈ F, ev.ID ≠ id) →
          ¬ p.Start > w.now → (checkChanges w s).1.knownEvents.lookup id = some p)
      ∧ (∀ l1 ev l2, F = l1 ++ ev :: l2 → (∀ e ∈ l2, e.ID ≠ ev.ID) →
          (checkChanges w s).1.knownEvents.lookup ev.ID = some ev)
      ∧ (∀ ev ∈ F, ∃ e ∈ F, e.ID = ev.ID
          ∧ (checkChanges w s).1.knownEvents.lookup ev.ID = some e) := by
  rw [checkChanges_ok w s F hfetch]
  simp only []
  refine ⟨?_, ?_, ?_, ?_, ?_⟩
  · intro id
    rw [← AList.lookup_isSome]
    by_cases hin : ∃ ev ∈ F, ev.ID = id
    · obtain ⟨ev, hev, hid⟩ := hin
      obtain ⟨e, _, _, hl⟩ := lookup_diffEvents_of_mem w s.knownEvents F ev hev
      rw [hid] at hl
      simp only [hl, Option.isSome_some, true_iff]
      exact Or.inl ⟨ev, hev, hid⟩
    · have hne : ∀ e ∈ F, e.ID ≠ id := fun e he hid => hin ⟨e, he, hid⟩
      rw [lookup_diffEvents_of_forall_ne w _ F id hne]
      cases hl : s.knownEvents.lookup id with
      | none => simp [hin]
      | some p =>
        by_cases hp : p.Start > w.now
        · simp [hin, hp]
        · simp only [hp, if_false, Option.isSome_some, true_iff]
          exact Or.inr ⟨p, rfl, hne, hp⟩
  · intro id p hl hne hp
    rw [lookup_diffEvents_of_forall_ne w _ F id hne, hl]
    simp [hp]
  · intro id p hl hne hp
    rw [lookup_diffEvents_of_forall_ne w _ F id hne, hl]
    simp [hp]
  · intro l1 ev l2 hF hl2
    rw [hF]
    exact lookup_diffEvents_last w _ l1 l2 ev hl2
  · intro ev hev
    exact lookup_diffEvents_of_mem w _ F ev hev

/-- Instance of C3: with `A` known and `[A, B]` fetched, `B` is a key afterwards. -/
theorem checkChanges_known_after_witness :
    UpcomingEvents (worldOk 50 [meetingA, meetingB]) = Except.ok [meetingA, meetingB]
      ∧ ("B" ∈ (checkChanges (worldOk 50 [meetingA, meetingB]) knowsA).1.knownEvents ↔
          ((∃ ev ∈ [meetingA, meetingB], ev.ID = "B")
            ∨ ∃ p, knowsA.knownEvents.lookup "B" = some p
                ∧ (∀ ev ∈ [meetingA, meetingB], ev.ID ≠ "B")
                ∧ ¬ p.Start > (worldOk 50 [meetingA, meetingB]).now)) :=
  ⟨rfl, (checkChanges_known_after (worldOk 50 [meetingA, meetingB]) knowsA
    [meetingA, meetingB] rfl).1 "B"⟩

/-- Scenario of the specification: `A` known, `[A, B]` fetched; one `new` for
`B`, nothing for `A`, and the map holds `A` and `B`. -/
theorem scenario_new_meeting :
    (checkChanges (worldOk 50 [meetingA, meetingB]) knowsA).2
        = [⟨Notification.eventChanged meetingB "new", true⟩]
      ∧ (checkChanges (worldOk 50 [meetingA, meetingB]) knowsA).1.knownEvents.lookup "A"
          = some meetingA
      ∧ (checkChanges (worldOk 50 [meetingA, meetingB]) knowsA).1.knownEvents.lookup "B"
          = some meetingB
      ∧ (checkChanges (worldOk 50 [meetingA, meetingB]) knowsA).1.knownEvents.keys.length = 2 := by
  decide

/-- Scenario of the specification: `A` known and still to start, nothing
fetched; one `cancelled` for `A` and the map becomes empty. -/
theorem scenario_cancelled_meeting :
    (checkChanges (worldOk 50 []) knowsA).2
        = [⟨Notification.eventChanged meetingA "cancelled", true⟩]
      ∧ (checkChanges (worldOk 50 []) knowsA).1.knownEvents.entries = [] := by
  decide

/-- Claim C4 (cancelled-past suppression).  When the fetch succeeds with list
`F` and the known-events map is keyed by identity, an identity that is known,
is absent from `F` and whose known start is not after the clock reading gets no
send from `checkChanges` and keeps its snapshot in the map. -/
theorem checkChanges_past_kept (w : World) (s : Scheduler) (F : List Event) (id : String)
    (p : Event)
    (hfetch : UpcomingEvents w = Except.ok F)
    (hkeyed : KeyedByID s.knownEvents)
    (hknown : s.knownEvents.lookup id = some p)
    (habsent : ∀ ev ∈ F, ev.ID ≠ id)
    (hpast : p.Start ≤ w.now) :
    sendsAbout id (checkChanges w s).2 = []
      ∧ (checkChanges w s).1.knownEvents.lookup id = some p := by
  rw [checkChanges_ok w s F hfetch]
  simp only []
  have hnot : ¬ p.Start > w.now := not_lt.mpr hpast
  have hsame : SameStart F id := fun e1 h1 _ _ hid1 _ => absurd hid1 (habsent e1 h1)
  constructor
  · rw [sendsAbout_diffEvents w _ F id hkeyed hsame]
    unfold expectedChanges
    rw [(find?_ID_eq_none F id).mpr habsent, hknown]
    simp [hnot]
  · rw [lookup_diffEvents_of_forall_ne w _ F id habsent, hknown]
    simp [hnot]

/-- Instance of C4: meeting `A` started at 100, the clock reads 500, the feed
lists only `B`. -/
theorem checkChanges_past_kept_witness :
    UpcomingEvents (worldOk 500 [meetingB]) = Except.ok [meetingB]
      ∧ KeyedByID knowsA.knownEvents
      ∧ knowsA.knownEvents.lookup "A" = some meetingA
      ∧ (∀ ev ∈ [meetingB], ev.ID ≠ "A")
      ∧ meetingA.Start ≤ (worldOk 500 [meetingB]).now
      ∧ sendsAbout "A" (checkChanges (worldOk 500 [meetingB]) knowsA).2 = []
      ∧ (checkChanges (worldOk 500 [meetingB]) knowsA).1.knownEvents.lookup "A"
          = some meetingA :=
  ⟨rfl, by decide, by decide, by decide, by decide,
    checkChanges_past_kept (worldOk 500 [meetingB]) knowsA [meetingB] "A" meetingA rfl
      (by decide) (by decide) (by decide) (by decide)⟩

/-- Claim C5 (only the start is significant), as amended.  When the fetch
succeeds with list `F`, the known-events map is keyed by identity, and `ev` is
an event of `F` whose identity is known with an equal start, then, provided
every event of `F` with that identity has that same start, `checkChanges` sends
nothing about the identity whatever the other fields of `ev` are, and the map
afterwards holds for it a snapshot fetched for it: the one listed last in `F`,
which is `ev` itself when `F` lists the identity once. -/
theorem checkChanges_same_start_silent (w : World) (s : Scheduler) (F : List Event)
    (ev p : Event)
    (hfetch : UpcomingEvents w = Except.ok F)
    (hkeyed : KeyedByID s.knownEvents)
    (hev : ev ∈ F)
    (hknown : s.knownEvents.lookup ev.ID = some p)
    (hstart : p.Start = ev.Start)
    (hothers : ∀ e ∈ F, e.ID = ev.ID → e.Start = ev.Start) :
    sendsAbout ev.ID (checkChanges w s).2 = []
      ∧ (∃ e ∈ F, e.ID = ev.ID ∧ e.Start = ev.Start
          ∧ (checkChanges w s).1.knownEvents.lookup ev.ID = some e)
      ∧ ((∀ e ∈ F, e.ID = ev.ID → e = ev) →
          (checkChanges w s).1.knownEvents.lookup ev.ID = some ev) := by
  rw [checkChanges_ok w s F hfetch]
  simp only []
  have hsame : SameStart F ev.ID := fun e1 h1 e2 h2 hid1 hid2 =>
    (hothers e1 h1 hid1).trans (hothers e2 h2 hid2).symm
  obtain ⟨e, he, hid, hl⟩ := lookup_diffEvents_of_mem w s.knownEvents F ev hev
  refine ⟨?_, ⟨e, he, hid, hothers e he hid, hl⟩, ?_⟩
  · rw [sendsAbout_diffEvents w _ F ev.ID hkeyed hsame]
    unfold expectedChanges
    cases hfind : F.find? (fun x => x.ID == ev.ID) with
    | none => exact absurd rfl ((find?_ID_eq_none F ev.ID).mp hfind ev hev)
    | some e1 =>
      have hmem : e1 ∈ F := List.mem_of_find?_eq_some hfind
      have hid1 : e1.ID = ev.ID := by simpa using List.find?_some hfind
      have hs1 : p.Start = e1.Start := hstart.trans (hothers e1 hmem hid1).symm
      rw [hknown]
      simp [hs1]
  · intro honly
    rw [hl, honly e he hid]

/-- Instance of C5: meeting `A` fetched with the known start and a new title,
place, description and end. -/
theorem checkChanges_same_start_silent_witness :
    UpcomingEvents (worldOk 50 [meetingARenamed, meetingB])
        = Except.ok [meetingARenamed, meetingB]
      ∧ KeyedByID knowsA.knownEvents
      ∧ meetingARenamed ∈ [meetingARenamed, meetingB]
      ∧ knowsA.knownEvents.lookup meetingARenamed.ID = some meetingA
      ∧ meetingA.Start = meetingARenamed.Start
      ∧ sendsAbout meetingARenamed.ID
          (checkChanges (worldOk 50 [meetingARenamed, meetingB]) knowsA).2 = []
      ∧ (checkChanges (worldOk 50 [meetingARenamed, meetingB]) knowsA).1.knownEvents.lookup
          meetingARenamed.ID = some meetingARenamed :=
  ⟨rfl, by decide, by decide, by decide, by decide,
    (checkChanges_same_start_silent (worldOk 50 [meetingARenamed, meetingB]) knowsA
      [meetingARenamed, meetingB] meetingARenamed meetingA rfl (by decide) (by decide)
      (by decide) (by decide) (by decide)).1,
    (checkChanges_same_start_silent (worldOk 50 [meetingARenamed, meetingB]) knowsA
      [meetingARenamed, meetingB] meetingARenamed meetingA rfl (by decide) (by decide)
      (by decide) (by decide) (by decide)).2.2 (by decide)⟩

/-- Claim C5 fails as stated: meeting `A` is known with start 100; the fetched
list holds `A` with start 150 and then `A` with start 100; the second event has
the known start, yet `checkChanges` sends `moved` for it, having compared it
with the snapshot stored for the first. -/
theorem checkChanges_same_start_counterexample :
    meetingARenamed ∈ [meetingAMoved, meetingARenamed]
      ∧ knowsA.knownEvents.lookup meetingARenamed.ID = some meetingA
      ∧ meetingA.Start = meetingARenamed.Start
      ∧ (checkChanges (worldOk 50 [meetingAMoved, meetingARenamed]) knowsA).2
          = [⟨Notification.eventChanged meetingAMoved "moved", true⟩,
             ⟨Notification.eventChanged meetingARenamed "moved", true⟩]
      ∧ sendsAbout meetingARenamed.ID
          (checkChanges (worldOk 50 [meetingAMoved, meetingARenamed]) knowsA).2 ≠ [] := by
  decide

/-- Claim C6 (a repeated check is silent), as amended.  When two successive
runs of `checkChanges` both fetch the list `F`, the clock of the second is not
earlier than that of the first, and events of `F` that share an identity share
their start, the second run sends nothing and leaves every identity of the
known-events map, and the reminded map, as the first run left them. -/
theorem checkChanges_twice (w1 w2 : World) (s : Scheduler) (F : List Event)
    (hfetch1 : UpcomingEvents w1 = Except.ok F)
    (hfetch2 : UpcomingEvents w2 = Except.ok F)
    (hnow : w1.now ≤ w2.now)
    (hsame : ∀ id, SameStart F id) :
    (checkChanges w2 (checkChanges w1 s).1).2 = []
      ∧ (∀ id, (checkChanges w2 (checkChanges w1 s).1).1.knownEvents.lookup id
          = (checkChanges w1 s).1.knownEvents.lookup id)
      ∧ (checkChanges w2 (checkChanges w1 s).1).1.reminded
          = (checkChanges w1 s).1.reminded := by
  rw [checkChanges_ok w2 _ F hfetch2, checkChanges_ok w1 s F hfetch1]
  simp only []
  have hA : ∀ e ∈ F, ∃ p, (diffEvents w1 s.knownEvents F).1.lookup e.ID = some p
      ∧ p.Start = e.Start := by
    intro e he
    obtain ⟨e2, he2, hid, hl⟩ := lookup_diffEvents_of_mem w1 s.knownEvents F e he
    exact ⟨e2, hl, hsame e.ID e2 he2 e he hid rfl⟩
  have hB : ∀ k p,
      (F.foldl (fun m ev => m.insert ev.ID ev) (diffEvents w1 s.knownEvents F).1).lookup k
        = some p → shouldCancel w2 F ⟨k, p⟩ = false := by
    intro k p hl
    by_cases hin : ∃ e ∈ F, e.ID = k
    · obtain ⟨e, he, hid⟩ := hin
      rw [← hid]
      exact shouldCancel_of_mem w2 F e p he
    · have hne : ∀ e ∈ F, e.ID ≠ k := fun e he hid => hin ⟨e, he, hid⟩
      rw [lookup_foldl_insert_of_forall_ne k F hne,
        lookup_diffEvents_of_forall_ne w1 _ F k hne] at hl
      rw [shouldCancel_of_forall_ne w2 F k p hne]
      cases hs : s.knownEvents.lookup k with
      | none => rw [hs] at hl; cases hl
      | some q =>
        rw [hs] at hl
        by_cases hq : q.Start > w1.now
        · simp [hq] at hl
        · simp only [hq, if_false, Option.some.injEq] at hl
          subst hl
          have : ¬ q.Start > w2.now := fun h => hq (lt_of_le_of_lt hnow h)
          simp [this]
  have hfilter : (F.foldl (fun m ev => m.insert ev.ID ev)
      (diffEvents w1 s.knownEvents F).1).entries.filter (shouldCancel w2 F) = [] := by
    rw [List.filter_eq_nil_iff]
    rintro ⟨k, p⟩ he
    rw [hB k p (AList.mem_lookup_iff.mpr he)]
    simp
  refine ⟨?_, ?_, trivial⟩
  · rw [diffEvents_eq w2]
    simp only []
    rw [hfilter, foldl_changeOne_quiet w2 F hsame ((diffEvents w1 s.knownEvents F).1, []) hA]
    rfl
  · intro id
    rw [lookup_diffEvents w2]
    have hsame_lookup :
        (F.foldl (fun m ev => m.insert ev.ID ev) (diffEvents w1 s.knownEvents F).1).lookup id
          = (diffEvents w1 s.knownEvents F).1.lookup id := by
      by_cases hin : ∃ e ∈ F, e.ID = id
      · obtain ⟨l1, ev, l2, hF, hid, hl2⟩ := exists_last_with_ID id F hin
        subst hid
        have h1 := lookup_diffEvents_last w1 s.knownEvents l1 l2 ev hl2
        have h2 := lookup_foldl_insert_last l1 l2 ev hl2 (diffEvents w1 s.knownEvents F).1
        rw [← hF] at h1 h2
        rw [h1, h2]
      · exact lookup_foldl_insert_of_forall_ne id F
          (fun e he hid => hin ⟨e, he, hid⟩) _
    cases hl : (F.foldl (fun m ev => m.insert ev.ID ev)
        (diffEvents w1 s.knownEvents F).1).lookup id with
    | none => rw [← hsame_lookup, hl]
    | some p =>
      rw [← hsame_lookup, hl]
      simp [hB id p hl]

/-- Instance of C6: the same two-meeting list fetched at instants 50 and 350. -/
theorem checkChanges_twice_witness :
    UpcomingEvents (worldOk 50 [meetingAMoved, meetingB]) = Except.ok [meetingAMoved, meetingB]
      ∧ UpcomingEvents (worldOk 350 [meetingAMoved, meetingB])
          = Except.ok [meetingAMoved, meetingB]
      ∧ (worldOk 50 [meetingAMoved, meetingB]).now ≤ (worldOk 350 [meetingAMoved, meetingB]).now
      ∧ (checkChanges (worldOk 350 [meetingAMoved, meetingB])
          (checkChanges (worldOk 50 [meetingAMoved, meetingB]) knowsA).1).2 = [] :=
  ⟨rfl, rfl, by decide,
    (checkChanges_twice (worldOk 50 [meetingAMoved, meetingB])
      (worldOk 350 [meetingAMoved, meetingB]) knowsA [meetingAMoved, meetingB] rfl rfl
      (by decide) (sameStart_of_nodup [meetingAMoved, meetingB] (by decide))).1⟩

/-- Claim C6 fails as stated: with a fetched list that holds identity `A` with
two starts, a second run on the same list sends `moved` twice. -/
theorem checkChanges_twice_counterexample :
    (checkChanges (worldOk 0 [meetingA, meetingAMoved])
        (checkChanges (worldOk 0 [meetingA, meetingAMoved]) New).1).2
      = [⟨Notification.eventChanged meetingA "moved", true⟩,
         ⟨Notification.eventChanged meetingAMoved "moved", true⟩] := by
  decide

/-! ## The known-events map stays keyed by identity -/

theorem keyedByID_New : KeyedByID New.knownEvents := by
  intro e he
  cases he

theorem keyedByID_checkChanges (w : World) (s : Scheduler) (h : KeyedByID s.knownEvents) :
    KeyedByID (checkChanges w s).1.knownEvents := by
  unfold checkChanges
  cases UpcomingEvents w with
  | error e => exact h
  | ok F => exact keyedByID_diffEvents w _ F h

theorem keyedByID_initKnownEvents (w : World) (s : Scheduler) (h : KeyedByID s.knownEvents) :
    KeyedByID (initKnownEvents w s).knownEvents := by
  unfold initKnownEvents
  cases UpcomingEvents w with
  | error e => exact h
  | ok F => exact keyedByID_foldl_insert F _ h

theorem knownEvents_remindOne (cfg : Config) (w : World) (acc : Outcome) (ev : Event) :
    (remindOne cfg w acc ev).1.knownEvents = acc.1.knownEvents := by
  unfold remindOne
  cases hm : isReminded acc.1 (reminderKey ev.ID cfg.ReminderMinutes) <;> simp [hm]

theorem knownEvents_checkReminders (cfg : Config) (w : World) (s : Scheduler) :
    (checkReminders cfg w s).1.knownEvents = s.knownEvents := by
  unfold checkReminders
  cases w.FetchEvents (reminderWindow cfg w.now).1 (reminderWindow cfg w.now).2 with
  | error e => rfl
  | ok F =>
    have key : ∀ (G : List Event) (acc : Outcome),
        (G.foldl (remindOne cfg w) acc).1.knownEvents = acc.1.knownEvents := by
      intro G
      induction G with
      | nil => intro acc; rfl
      | cons e rest ih =>
        intro acc
        simp only [List.foldl_cons]
        rw [ih, knownEvents_remindOne]
    exact key F (s, [])

/-- The morning check at 09:00 sends the day schedule, one minute later it
sends nothing. -/
theorem scenario_morning_schedule :
    (checkMorningSchedule cfg30 (worldOk (9 * Hour) [meetingA]) New).2
        = [⟨Notification.daySchedule [meetingA], true⟩]
      ∧ (checkMorningSchedule cfg30 (worldOk (9 * Hour + 60 * Second) [meetingA]) New).2 = [] := by
  decide

/-! ## Failures -/

/-- Claim C7 (a fetch failure changes nothing).  For every state, when the
feed answers the query of a check with an error, that check sends nothing and
returns the state it was given, both maps untouched; this holds for
`checkReminders`, `checkChanges` and `checkMorningSchedule`. -/
theorem fetch_failure_no_effect (cfg : Config) (w : World) (s : Scheduler) :
    (∀ e, w.FetchEvents (reminderWindow cfg w.now).1 (reminderWindow cfg w.now).2
          = Except.error e → checkReminders cfg w s = (s, []))
      ∧ (∀ e, UpcomingEvents w = Except.error e → checkChanges w s = (s, []))
      ∧ (∀ e, TodayEvents cfg.Location w = Except.error e →
          checkMorningSchedule cfg w s = (s, [])) := by
  refine ⟨?_, ?_, ?_⟩
  · intro e h
    unfold checkReminders
    rw [h]
  · intro e h
    unfold checkChanges
    rw [h]
  · intro e h
    unfold checkMorningSchedule
    rw [h]
    simp

/-- Instance of C7: a feed that times out, at nine in the morning. -/
theorem fetch_failure_no_effect_witness :
    checkReminders cfg30 (worldFetchFails (9 * Hour)) knowsA = (knowsA, [])
      ∧ checkChanges (worldFetchFails (9 * Hour)) knowsA = (knowsA, [])
      ∧ checkMorningSchedule cfg30 (worldFetchFails (9 * Hour)) knowsA = (knowsA, []) :=
  ⟨(fetch_failure_no_effect cfg30 (worldFetchFails (9 * Hour)) knowsA).1 "timeout" rfl,
    (fetch_failure_no_effect cfg30 (worldFetchFails (9 * Hour)) knowsA).2.1 "timeout" rfl,
    (fetch_failure_no_effect cfg30 (worldFetchFails (9 * Hour)) knowsA).2.2 "timeout" rfl⟩

theorem remindOne_tgSend (cfg : Config) (w : World) (tg : Notification → Bool)
    (acc acc2 : Outcome) (ev : Event)
    (h1 : acc.1 = acc2.1) (h2 : acc.2.map SendAttempt.msg = acc2.2.map SendAttempt.msg) :
    (remindOne cfg ⟨w.now, w.FetchEvents, tg⟩ acc ev).1 = (remindOne cfg w acc2 ev).1
      ∧ (remindOne cfg ⟨w.now, w.FetchEvents, tg⟩ acc ev).2.map SendAttempt.msg
          = (remindOne cfg w acc2 ev).2.map SendAttempt.msg := by
  unfold remindOne
  rw [h1]
  cases hm : isReminded acc2.1 (reminderKey ev.ID cfg.ReminderMinutes)
  · simp [hm, send, h2]
  · simp [hm, h1, h2]

theorem foldl_remindOne_tgSend (cfg : Config) (w : World) (tg : Notification → Bool)
    (F : List Event) :
    ∀ acc acc2 : Outcome, acc.1 = acc2.1 →
      acc.2.map SendAttempt.msg = acc2.2.map SendAttempt.msg →
      (F.foldl (remindOne cfg ⟨w.now, w.FetchEvents, tg⟩) acc).1
          = (F.foldl (remindOne cfg w) acc2).1
        ∧ (F.foldl (remindOne cfg ⟨w.now, w.FetchEvents, tg⟩) acc).2.map SendAttempt.msg
          = (F.foldl (remindOne cfg w) acc2).2.map SendAttempt.msg := by
  induction F with
  | nil => intro acc acc2 h1 h2; exact ⟨h1, h2⟩
  | cons e rest ih =>
    intro acc acc2 h1 h2
    simp only [List.foldl_cons]
    exact ih _ _ (remindOne_tgSend cfg w tg acc acc2 e h1 h2).1
      (remindOne_tgSend cfg w tg acc acc2 e h1 h2).2

theorem foldl_changeOne_tgSend (w : World) (tg : Notification → Bool) (F : List Event) :
    ∀ acc acc2 : GoMap Event × List SendAttempt, acc.1 = acc2.1 →
      acc.2.map SendAttempt.msg = acc2.2.map SendAttempt.msg →
      (F.foldl (changeOne ⟨w.now, w.FetchEvents, tg⟩) acc).2.map SendAttempt.msg
        = (F.foldl (changeOne w) acc2).2.map SendAttempt.msg := by
  induction F with
  | nil => intro acc acc2 _ h2; exact h2
  | cons e rest ih =>
    intro acc acc2 h1 h2
    simp only [List.foldl_cons]
    apply ih
    · rw [changeOne_eq, changeOne_eq, h1]
    · rw [changeOne_eq, changeOne_eq, h1]
      simp only [List.map_append, h2]
      congr 1
      unfold firstPass
      cases acc2.1.lookup e.ID with
      | none => rfl
      | some p => by_cases hs : p.Start = e.Start <;> simp [hs, send]

theorem diffEvents_tgSend (w : World) (tg : Notification → Bool) (S : GoMap Event)
    (F : List Event) :
    (diffEvents ⟨w.now, w.FetchEvents, tg⟩ S F).1 = (diffEvents w S F).1
      ∧ (diffEvents ⟨w.now, w.FetchEvents, tg⟩ S F).2.map SendAttempt.msg
          = (diffEvents w S F).2.map SendAttempt.msg := by
  rw [diffEvents_eq, diffEvents_eq]
  refine ⟨rfl, ?_⟩
  simp only [List.map_append, List.map_map]
  rw [foldl_changeOne_tgSend w tg F (S, []) (S, []) rfl rfl]
  rfl

theorem checkReminders_marks (cfg : Config) (w : World) (s : Scheduler) (F : List Event)
    (E : Event)
    (hF : w.FetchEvents (reminderWindow cfg w.now).1 (reminderWindow cfg w.now).2 = Except.ok F)
    (hE : E ∈ F) :
    isReminded (checkReminders cfg w s).1 (reminderKey E.ID cfg.ReminderMinutes) = true
      ∧ remindersFor E.ID (checkReminders cfg w s).2 ≤ 1 := by
  have hany : F.any (fun e => decide (e.ID = E.ID)) = true :=
    List.any_eq_true.mpr ⟨E, hE, by simp⟩
  have h := foldl_remindOne cfg w E.ID F (s, [])
  rw [← checkReminders_ok cfg w s F hF] at h
  refine ⟨by rw [h.1, hany, Bool.or_true], ?_⟩
  rw [h.2]
  simp only [remindersFor, List.countP_nil, Nat.zero_add]
  split <;> omega

theorem checkReminders_of_reminded (cfg : Config) (w : World) (s : Scheduler) (id : String)
    (hs : isReminded s (reminderKey id cfg.ReminderMinutes) = true) :
    remindersFor id (checkReminders cfg w s).2 = 0 := by
  have h := runReminders_of_reminded cfg id [w] s hs
  simpa [runReminders] using h

/-- Claim C8 (a delivery failure is not rolled back).  For every state and
world, replacing the outcome of the Telegram call by any other `tg` changes
neither the state `checkReminders` and `checkChanges` leave nor the messages
they attempt; and once `checkReminders` has fetched a list holding event `E`,
whether its send succeeded or failed, the next `checkReminders` in any world
attempts no reminder for `E`, so the two runs together attempt at most one. -/
theorem send_failure_not_rolled_back (cfg : Config) (w : World) (tg : Notification → Bool)
    (s : Scheduler) :
    (checkReminders cfg ⟨w.now, w.FetchEvents, tg⟩ s).1 = (checkReminders cfg w s).1
      ∧ (checkReminders cfg ⟨w.now, w.FetchEvents, tg⟩ s).2.map SendAttempt.msg
          = (checkReminders cfg w s).2.map SendAttempt.msg
      ∧ (checkChanges ⟨w.now, w.FetchEvents, tg⟩ s).1 = (checkChanges w s).1
      ∧ (checkChanges ⟨w.now, w.FetchEvents, tg⟩ s).2.map SendAttempt.msg
          = (checkChanges w s).2.map SendAttempt.msg
      ∧ ∀ (F : List Event) (E : Event) (w2 : World),
          w.FetchEvents (reminderWindow cfg w.now).1 (reminderWindow cfg w.now).2
            = Except.ok F → E ∈ F →
          remindersFor E.ID (checkReminders cfg w2 (checkReminders cfg w s).1).2 = 0
            ∧ remindersFor E.ID (checkReminders cfg w s).2
                + remindersFor E.ID (checkReminders cfg w2 (checkReminders cfg w s).1).2 ≤ 1 := by
  have hrem : (checkReminders cfg ⟨w.now, w.FetchEvents, tg⟩ s).1 = (checkReminders cfg w s).1
      ∧ (checkReminders cfg ⟨w.now, w.FetchEvents, tg⟩ s).2.map SendAttempt.msg
          = (checkReminders cfg w s).2.map SendAttempt.msg := by
    unfold checkReminders
    simp only []
    cases w.FetchEvents (reminderWindow cfg w.now).1 (reminderWindow cfg w.now).2 with
    | error e => exact ⟨rfl, rfl⟩
    | ok F => exact foldl_remindOne_tgSend cfg w tg F (s, []) (s, []) rfl rfl
  have hchg : (checkChanges ⟨w.now, w.FetchEvents, tg⟩ s).1 = (checkChanges w s).1
      ∧ (checkChanges ⟨w.now, w.FetchEvents, tg⟩ s).2.map SendAttempt.msg
          = (checkChanges w s).2.map SendAttempt.msg := by
    unfold checkChanges UpcomingEvents
    simp only []
    cases w.FetchEvents w.now (w.now + 7 * 24 * Hour) with
    | error e => exact ⟨rfl, rfl⟩
    | ok F =>
      have h := diffEvents_tgSend w tg s.knownEvents F
      simp only []
      exact ⟨by rw [h.1], h.2⟩
  refine ⟨hrem.1, hrem.2, hchg.1, hchg.2, ?_⟩
  intro F E w2 hF hE
  have hm := checkReminders_marks cfg w s F E hF hE
  have h0 := checkReminders_of_reminded cfg w2 (checkReminders cfg w s).1 E.ID hm.1
  exact ⟨h0, by rw [h0]; exact hm.2⟩

/-- Instance of C8: the send of the reminder for meeting `A` fails; the check
of the next minute fetches `A` again and attempts nothing for it. -/
theorem send_failure_not_rolled_back_witness :
    (checkReminders cfg30 (worldSendFails 0 [meetingA]) New).2
        = [⟨Notification.reminder meetingA 30, false⟩]
      ∧ remindersFor meetingA.ID
          (checkReminders cfg30 (worldOk 60 [meetingA])
            (checkReminders cfg30 (worldSendFails 0 [meetingA]) New).1).2 = 0 :=
  ⟨by decide,
    ((send_failure_not_rolled_back cfg30 (worldSendFails 0 [meetingA]) (fun _ => true)
      New).2.2.2.2 [meetingA] meetingA (worldOk 60 [meetingA]) rfl (by decide)).1⟩

/-! ## The reminder window -/

theorem wrapInt64_of_fits (x : Int) (h1 : -(2 ^ 63) ≤ x) (h2 : x < 2 ^ 63) :
    wrapInt64 x = x := by
  unfold wrapInt64
  omega

/-- Claim C9 (window tolerance), as amended.  For every clock reading and every
lead time whose length in nanoseconds fits a signed 64-bit duration (at most
153722867 minutes in absolute value), `checkReminders` asks for the window from
30 s before to 30 s after the reading plus the lead; a start exactly at the
reading plus the lead lies inside it; a start 31 s later lies outside it and
inside the window of the check one minute later; and any instant whatever is
inside the window of the check some whole number of minutes away, a later
check when the instant is not before the first window. -/
theorem reminderWindow_tolerance (cfg : Config) (now : Time)
    (hlo : -153722867 ≤ cfg.ReminderMinutes) (hhi : cfg.ReminderMinutes ≤ 153722867) :
    reminderWindow cfg now
        = (now + cfg.ReminderMinutes * Minute - 30 * Second,
            now + cfg.ReminderMinutes * Minute + 30 * Second)
      ∧ inWindow (reminderWindow cfg now) (now + cfg.ReminderMinutes * Minute)
      ∧ ¬ inWindow (reminderWindow cfg now) (now + cfg.ReminderMinutes * Minute + 31 * Second)
      ∧ inWindow (reminderWindow cfg (now + 60 * Second))
          (now + cfg.ReminderMinutes * Minute + 31 * Second)
      ∧ ∀ t : Time, ∃ k : Int, ((reminderWindow cfg now).1 ≤ t → 0 ≤ k)
          ∧ inWindow (reminderWindow cfg (now + k * (60 * Second))) t := by
  have hw : wrapInt64 (cfg.ReminderMinutes * Minute) = cfg.ReminderMinutes * Minute := by
    apply wrapInt64_of_fits
    · simp only [Minute, Second]; omega
    · simp only [Minute, Second]; omega
  have hwin : ∀ n : Time, reminderWindow cfg n
      = (n + cfg.ReminderMinutes * Minute - 30 * Second,
          n + cfg.ReminderMinutes * Minute + 30 * Second) := by
    intro n
    unfold reminderWindow targetStart
    rw [hw]
    refine Prod.ext ?_ rfl
    show (_ : Int) = _
    simp only [Second]
    omega
  refine ⟨hwin now, ?_, ?_, ?_, ?_⟩
  · rw [hwin]; simp only [inWindow, Second, Minute, Time]; constructor <;> omega
  · rw [hwin]; simp only [inWindow, Second, Minute, Time]; omega
  · rw [hwin]; simp only [inWindow, Second, Minute, Time]; constructor <;> omega
  · intro t
    refine ⟨(t - (now + cfg.ReminderMinutes * 60000000000 - 30000000000)) / 60000000000,
      ?_, ?_⟩
    · intro h
      rw [hwin] at h
      simp only [Second, Minute, Time] at h ⊢
      omega
    · rw [hwin]
      simp only [inWindow, Second, Minute, Time]
      constructor <;> omega

/-- Instance of C9: a lead of 30 minutes at clock reading 0. -/
theorem reminderWindow_tolerance_witness :
    (-153722867 ≤ cfg30.ReminderMinutes ∧ cfg30.ReminderMinutes ≤ 153722867)
      ∧ inWindow (reminderWindow cfg30 0) (0 + cfg30.ReminderMinutes * Minute)
      ∧ ¬ inWindow (reminderWindow cfg30 0) (0 + cfg30.ReminderMinutes * Minute + 31 * Second) :=
  ⟨by decide,
    (reminderWindow_tolerance cfg30 0 (by decide) (by decide)).2.1,
    (reminderWindow_tolerance cfg30 0 (by decide) (by decide)).2.2.1⟩

/-- Claim C9 fails as stated: with a lead of 153722868 minutes the 64-bit
product `ReminderMinutes * time.Minute` wraps to a negative duration, and the
window queried at clock reading 0 does not hold the reading plus the lead. -/
theorem reminderWindow_tolerance_counterexample :
    reminderWindow cfgHuge 0 = (-9223372023709551616, -9223371963709551616)
      ∧ ¬ inWindow (reminderWindow cfgHuge 0) (0 + cfgHuge.ReminderMinutes * Minute) := by
  decide

/-- Claim C10 fails on the code: at clock reading 0 with a lead of 30 minutes
the window is minute 29:30 to minute 30:30; a workshop that started at minute
10 and runs to minute 60 overlaps it, the feed returns it, its key is not yet
marked, and `checkReminders` sends a reminder for it although its start is not
in the window. -/
theorem checkReminders_reminds_started_event :
    reminderWindow cfg30 worldWorkshop.now = (1770 * Second, 1830 * Second)
      ∧ worldWorkshop.FetchEvents (reminderWindow cfg30 worldWorkshop.now).1
          (reminderWindow cfg30 worldWorkshop.now).2 = Except.ok [workshop]
      ∧ (checkReminders cfg30 worldWorkshop New).2
          = [⟨Notification.reminder workshop 30, true⟩]
      ∧ ¬ inWindow (reminderWindow cfg30 worldWorkshop.now) workshop.Start := by
  refine ⟨by decide, rfl, by decide, by decide⟩

/-! ## The reminded map only grows -/

theorem reminded_remindOne (cfg : Config) (w : World) (acc : Outcome) (ev : Event)
    (key : String) :
    (key ∈ acc.1.reminded → key ∈ (remindOne cfg w acc ev).1.reminded)
      ∧ (isReminded acc.1 key = true → isReminded (remindOne cfg w acc ev).1 key = true) := by
  unfold remindOne
  cases hm : isReminded acc.1 (reminderKey ev.ID cfg.ReminderMinutes)
  · simp only [hm, Bool.false_eq_true, if_false]
    constructor
    · intro h
      exact (AList.mem_insert _).mpr (Or.inr h)
    · intro h
      have hne : key ≠ reminderKey ev.ID cfg.ReminderMinutes := by
        intro heq
        rw [heq, hm] at h
        cases h
      simpa [isReminded, AList.lookup_insert_ne hne] using h
  · simp [hm]

theorem reminded_foldl_remindOne (cfg : Config) (w : World) (key : String) (F : List Event) :
    ∀ acc : Outcome,
      (key ∈ acc.1.reminded → key ∈ (F.foldl (remindOne cfg w) acc).1.reminded)
        ∧ (isReminded acc.1 key = true →
            isReminded (F.foldl (remindOne cfg w) acc).1 key = true) := by
  induction F with
  | nil => intro acc; exact ⟨id, id⟩
  | cons e rest ih =>
    intro acc
    simp only [List.foldl_cons]
    have h1 := reminded_remindOne cfg w acc e key
    have h2 := ih (remindOne cfg w acc e)
    exact ⟨fun h => h2.1 (h1.1 h), fun h => h2.2 (h1.2 h)⟩

theorem reminded_checkReminders (cfg : Config) (w : World) (s : Scheduler) (key : String) :
    (key ∈ s.reminded → key ∈ (checkReminders cfg w s).1.reminded)
      ∧ (isReminded s key = true → isReminded (checkReminders cfg w s).1 key = true) := by
  unfold checkReminders
  cases w.FetchEvents (reminderWindow cfg w.now).1 (reminderWindow cfg w.now).2 with
  | error e => exact ⟨id, id⟩
  | ok F => exact reminded_foldl_remindOne cfg w key F (s, [])

theorem reminded_checkChanges (w : World) (s : Scheduler) :
    (checkChanges w s).1.reminded = s.reminded := by
  unfold checkChanges
  cases UpcomingEvents w <;> rfl

theorem state_checkMorningSchedule (cfg : Config) (w : World) (s : Scheduler) :
    (checkMorningSchedule cfg w s).1 = s := by
  unfold checkMorningSchedule
  split
  · rfl
  · cases TodayEvents cfg.Location w <;> rfl

theorem isReminded_run (cfg : Config) (c : Check) (s : Scheduler) (key : String)
    (h : isReminded s key = true) : isReminded (c.run cfg s).1 key = true := by
  cases c with
  | reminders w => exact (reminded_checkReminders cfg w s key).2 h
  | changes w =>
    have := reminded_checkChanges w s
    simp only [Check.run, isReminded] at *
    rw [this]; exact h
  | morning w =>
    simp only [Check.run]
    rw [state_checkMorningSchedule]; exact h

theorem isReminded_runChecks (cfg : Config) (key : String) :
    ∀ (cs : List Check) (s : Scheduler), isReminded s key = true →
      isReminded (runChecks cfg cs s).1 key = true := by
  intro cs
  induction cs with
  | nil => intro s h; exact h
  | cons c cs ih =>
    intro s h
    simp only [runChecks]
    exact ih _ (isReminded_run cfg c s key h)

/-- Claim C13 (the reminded map only grows).  Every key of the reminded map
before an invocation of `checkReminders` is a key after it, and a key marked
before is marked after; `checkChanges` and `checkMorningSchedule` return the
reminded map they were given.  Hence once the key of an event is marked, no
sequence of later checks of any kind, a cancellation by `checkChanges`
included, unmarks it, and a `checkReminders` that fetches the identity again
sends no reminder for it. -/
theorem reminded_only_grows (cfg : Config) (w : World) (s : Scheduler) :
    (∀ key, (key ∈ s.reminded → key ∈ (checkReminders cfg w s).1.reminded)
        ∧ (isReminded s key = true → isReminded (checkReminders cfg w s).1 key = true))
      ∧ (checkChanges w s).1.reminded = s.reminded
      ∧ (checkMorningSchedule cfg w s).1.reminded = s.reminded
      ∧ ∀ (E : Event) (cs : List Check) (w2 : World),
          isReminded s (reminderKey E.ID cfg.ReminderMinutes) = true →
          isReminded (runChecks cfg cs s).1 (reminderKey E.ID cfg.ReminderMinutes) = true
            ∧ remindersFor E.ID (checkReminders cfg w2 (runChecks cfg cs s).1).2 = 0 := by
  refine ⟨fun key => reminded_checkReminders cfg w s key, reminded_checkChanges w s,
    by rw [state_checkMorningSchedule], ?_⟩
  intro E cs w2 h
  have h2 := isReminded_runChecks cfg (reminderKey E.ID cfg.ReminderMinutes) cs s h
  exact ⟨h2, checkReminders_of_reminded cfg w2 _ E.ID h2⟩

/-- Instance of C13: meeting `A` is reminded, then cancelled by a change check
that fetches nothing, then fetched again; it is no longer known and still
marked, and no second reminder is sent. -/
theorem reminded_only_grows_witness :
    isReminded (checkReminders cfg30 (worldOk 0 [meetingA]) knowsA).1
        (reminderKey meetingA.ID cfg30.ReminderMinutes) = true
      ∧ (runChecks cfg30 [Check.changes (worldOk 50 [])]
          (checkReminders cfg30 (worldOk 0 [meetingA]) knowsA).1).1.knownEvents.lookup "A" = none
      ∧ remindersFor meetingA.ID
          (checkReminders cfg30 (worldOk 60 [meetingA])
            (runChecks cfg30 [Check.changes (worldOk 50 [])]
              (checkReminders cfg30 (worldOk 0 [meetingA]) knowsA).1).1).2 = 0 :=
  ⟨by decide, by decide,
    ((reminded_only_grows cfg30 (worldOk 0 [meetingA])
      (checkReminders cfg30 (worldOk 0 [meetingA]) knowsA).1).2.2.2 meetingA
      [Check.changes (worldOk 50 [])] (worldOk 60 [meetingA]) (by decide)).2⟩

/-! ## Seeding the known events -/

theorem initKnownEvents_ok (w : World) (s : Scheduler) (F : List Event)
    (h : UpcomingEvents w = Except.ok F) :
    initKnownEvents w s
      = ⟨s.reminded, F.foldl (fun m ev => m.insert ev.ID ev) s.knownEvents⟩ := by
  unfold initKnownEvents
  rw [h]

theorem lookup_foldl_insert_of_mem (F : List Event) (ev : Event) (h : ev ∈ F)
    (m : GoMap Event) :
    ∃ e ∈ F, e.ID = ev.ID
      ∧ (F.foldl (fun m x => m.insert x.ID x) m).lookup ev.ID = some e := by
  obtain ⟨l1, e, l2, hF, hid, hl2⟩ := exists_last_with_ID ev.ID F ⟨ev, h, rfl⟩
  refine ⟨e, by rw [hF]; simp, hid, ?_⟩
  have := lookup_foldl_insert_last l1 l2 e (by rw [hid]; exact hl2) m
  rw [← hF, hid] at this
  exact this

theorem diffEvents_after_seeding (w : World) (S : GoMap Event) (F : List Event)
    (hsame : ∀ id, SameStart F id)
    (hkeys : ∀ id, (∀ e ∈ F, e.ID ≠ id) → S.lookup id = none) :
    (diffEvents w (F.foldl (fun m ev => m.insert ev.ID ev) S) F).2 = [] := by
  rw [diffEvents_eq]
  simp only []
  have hA : ∀ e ∈ F, ∃ p,
      (F.foldl (fun m ev => m.insert ev.ID ev) S).lookup e.ID = some p
        ∧ p.Start = e.Start := by
    intro e he
    obtain ⟨e2, he2, hid, hl⟩ := lookup_foldl_insert_of_mem F e he S
    exact ⟨e2, hl, hsame e.ID e2 he2 e he hid rfl⟩
  have hfilter : (F.foldl (fun m ev => m.insert ev.ID ev)
      (F.foldl (fun m ev => m.insert ev.ID ev) S)).entries.filter (shouldCancel w F) = [] := by
    rw [List.filter_eq_nil_iff]
    rintro ⟨k, p⟩ he
    have hl := AList.mem_lookup_iff.mpr he
    by_cases hin : ∃ e ∈ F, e.ID = k
    · obtain ⟨e, hmem, hid⟩ := hin
      rw [← hid, shouldCancel_of_mem w F e p hmem]
      simp
    · have hne : ∀ e ∈ F, e.ID ≠ k := fun e hmem hid => hin ⟨e, hmem, hid⟩
      rw [lookup_foldl_insert_of_forall_ne k F hne,
        lookup_foldl_insert_of_forall_ne k F hne, hkeys k hne] at hl
      cases hl
  rw [hfilter, foldl_changeOne_quiet w F hsame
    ((F.foldl (fun m ev => m.insert ev.ID ev) S), []) hA]
  rfl

/-- Claim C16 (seeding does not notify), as amended.  `initKnownEvents` has no
send at all (it returns only the state).  Run on the fresh scheduler with a
fetch that returns `F`, it leaves a known-events map whose keys are exactly the
identities of `F`, each mapped to the snapshot fetched for it (the one listed
last when listed several times); a `checkChanges` run on that state with the
same list `F` sends nothing, provided events of `F` that share an identity
share their start; and when the initial fetch fails the map stays empty. -/
theorem initKnownEvents_seeds (w : World) (F : List Event) :
    (UpcomingEvents w = Except.ok F →
        (∀ id, id ∈ (initKnownEvents w New).knownEvents ↔ ∃ ev ∈ F, ev.ID = id)
          ∧ (∀ l1 ev l2, F = l1 ++ ev :: l2 → (∀ e ∈ l2, e.ID ≠ ev.ID) →
              (initKnownEvents w New).knownEvents.lookup ev.ID = some ev)
          ∧ (∀ w2, UpcomingEvents w2 = Except.ok F → (∀ id, SameStart F id) →
              (checkChanges w2 (initKnownEvents w New)).2 = []))
      ∧ (∀ e, UpcomingEvents w = Except.error e →
          (initKnownEvents w New).knownEvents = ∅) := by
  constructor
  · intro hfetch
    rw [initKnownEvents_ok w New F hfetch]
    simp only []
    refine ⟨?_, ?_, ?_⟩
    · intro id
      rw [← AList.lookup_isSome]
      by_cases hin : ∃ ev ∈ F, ev.ID = id
      · obtain ⟨ev, hev, hid⟩ := hin
        obtain ⟨e, _, _, hl⟩ := lookup_foldl_insert_of_mem F ev hev New.knownEvents
        rw [hid] at hl
        simp only [hl, Option.isSome_some, true_iff]
        exact ⟨ev, hev, hid⟩
      · have hne : ∀ e ∈ F, e.ID ≠ id := fun e he hid => hin ⟨e, he, hid⟩
        rw [lookup_foldl_insert_of_forall_ne id F hne]
        simp [hin, New]
    · intro l1 ev l2 hF hl2
      rw [hF]
      exact lookup_foldl_insert_last l1 l2 ev hl2 _
    · intro w2 hfetch2 hsame
      rw [checkChanges_ok w2 _ F hfetch2]
      simp only []
      exact diffEvents_after_seeding w2 New.knownEvents F hsame
        (fun id _ => by simp [New])
  · intro e herr
    unfold initKnownEvents
    rw [herr]
    rfl

/-- Instance of C16: seeding with meetings `A` and `B`, then a change check on
the same list. -/
theorem initKnownEvents_seeds_witness :
    (initKnownEvents (worldOk 0 [meetingA, meetingB]) New).knownEvents.lookup meetingB.ID
        = some meetingB
      ∧ (checkChanges (worldOk 300 [meetingA, meetingB])
          (initKnownEvents (worldOk 0 [meetingA, meetingB]) New)).2 = []
      ∧ (initKnownEvents (worldFetchFails 0) New).knownEvents = ∅ :=
  ⟨((initKnownEvents_seeds (worldOk 0 [meetingA, meetingB]) [meetingA, meetingB]).1 rfl).2.1
      [meetingA] meetingB [] rfl (by decide),
    ((initKnownEvents_seeds (worldOk 0 [meetingA, meetingB]) [meetingA, meetingB]).1 rfl).2.2
      (worldOk 300 [meetingA, meetingB]) rfl
      (sameStart_of_nodup [meetingA, meetingB] (by decide)),
    (initKnownEvents_seeds (worldFetchFails 0) []).2 "timeout" rfl⟩

/-- Claim C16 fails as stated: seeded with a list that holds identity `A` with
two starts, the change check run right after on the same list sends `moved`
twice. -/
theorem initKnownEvents_seeds_counterexample :
    (checkChanges (worldOk 0 [meetingA, meetingAMoved])
        (initKnownEvents (worldOk 0 [meetingA, meetingAMoved]) New)).2
      = [⟨Notification.eventChanged meetingA "moved", true⟩,
         ⟨Notification.eventChanged meetingAMoved "moved", true⟩] := by
  decide

/-! ## The morning schedule -/

set_option maxRecDepth 100000 in
theorem pad2_eq_digits : ∀ n, n < 100 →
    pad2 n = String.mk [Nat.digitChar (n / 10), Nat.digitChar (n % 10)] := by
  decide

theorem digitChar_inj : ∀ a, a < 10 → ∀ b, b < 10 →
    Nat.digitChar a = Nat.digitChar b → a = b := by
  decide

theorem pad2_inj (a b : Nat) (ha : a < 100) (hb : b < 100) (h : pad2 a = pad2 b) : a = b := by
  rw [pad2_eq_digits a ha, pad2_eq_digits b hb] at h
  have h2 := congrArg String.data h
  simp only [List.cons.injEq, and_true] at h2
  have h10 := digitChar_inj (a / 10) (by omega) (b / 10) (by omega) h2.1
  have h1 := digitChar_inj (a % 10) (Nat.mod_lt _ (by omega)) (b % 10)
    (Nat.mod_lt _ (by omega)) h2.2
  omega

theorem localHour_lt (loc : Location) (t : Time) : localHour loc t < 24 := by
  unfold localHour
  omega

theorem localMinute_lt (loc : Location) (t : Time) : localMinute loc t < 60 := by
  unfold localMinute
  omega

theorem clockText_inj (loc : Location) (t1 t2 : Time)
    (h : clockText loc t1 = clockText loc t2) :
    localHour loc t1 = localHour loc t2 ∧ localMinute loc t1 = localMinute loc t2 := by
  unfold clockText at h
  have hh1 := localHour_lt loc t1
  have hh2 := localHour_lt loc t2
  have hm1 := localMinute_lt loc t1
  have hm2 := localMinute_lt loc t2
  rw [pad2_eq_digits _ (by omega : localHour loc t1 < 100),
    pad2_eq_digits _ (by omega : localHour loc t2 < 100),
    pad2_eq_digits _ (by omega : localMinute loc t1 < 100),
    pad2_eq_digits _ (by omega : localMinute loc t2 < 100)] at h
  have h2 := congrArg String.data h
  simp only [String.data_append, List.cons_append, List.nil_append, List.cons.injEq,
    and_true, true_and] at h2
  obtain ⟨a, b, c, d⟩ := h2
  have e1 := digitChar_inj _ (by omega) _ (by omega) a
  have e2 := digitChar_inj _ (Nat.mod_lt _ (by omega)) _ (Nat.mod_lt _ (by omega)) b
  have e3 := digitChar_inj _ (by omega) _ (by omega) c
  have e4 := digitChar_inj _ (Nat.mod_lt _ (by omega)) _ (Nat.mod_lt _ (by omega)) d
  constructor <;> omega

theorem same_minute_arith (t1 t2 off : Int)
    (h1 : t1 - (t1 + off * 1000000000) % 86400000000000
      = t2 - (t2 + off * 1000000000) % 86400000000000)
    (h2 : (((t1 + off * 1000000000) / 3600000000000) % 24).toNat
      = (((t2 + off * 1000000000) / 3600000000000) % 24).toNat)
    (h3 : (((t1 + off * 1000000000) / 60000000000) % 60).toNat
      = (((t2 + off * 1000000000) / 60000000000) % 60).toNat) :
    t2 - t1 < 60000000000 ∧ t1 - t2 < 60000000000 := by
  have h4 : (t1 + off * 1000000000) / 86400000000000
      = (t2 + off * 1000000000) / 86400000000000 := by
    omega
  have h5 : (t1 + off * 1000000000) / 60000000000
      = (t2 + off * 1000000000) / 60000000000 := by
    clear h1
    omega
  clear h1 h2 h3 h4
  omega

theorem same_minute_of_same_clock (loc : Location) (t1 t2 : Time)
    (hday : startOfDay loc t1 = startOfDay loc t2)
    (hh : localHour loc t1 = localHour loc t2)
    (hm : localMinute loc t1 = localMinute loc t2) :
    t2 - t1 < 60 * Second ∧ t1 - t2 < 60 * Second := by
  have hS : Second = 1000000000 := rfl
  have hM : Minute = 60000000000 := by decide
  have hH : Hour = 3600000000000 := by decide
  have hD : (24 : Int) * Hour = 86400000000000 := by decide
  have h60 : (60 : Int) * Second = 60000000000 := by decide
  unfold startOfDay at hday
  unfold localHour at hh
  unfold localMinute at hm
  rw [hD, hS] at hday
  rw [hH, hS] at hh
  rw [hM, hS] at hm
  rw [h60]
  exact same_minute_arith t1 t2 loc.offset hday hh hm

theorem checkMorningSchedule_sends (cfg : Config) (w : World) (s : Scheduler) :
    ((checkMorningSchedule cfg w s).2 ≠ [] → clockText cfg.Location w.now = cfg.MorningScheduleTime)
      ∧ (checkMorningSchedule cfg w s).2.length ≤ 1 := by
  unfold checkMorningSchedule clockText
  by_cases h : pad2 (localHour cfg.Location w.now) ++ ":" ++ pad2 (localMinute cfg.Location w.now)
      = cfg.MorningScheduleTime
  · simp only [ne_eq, h, not_true_eq_false, if_false]
    cases TodayEvents cfg.Location w <;> simp
  · simp [h]

theorem runMorning_cons (cfg : Config) (w : World) (ws : List World) (s : Scheduler) :
    (runMorning cfg (w :: ws) s).2
      = (checkMorningSchedule cfg w s).2 ++ (runMorning cfg ws s).2 := by
  simp only [runMorning, List.map_cons, runChecks, Check.run]
  rw [state_checkMorningSchedule]

theorem filter_length_le_one_of_pairwise {α : Type} (p : α → Bool) (l : List α)
    (h : l.Pairwise (fun a b => ¬ (p a = true ∧ p b = true))) : (l.filter p).length ≤ 1 := by
  induction l with
  | nil => simp
  | cons a rest ih =>
    rw [List.pairwise_cons] at h
    have hrest := ih h.2
    cases hp : p a
    · simpa [List.filter_cons, hp] using hrest
    · have hnil : rest.filter p = [] := by
        rw [List.filter_eq_nil_iff]
        intro b hb hpb
        exact h.1 b hb ⟨hp, hpb⟩
      simp [List.filter_cons, hp, hnil]

theorem runMorning_length_le (cfg : Config) (s : Scheduler) (ws : List World) :
    (runMorning cfg ws s).2.length
      ≤ (ws.filter (fun w =>
          decide (clockText cfg.Location w.now = cfg.MorningScheduleTime))).length := by
  induction ws with
  | nil => simp [runMorning, runChecks]
  | cons w rest ih =>
    rw [runMorning_cons, List.length_append]
    have h := checkMorningSchedule_sends cfg w s
    by_cases hc : clockText cfg.Location w.now = cfg.MorningScheduleTime
    · simp only [List.filter_cons, hc, decide_True, if_true, List.length_cons]
      omega
    · have hnil : (checkMorningSchedule cfg w s).2 = [] := by
        by_contra hne
        exact hc (h.1 hne)
      simp only [List.filter_cons, hc, decide_False, Bool.false_eq_true, if_false, hnil,
        List.length_nil]
      omega

theorem minutes_differ_of_apart (loc : Location) (l : List World)
    (hapart : l.Pairwise (fun a b => a.now + 60 * Second ≤ b.now)) :
    l.Pairwise (fun a b =>
      ¬ (startOfDay loc a.now = startOfDay loc b.now
          ∧ localHour loc a.now = localHour loc b.now
          ∧ localMinute loc a.now = localMinute loc b.now)) := by
  refine List.Pairwise.imp ?_ hapart
  intro a b hge hsame
  have hlt := (same_minute_of_same_clock loc a.now b.now hsame.1 hsame.2.1 hsame.2.2).1
  have hlt2 : b.now < a.now + 60 * Second := by
    have := add_lt_add_right hlt a.now
    simpa [sub_add_cancel, add_comm] using this
  exact absurd hge (not_le.mpr hlt2)

/-- Claim C14 (the morning schedule fires at most once per day), as amended.
For every configured string and every sequence of invocations of
`checkMorningSchedule` whose instants lie in one local calendar day, no two of
them in the same wall-clock minute (same local day, hour and minute), at most
one day-schedule message is sent in all; an invocation sends only when the
zero-padded local hour and minute of its instant, joined by a colon, equal the
configured string; and every invocation that reads the configured string and
whose fetch succeeds sends, whatever was sent before. -/
theorem morning_schedule_once (cfg : Config) (ws : List World) (s : Scheduler) (day : Time)
    (hday : ∀ w ∈ ws, startOfDay cfg.Location w.now = day)
    (hminute : ws.Pairwise (fun a b =>
      ¬ (startOfDay cfg.Location a.now = startOfDay cfg.Location b.now
          ∧ localHour cfg.Location a.now = localHour cfg.Location b.now
          ∧ localMinute cfg.Location a.now = localMinute cfg.Location b.now))) :
    (runMorning cfg ws s).2.length ≤ 1
      ∧ (∀ (w : World) (s2 : Scheduler), (checkMorningSchedule cfg w s2).2 ≠ [] →
          clockText cfg.Location w.now = cfg.MorningScheduleTime)
      ∧ ∀ (w : World) (s2 : Scheduler) (events : List Event),
          clockText cfg.Location w.now = cfg.MorningScheduleTime →
          TodayEvents cfg.Location w = Except.ok events →
          checkMorningSchedule cfg w s2 = (s2, [send w (Notification.daySchedule events)]) := by
  refine ⟨?_, fun w s2 => (checkMorningSchedule_sends cfg w s2).1, ?_⟩
  · refine le_trans (runMorning_length_le cfg s ws) ?_
    apply filter_length_le_one_of_pairwise
    refine List.Pairwise.imp_of_mem ?_ hminute
    intro a b ha hb hne hboth
    simp only [decide_eq_true_eq] at hboth
    have hclock := clockText_inj cfg.Location a.now b.now (hboth.1.trans hboth.2.symm)
    exact hne ⟨(hday a ha).trans (hday b hb).symm, hclock.1, hclock.2⟩
  · intro w s2 events hclock hfetch
    unfold clockText at hclock
    unfold checkMorningSchedule
    simp [hclock, hfetch]

/-- Instance of C14: checks at 09:00:30 and 09:01:10 of the first day with
`09:00` configured, 40 s apart in different minutes; the first one sends. -/
theorem morning_schedule_once_witness :
    (runMorning cfg30
        [worldOk (9 * Hour + 30 * Second) [meetingA],
          worldOk (9 * Hour + 70 * Second) [meetingA]] New).2.length ≤ 1
      ∧ (runMorning cfg30
        [worldOk (9 * Hour + 30 * Second) [meetingA],
          worldOk (9 * Hour + 70 * Second) [meetingA]] New).2
        = [⟨Notification.daySchedule [meetingA], true⟩] :=
  ⟨(morning_schedule_once cfg30
    [worldOk (9 * Hour + 30 * Second) [meetingA], worldOk (9 * Hour + 70 * Second) [meetingA]]
    New 0
    (by
      intro w hw
      simp only [List.mem_cons, List.mem_singleton, List.not_mem_nil, or_false] at hw
      rcases hw with rfl | rfl <;> decide)
    (by
      refine List.Pairwise.cons ?_ (List.Pairwise.cons ?_ List.Pairwise.nil)
      · intro b hb
        simp only [List.mem_singleton] at hb
        subst hb
        decide
      · intro b hb
        cases hb)).1,
    by decide⟩

/-- Claim C14 fails as stated: two invocations of the same local day, at
09:00:00 and 09:00:30, both read `09:00` and both send the day schedule. -/
theorem morning_schedule_once_counterexample :
    startOfDay cfg30.Location (9 * Hour) = startOfDay cfg30.Location (9 * Hour + 30 * Second)
      ∧ (runMorning cfg30
          [worldOk (9 * Hour) [meetingA], worldOk (9 * Hour + 30 * Second) [meetingA]] New).2
        = [⟨Notification.daySchedule [meetingA], true⟩,
           ⟨Notification.daySchedule [meetingA], true⟩] := by
  decide

/-! ## The reminder key -/

theorem digitChar_facts : ∀ k, k < 10 →
    (Nat.digitChar k).toNat - 48 = k ∧ Nat.digitChar k ≠ '-' := by
  decide

theorem decValue_append_singleton (cs : List Char) (c : Char) :
    decValue (cs ++ [c]) = 10 * decValue cs + (c.toNat - 48) := by
  simp [decValue, List.foldl_append]

theorem toDigitsCore_spec : ∀ (fuel n : Nat) (ds : List Char), n < fuel →
    ∃ pre, Nat.toDigitsCore 10 fuel n ds = pre ++ ds
      ∧ (∀ c ∈ pre, c ≠ '-') ∧ decValue pre = n := by
  intro fuel
  induction fuel with
  | zero => intro n ds h; omega
  | succ fuel ih =>
    intro n ds h
    have hd := digitChar_facts (n % 10) (Nat.mod_lt _ (by omega))
    by_cases h0 : n / 10 = 0
    · refine ⟨[Nat.digitChar (n % 10)], ?_, ?_, ?_⟩
      · simp [Nat.toDigitsCore, h0]
      · intro c hc
        simp only [List.mem_singleton] at hc
        rw [hc]; exact hd.2
      · have : decValue [Nat.digitChar (n % 10)] = (Nat.digitChar (n % 10)).toNat - 48 := by
          simp [decValue]
        rw [this, hd.1]
        omega
    · obtain ⟨pre, hpre, hdig, hval⟩ :=
        ih (n / 10) (Nat.digitChar (n % 10) :: ds) (by omega)
      refine ⟨pre ++ [Nat.digitChar (n % 10)], ?_, ?_, ?_⟩
      · simp [Nat.toDigitsCore, h0, hpre]
      · intro c hc
        rcases List.mem_append.mp hc with h1 | h1
        · exact hdig c h1
        · simp only [List.mem_singleton] at h1
          rw [h1]; exact hd.2
      · rw [decValue_append_singleton, hval, hd.1]
        omega

theorem repr_spec (n : Nat) :
    (∀ c ∈ (Nat.repr n).data, c ≠ '-') ∧ decValue (Nat.repr n).data = n := by
  obtain ⟨pre, hpre, hdig, hval⟩ := toDigitsCore_spec (n + 1) n [] (by omega)
  have hdata : (Nat.repr n).data = pre := by
    simp [Nat.repr, Nat.toDigits, hpre, List.asString]
  rw [hdata]
  exact ⟨hdig, hval⟩

theorem toString_natCast (n : Nat) : toString ((n : Nat) : Int) = Nat.repr n := rfl

theorem append_cons_cancel_of_not_mem {c : Char} :
    ∀ (x y a b : List Char), c ∉ x → c ∉ y → x ++ c :: a = y ++ c :: b → x = y ∧ a = b := by
  intro x
  induction x with
  | nil =>
    intro y a b _ hy h
    cases y with
    | nil => simpa using h
    | cons y0 ys =>
      simp only [List.nil_append, List.cons_append, List.cons.injEq] at h
      exact absurd (List.mem_cons.mpr (Or.inl h.1)) hy
  | cons x0 xs ih =>
    intro y a b hx hy h
    cases y with
    | nil =>
      simp only [List.nil_append, List.cons_append, List.cons.injEq] at h
      exact absurd (List.mem_cons.mpr (Or.inl h.1.symm)) hx
    | cons y0 ys =>
      simp only [List.cons_append, List.cons.injEq] at h
      have hx2 : c ∉ xs := fun hm => hx (List.mem_cons_of_mem _ hm)
      have hy2 : c ∉ ys := fun hm => hy (List.mem_cons_of_mem _ hm)
      obtain ⟨e1, e2⟩ := ih ys a b hx2 hy2 h.2
      exact ⟨by rw [h.1, e1], e2⟩

/-- Claim C19 (the reminder key has no collisions).  For all identities and
all non-negative lead times, the keys `identity-lead` built by `checkReminders`
are equal only when both the identities and the lead times are equal, whatever
characters the identities hold; and for one lead time, of any sign, events with
different identities have different keys. -/
theorem reminderKey_inj (id1 id2 : String) (l1 l2 : Int) (h1 : 0 ≤ l1) (h2 : 0 ≤ l2) :
    (reminderKey id1 l1 = reminderKey id2 l2 → id1 = id2 ∧ l1 = l2)
      ∧ ∀ (l : Int) (e1 e2 : Event), e1.ID ≠ e2.ID →
          reminderKey e1.ID l ≠ reminderKey e2.ID l := by
  constructor
  · intro h
    obtain ⟨n1, rfl⟩ := Int.eq_ofNat_of_zero_le h1
    obtain ⟨n2, rfl⟩ := Int.eq_ofNat_of_zero_le h2
    unfold reminderKey at h
    rw [toString_natCast, toString_natCast] at h
    have hd := congrArg String.data h
    simp only [String.data_append] at hd
    have hr : (Nat.repr n1).data.reverse ++ '-' :: id1.data.reverse
        = (Nat.repr n2).data.reverse ++ '-' :: id2.data.reverse := by
      have := congrArg List.reverse hd
      simpa [List.reverse_append] using this
    have hn1 : '-' ∉ (Nat.repr n1).data.reverse := fun hm =>
      (repr_spec n1).1 '-' (List.mem_reverse.mp hm) rfl
    have hn2 : '-' ∉ (Nat.repr n2).data.reverse := fun hm =>
      (repr_spec n2).1 '-' (List.mem_reverse.mp hm) rfl
    obtain ⟨e1, e2⟩ := append_cons_cancel_of_not_mem _ _ _ _ hn1 hn2 hr
    have hid : id1.data = id2.data := List.reverse_injective e2
    have hrepr : (Nat.repr n1).data = (Nat.repr n2).data := List.reverse_injective e1
    have hn : n1 = n2 := by
      rw [← (repr_spec n1).2, ← (repr_spec n2).2, hrepr]
    exact ⟨String.ext hid, by rw [hn]⟩
  · intro l e1 e2 hne h
    exact hne (reminderKey_left_inj _ _ _ h)

/-- Instance of C19: identities that hold hyphens and digits. -/
theorem reminderKey_inj_witness :
    ((0 : Int) ≤ 15 ∧ (0 : Int) ≤ 5)
      ∧ (reminderKey "a-1" 5 = reminderKey "a" 15 → "a-1" = "a" ∧ (5 : Int) = 15)
      ∧ reminderKey "a-1" 5 ≠ reminderKey "a" 15 :=
  ⟨by decide, (reminderKey_inj "a-1" "a" 5 15 (by decide) (by decide)).1, by decide⟩

/-! ## Converting parsed entries -/

/-- Claim C11 (unusable entries are discarded by the Event Source).  For
every outcome of the parser and every entry of it whose title or whose `Uid`
is empty, `convertEvent` returns no event: the outcome holds no entry with an
empty `Uid`, and an entry with an empty title is dropped whatever its `Uid`.
`FetchEvents` then returns a list that holds exactly the events that
`convertEvent` returns for the titled entries, each with the `Uid` of its entry
as identity, so that every event of the list has a non-empty identity and a
non-empty title; and on a parse error it returns an error and no list. -/
theorem FetchEvents_discards_unusable (feed : ParsedFeed) (loc : Location) :
    (∀ e ∈ feed.Events, (e.Summary = "" ∨ e.Uid = "") → convertEvent e loc = none)
      ∧ (∀ e : GocalEvent, e.Summary = "" → convertEvent e loc = none)
      ∧ (∀ e ∈ feed.Events, e.Uid ≠ "")
      ∧ (∃ events, FetchEvents (Except.ok feed) loc = Except.ok events
          ∧ (∀ ev, ev ∈ events ↔
              ∃ e ∈ feed.Events, e.Summary ≠ "" ∧ convertEvent e loc = some ev
                ∧ ev.ID = e.Uid ∧ ev.Title = e.Summary)
          ∧ ∀ ev ∈ events, ev.ID ≠ "" ∧ ev.Title ≠ "")
      ∧ ∀ err, ∃ msg, FetchEvents (Except.error err) loc = Except.error msg := by
  have huid : ∀ e ∈ feed.Events, e.Uid ≠ "" := by
    intro e he
    have h := List.all_eq_true.mp feed.identified e he
    simpa using h
  have hnone : ∀ e : GocalEvent, e.Summary = "" → convertEvent e loc = none := by
    intro e h
    simp [convertEvent, h]
  have hsome : ∀ (e : GocalEvent) (ev : Event), convertEvent e loc = some ev →
      e.Summary ≠ "" ∧ ev.ID = e.Uid ∧ ev.Title = e.Summary := by
    intro e ev h
    unfold convertEvent at h
    by_cases hs : e.Summary = ""
    · simp [hs] at h
    · simp only [hs, if_false, Option.some.injEq] at h
      rw [← h]
      exact ⟨hs, rfl, rfl⟩
  have hmem : ∀ ev, ev ∈ convertEvents feed.Events loc ↔
      ∃ e ∈ feed.Events, e.Summary ≠ "" ∧ convertEvent e loc = some ev
        ∧ ev.ID = e.Uid ∧ ev.Title = e.Summary := by
    intro ev
    unfold convertEvents
    rw [List.mem_filterMap]
    constructor
    · rintro ⟨e, he, hc⟩
      exact ⟨e, he, (hsome e ev hc).1, hc, (hsome e ev hc).2⟩
    · rintro ⟨e, he, _, hc, _⟩
      exact ⟨e, he, hc⟩
  refine ⟨?_, hnone, huid, ⟨convertEvents feed.Events loc, rfl, hmem, ?_⟩, fun err => ⟨_, rfl⟩⟩
  · intro e he h
    rcases h with h | h
    · exact hnone e h
    · exact absurd h (huid e he)
  · intro ev hev
    obtain ⟨e, he, hs, _, hid, ht⟩ := (hmem ev).mp hev
    rw [hid, ht]
    exact ⟨huid e he, hs⟩

/-- Instance of C11: of a parsed feed of two entries, the one without title is
dropped and the other is returned under its `Uid`. -/
theorem FetchEvents_discards_unusable_witness :
    convertEvent ⟨"u1", "", "text", "", none, none, none⟩ ⟨0⟩ = none
      ∧ (FetchEvents
          (Except.ok ⟨[⟨"u1", "", "text", "", none, none, none⟩, entryBareMeet], by decide⟩)
          ⟨0⟩).map (fun events => events.map (fun ev => (ev.ID, ev.Title)))
        = Except.ok [("m1", entryBareMeet.Summary)] :=
  ⟨(FetchEvents_discards_unusable
      ⟨[⟨"u1", "", "text", "", none, none, none⟩, entryBareMeet], by decide⟩ ⟨0⟩).2.1 _ rfl,
    by rfl⟩

/-- The test of C11 on the identity is the parser's, not that of
`convertEvent`: called on an entry with a title and an empty `Uid`, which no
outcome of the parser holds, `convertEvent` returns an event with an empty
identity. -/
theorem convertEvent_copies_uid :
    entryNoUid.Uid = ""
      ∧ (convertEvent entryNoUid ⟨0⟩).map Event.ID = some "" := by
  decide

/-! ## Trimming and the Meet link -/

theorem dropSuffixChars_keeps (c : Char) (y : List Char) (hc : isLinkSuffix c = false) :
    ∀ x : List Char, ∃ x2, dropSuffixChars (x ++ c :: y) = x2 ++ c :: y := by
  intro x
  induction x with
  | nil => exact ⟨[], by simp [dropSuffixChars, hc]⟩
  | cons a rest ih =>
    by_cases ha : isLinkSuffix a = true
    · obtain ⟨x2, hx2⟩ := ih
      exact ⟨x2, by simp [dropSuffixChars, ha, hx2]⟩
    · exact ⟨a :: rest, by simp [dropSuffixChars, ha]⟩

theorem trimLinkSuffix_keeps (a b : List Char) (c : Char) (hc : isLinkSuffix c = false) :
    ∃ b2, (trimLinkSuffix (String.mk (a ++ c :: b))).data = a ++ c :: b2 := by
  obtain ⟨x2, hx2⟩ := dropSuffixChars_keeps c a.reverse hc b.reverse
  refine ⟨x2.reverse, ?_⟩
  unfold trimLinkSuffix
  have hrev : (a ++ c :: b).reverse = b.reverse ++ c :: a.reverse := by simp
  simp only [hrev, hx2]
  simp

theorem containsMeet_trimLinkSuffix (w : String) (h : containsMeet w = true) :
    meetHost <:+: (trimLinkSuffix w).data ∧ trimLinkSuffix w ≠ "" := by
  unfold containsMeet at h
  simp only [decide_eq_true_eq] at h
  obtain ⟨a, b, hab⟩ := h
  have hsplit : meetHost = meetHost.dropLast ++ ['m'] := by decide
  have hw : w = String.mk ((a ++ meetHost.dropLast) ++ 'm' :: b) := by
    apply String.ext
    rw [← hab]
    nth_rewrite 1 [hsplit]
    simp
  obtain ⟨b2, hb2⟩ := trimLinkSuffix_keeps (a ++ meetHost.dropLast) b 'm' (by decide)
  rw [← hw] at hb2
  constructor
  · refine ⟨a, b2, ?_⟩
    rw [hb2]
    nth_rewrite 1 [hsplit]
    simp
  · intro hempty
    rw [hempty] at hb2
    have := congrArg List.length hb2
    simp at this
    omega

theorem findMeetLink_some (text w : String)
    (h : (splitWords text).find? containsMeet = some w) :
    findMeetLink text = trimLinkSuffix w ∧ findMeetLink text ≠ "" := by
  unfold findMeetLink
  rw [h]
  exact ⟨rfl, (containsMeet_trimLinkSuffix w (by simpa using List.find?_some h)).2⟩

theorem findMeetLink_none (text : String)
    (h : (splitWords text).find? containsMeet = none) : findMeetLink text = "" := by
  unfold findMeetLink
  rw [h]

theorem findMeetLink_contains (text : String) (h : findMeetLink text ≠ "") :
    meetHost <:+: (findMeetLink text).data := by
  cases hf : (splitWords text).find? containsMeet with
  | none => exact absurd (findMeetLink_none text hf) h
  | some w =>
    rw [(findMeetLink_some text w hf).1]
    exact (containsMeet_trimLinkSuffix w (by simpa using List.find?_some hf)).1

/-- Claim C18 (the meeting link), as amended.  For every entry with a title,
`convertEvent` sets `MeetLink` to the first word of the description that
contains `meet.google.com`, a word being a maximal run of characters other
than space, line feed, tab, carriage return, `<`, `>`, double quote and
backslash, with its trailing `.`, `,`, `;`, `:`, `!`, `?`, `)`, double quotes
and apostrophes removed; to the first such word of the location when the
description has none; and to the empty string when neither has one.  A
non-empty `MeetLink` contains `meet.google.com`. -/
theorem convertEvent_meetLink (e : GocalEvent) (loc : Location) (h : e.Summary ≠ "") :
    ∃ ev, convertEvent e loc = some ev
      ∧ (∀ w, (splitWords e.Description).find? containsMeet = some w →
          ev.MeetLink = trimLinkSuffix w)
      ∧ ((splitWords e.Description).find? containsMeet = none →
          ∀ w, (splitWords e.Location).find? containsMeet = some w →
            ev.MeetLink = trimLinkSuffix w)
      ∧ ((splitWords e.Description).find? containsMeet = none →
          (splitWords e.Location).find? containsMeet = none → ev.MeetLink = "")
      ∧ (ev.MeetLink ≠ "" → meetHost <:+: ev.MeetLink.data) := by
  have hlink : ∀ d l : String,
      (([d, l].map findMeetLink).find? (fun link => link ≠ "")).getD ""
        = if findMeetLink d ≠ "" then findMeetLink d else findMeetLink l := by
    intro d l
    by_cases hd : findMeetLink d = ""
    · by_cases hl : findMeetLink l = ""
      · simp [List.find?, hd, hl]
      · simp [List.find?, hd, hl]
    · simp [List.find?, hd]
  cases hc : convertEvent e loc with
  | none => simp [convertEvent, h] at hc
  | some ev =>
    have hm : ev.MeetLink
        = if findMeetLink e.Description ≠ "" then findMeetLink e.Description
          else findMeetLink e.Location := by
      simp only [convertEvent, h, if_false, Option.some.injEq] at hc
      rw [← hc]
      exact hlink _ _
    refine ⟨ev, rfl, ?_, ?_, ?_, ?_⟩
    · intro w hw
      obtain ⟨h1, h2⟩ := findMeetLink_some e.Description w hw
      rw [hm, if_pos h2, h1]
    · intro hnone w hw
      rw [hm, findMeetLink_none e.Description hnone]
      simp [(findMeetLink_some e.Location w hw).1]
    · intro hd hl
      rw [hm, findMeetLink_none e.Description hd, findMeetLink_none e.Location hl]
      simp
    · intro hne
      rw [hm] at hne ⊢
      by_cases hd : findMeetLink e.Description = ""
      · simp only [hd, ne_eq, not_true_eq_false, if_false] at hne ⊢
        exact findMeetLink_contains e.Location hne
      · simp only [ne_eq, hd, not_false_eq_true, if_true]
        exact findMeetLink_contains e.Description hd

/-- Instance of C18: the link inside an HTML tag is cut out at the quotes. -/
theorem convertEvent_meetLink_witness :
    entryHtmlMeet.Summary ≠ ""
      ∧ (convertEvent entryHtmlMeet ⟨0⟩).map Event.MeetLink = some "https://meet.google.com/xyz"
      ∧ ∃ ev, convertEvent entryHtmlMeet ⟨0⟩ = some ev
          ∧ (ev.MeetLink ≠ "" → meetHost <:+: ev.MeetLink.data) :=
  ⟨by decide, by decide,
    (convertEvent_meetLink entryHtmlMeet ⟨0⟩ (by decide)).imp
      (fun _ hev => ⟨hev.1, hev.2.2.2.2⟩)⟩

/-- Claim C18 fails as stated: a description that names the Meet host without
a scheme yields a non-empty `MeetLink` that starts neither with `http://` nor
with `https://`; and for a link inside an HTML tag the link kept is not the
whitespace-delimited word that contains it. -/
theorem convertEvent_meetLink_counterexample :
    (convertEvent entryBareMeet ⟨0⟩).map Event.MeetLink = some "meet.google.com/abc-defg-hij"
      ∧ startsWithHttp "meet.google.com/abc-defg-hij" = false
      ∧ (convertEvent entryHtmlMeet ⟨0⟩).map Event.MeetLink
          = some "https://meet.google.com/xyz"
      ∧ (convertEvent entryHtmlMeet ⟨0⟩).map Event.MeetLink
          ≠ some (trimLinkSuffix "href=\"https://meet.google.com/xyz\">join</a>") := by
  decide

/-! ## Links of a description -/

theorem startsWithHttp_trimLinkSuffix (w : String) (h : startsWithHttp w = true) :
    startsWithHttp (trimLinkSuffix w) = true := by
  have key : ∀ scheme : List Char, scheme = scheme.dropLast ++ ['/'] → scheme <+: w.data →
      scheme <+: (trimLinkSuffix w).data := by
    intro scheme hsplit hpre
    obtain ⟨rest, hrest⟩ := hpre
    have hw : w = String.mk (scheme.dropLast ++ '/' :: rest) := by
      apply String.ext
      rw [← hrest]
      nth_rewrite 1 [hsplit]
      simp
    obtain ⟨b2, hb2⟩ := trimLinkSuffix_keeps scheme.dropLast rest '/' (by decide)
    rw [← hw] at hb2
    refine ⟨b2, ?_⟩
    rw [hb2]
    nth_rewrite 1 [hsplit]
    simp
  unfold startsWithHttp at h ⊢
  simp only [Bool.or_eq_true, decide_eq_true_eq] at h ⊢
  rcases h with h1 | h2
  · exact Or.inl (key httpScheme (by decide) h1)
  · exact Or.inr (key httpsScheme (by decide) h2)

theorem linkStep_spec (acc : List String × GoMap Bool) (w : String)
    (hinv : ∀ k, (acc.2.lookup k).getD false = true ↔ k ∈ acc.1) :
    (linkStep acc w).1
        = (if isLinkWord w then addNew acc.1 (trimLinkSuffix w) else acc.1)
      ∧ ∀ k, ((linkStep acc w).2.lookup k).getD false = true ↔ k ∈ (linkStep acc w).1 := by
  unfold linkStep addNew
  cases hw : isLinkWord w
  · simp only [Bool.false_eq_true, if_false]
    exact ⟨trivial, hinv⟩
  · simp only [if_true]
    by_cases hseen : (acc.2.lookup (trimLinkSuffix w)).getD false = true
    · have hmem : trimLinkSuffix w ∈ acc.1 := (hinv _).mp hseen
      simp only [hseen, if_true, hmem]
      exact ⟨trivial, hinv⟩
    · have hmem : ¬ trimLinkSuffix w ∈ acc.1 := fun hm => hseen ((hinv _).mpr hm)
      simp only [hseen, Bool.false_eq_true, if_false, hmem]
      refine ⟨trivial, ?_⟩
      intro k
      by_cases hk : k = trimLinkSuffix w
      · subst hk
        simp [AList.lookup_insert]
      · rw [AList.lookup_insert_ne hk, hinv k]
        simp [hk]

theorem foldl_linkStep (words : List String) :
    ∀ acc : List String × GoMap Bool,
      (∀ k, (acc.2.lookup k).getD false = true ↔ k ∈ acc.1) →
      (words.foldl linkStep acc).1
        = ((words.filter isLinkWord).map trimLinkSuffix).foldl addNew acc.1 := by
  induction words with
  | nil => intro acc _; rfl
  | cons w rest ih =>
    intro acc hinv
    have hstep := linkStep_spec acc w hinv
    simp only [List.foldl_cons]
    rw [ih (linkStep acc w) hstep.2, hstep.1]
    cases hw : isLinkWord w <;> simp [List.filter_cons, hw]

theorem extractLinks_eq (text : String) :
    extractLinks text = (linkCandidates text).foldl addNew [] := by
  unfold extractLinks linkCandidates
  by_cases h : text = ""
  · subst h
    decide
  · simp only [h, if_false]
    exact foldl_linkStep (splitWords text) ([], ∅) (fun k => by simp)

theorem foldl_addNew_spec (cands : List String) :
    (cands.foldl addNew []).Nodup
      ∧ (∀ x, x ∈ cands.foldl addNew [] ↔ x ∈ cands)
      ∧ (cands.foldl addNew []).Pairwise (fun a b => cands.indexOf a < cands.indexOf b) := by
  induction cands using List.reverseRecOn with
  | nil => simp
  | append_singleton p c ih =>
    obtain ⟨hnd, hmem, hpw⟩ := ih
    rw [List.foldl_append]
    simp only [List.foldl_cons, List.foldl_nil]
    have hpw2 : (p.foldl addNew []).Pairwise
        (fun a b => (p ++ [c]).indexOf a < (p ++ [c]).indexOf b) := by
      refine List.Pairwise.imp_of_mem ?_ hpw
      intro a b ha hb hlt
      rw [List.indexOf_append_of_mem ((hmem a).mp ha),
        List.indexOf_append_of_mem ((hmem b).mp hb)]
      exact hlt
    by_cases hc : c ∈ p.foldl addNew []
    · have hadd : addNew (p.foldl addNew []) c = p.foldl addNew [] := by
        simp [addNew, hc]
      rw [hadd]
      refine ⟨hnd, ?_, hpw2⟩
      intro x
      rw [hmem x, List.mem_append, List.mem_singleton]
      constructor
      · exact Or.inl
      · rintro (h | h)
        · exact h
        · rw [h]; exact (hmem c).mp hc
    · have hadd : addNew (p.foldl addNew []) c = p.foldl addNew [] ++ [c] := by
        simp [addNew, hc]
      rw [hadd]
      have hcp : c ∉ p := fun h => hc ((hmem c).mpr h)
      refine ⟨?_, ?_, ?_⟩
      · rw [List.nodup_append]
        refine ⟨hnd, List.nodup_singleton c, ?_⟩
        intro x hx hx2
        rw [List.mem_singleton] at hx2
        rw [hx2] at hx
        exact hc hx
      · intro x
        simp only [List.mem_append, List.mem_singleton, hmem x]
      · rw [List.pairwise_append]
        refine ⟨hpw2, List.pairwise_singleton _ _, ?_⟩
        intro a ha b hb
        rw [List.mem_singleton] at hb
        subst hb
        rw [List.indexOf_append_of_mem ((hmem a).mp ha),
          List.indexOf_append_of_not_mem hcp, List.indexOf_cons_self]
        have := List.indexOf_lt_length.mpr ((hmem a).mp ha)
        omega

/-- Claim C12 (the links of a description), as amended.  For every text,
`extractLinks` returns a list without repetition whose elements start with
`http://` or `https://` and stand in the order of their first occurrence in
the text; it holds exactly the trimmed forms of the words of the text that are
longer than 8 bytes and start with `http://` or `https://`, a word being a
maximal run of characters other than space, line feed, tab, carriage return,
`<`, `>`, double quote and backslash. -/
theorem extractLinks_spec (text : String) :
    (extractLinks text).Nodup
      ∧ (∀ l ∈ extractLinks text, startsWithHttp l = true)
      ∧ (extractLinks text).Pairwise
          (fun a b => (linkCandidates text).indexOf a < (linkCandidates text).indexOf b)
      ∧ (∀ w ∈ splitWords text, w.utf8ByteSize > 8 → startsWithHttp w = true →
          trimLinkSuffix w ∈ extractLinks text)
      ∧ (∀ l ∈ extractLinks text, ∃ w ∈ splitWords text,
          w.utf8ByteSize > 8 ∧ startsWithHttp w = true ∧ trimLinkSuffix w = l) := by
  rw [extractLinks_eq]
  obtain ⟨hnd, hmem, hpw⟩ := foldl_addNew_spec (linkCandidates text)
  have hcand : ∀ l, l ∈ linkCandidates text ↔
      ∃ w ∈ splitWords text, w.utf8ByteSize > 8 ∧ startsWithHttp w = true
        ∧ trimLinkSuffix w = l := by
    intro l
    unfold linkCandidates isLinkWord
    simp only [List.mem_map, List.mem_filter, Bool.and_eq_true, decide_eq_true_eq]
    constructor
    · rintro ⟨w, ⟨hw, h8, hs⟩, rfl⟩
      exact ⟨w, hw, h8, hs, rfl⟩
    · rintro ⟨w, hw, h8, hs, rfl⟩
      exact ⟨w, ⟨hw, h8, hs⟩, rfl⟩
  refine ⟨hnd, ?_, hpw, ?_, ?_⟩
  · intro l hl
    obtain ⟨w, _, _, hs, rfl⟩ := (hcand l).mp ((hmem l).mp hl)
    exact startsWithHttp_trimLinkSuffix w hs
  · intro w hw h8 hs
    exact (hmem _).mpr ((hcand _).mpr ⟨w, hw, h8, hs, rfl⟩)
  · intro l hl
    exact (hcand l).mp ((hmem l).mp hl)

/-- Claim C12 fails as stated: the word `http://a` starts with `http://` and
is not in the list, being 8 bytes long; and for a URL followed by `<` the list
holds the part before `<`, not the whitespace-delimited word. -/
theorem extractLinks_counterexample :
    startsWithHttp "http://a" = true
      ∧ extractLinks "see http://a now" = []
      ∧ extractLinks "https://x.com/a<b" = ["https://x.com/a"]
      ∧ trimLinkSuffix "https://x.com/a<b" ∉ extractLinks "https://x.com/a<b" := by
  decide

/-! ## Escaping for MarkdownV2 -/

theorem backslash_not_special : backslash ∉ mdSpecials := by decide

theorem flatMap_escChar_cons (c : Char) (l : List Char) :
    (c :: l).flatMap escChar = escChar c ++ l.flatMap escChar := by
  simp [List.flatMap_cons]

theorem head_flatMap_escChar (l : List Char) (d : Char) (r : List Char)
    (h : l.flatMap escChar = d :: r) : d ∉ mdSpecials := by
  cases l with
  | nil => simp at h
  | cons a rest =>
    rw [flatMap_escChar_cons] at h
    unfold escChar at h
    by_cases ha : a ∈ mdSpecials
    · simp only [ha, if_true, List.cons_append, List.cons.injEq] at h
      rw [← h.1]
      exact backslash_not_special
    · simp only [ha, if_false, List.cons_append, List.cons.injEq] at h
      rw [← h.1]
      exact ha

theorem unescapeChars_flatMap_escChar (l : List Char) :
    unescapeChars (l.flatMap escChar) = l := by
  induction l with
  | nil => rfl
  | cons a rest ih =>
    rw [flatMap_escChar_cons]
    by_cases ha : a ∈ mdSpecials
    · simp [escChar, ha, unescapeChars, ih]
    · simp only [escChar, ha, if_false, List.cons_append, List.nil_append]
      cases hr : rest.flatMap escChar with
      | nil =>
        rw [hr] at ih
        rw [← ih]
        rfl
      | cons d r =>
        have hd : d ∉ mdSpecials := head_flatMap_escChar rest d r hr
        rw [hr] at ih
        simp [unescapeChars, hd, ih]

theorem special_preceded (l : List Char) :
    ∀ (i : Nat) (c : Char), (l.flatMap escChar)[i]? = some c → c ∈ mdSpecials →
      ∃ j, i = j + 1 ∧ (l.flatMap escChar)[j]? = some backslash := by
  induction l with
  | nil => intro i c h _; simp at h
  | cons a rest ih =>
    intro i c h hc
    rw [flatMap_escChar_cons] at h ⊢
    by_cases ha : a ∈ mdSpecials
    · simp only [escChar, ha, if_true, List.cons_append, List.nil_append] at h ⊢
      match i, h with
      | 0, h =>
        simp only [List.getElem?_cons_zero, Option.some.injEq] at h
        rw [← h] at hc
        exact absurd hc backslash_not_special
      | 1, _ => exact ⟨0, rfl, by simp⟩
      | k + 2, h =>
        simp only [List.getElem?_cons_succ] at h
        obtain ⟨j, hj, hb⟩ := ih k c h hc
        exact ⟨j + 2, by omega, by simpa [List.getElem?_cons_succ] using hb⟩
    · simp only [escChar, ha, if_false, List.cons_append, List.nil_append] at h ⊢
      match i, h with
      | 0, h =>
        simp only [List.getElem?_cons_zero, Option.some.injEq] at h
        rw [← h] at hc
        exact absurd hc ha
      | k + 1, h =>
        simp only [List.getElem?_cons_succ] at h
        obtain ⟨j, hj, hb⟩ := ih k c h hc
        exact ⟨j + 1, by omega, by simpa [List.getElem?_cons_succ] using hb⟩

theorem flatMap_escChar_of_plain (l : List Char) (h : ∀ c ∈ l, c ∉ mdSpecials) :
    l.flatMap escChar = l := by
  induction l with
  | nil => rfl
  | cons a rest ih =>
    rw [flatMap_escChar_cons, ih (fun c hc => h c (List.mem_cons_of_mem _ hc))]
    simp [escChar, h a (List.mem_cons_self _ _)]

/-- Claim C20 (`EscMD` escapes every special character and loses nothing).
For every string `s`: each occurrence in `EscMD s` of one of the characters
`_ * [ ] ( ) ~` backtick `> # + - = |` braces `. !` stands right after a
backslash; deleting the backslashes that stand right before such a character
gives back `s`; hence `EscMD` is injective; and a string with none of these
characters is returned unchanged. -/
theorem EscMD_spec (s : String) :
    (∀ (i : Nat) (c : Char), (EscMD s).data[i]? = some c → c ∈ mdSpecials →
        ∃ j, i = j + 1 ∧ (EscMD s).data[j]? = some backslash)
      ∧ unescapeChars (EscMD s).data = s.data
      ∧ (∀ t : String, EscMD s = EscMD t → s = t)
      ∧ ((∀ c ∈ s.data, c ∉ mdSpecials) → EscMD s = s) := by
  refine ⟨special_preceded s.data, unescapeChars_flatMap_escChar s.data, ?_, ?_⟩
  · intro t h
    apply String.ext
    rw [← unescapeChars_flatMap_escChar s.data, ← unescapeChars_flatMap_escChar t.data]
    exact congrArg (fun x => unescapeChars x.data) h
  · intro h
    apply String.ext
    exact flatMap_escChar_of_plain s.data h

/-- Instance of C20: a title with a dot, parentheses, and a backslash that
already stands before a dot. -/
theorem EscMD_spec_witness :
    EscMD "v1.2 (beta) \\." = "v1\\.2 \\(beta\\) \\\\."
      ∧ unescapeChars (EscMD "v1.2 (beta) \\.").data = "v1.2 (beta) \\.".data
      ∧ EscMD "plain text" = "plain text" :=
  ⟨by decide, (EscMD_spec "v1.2 (beta) \\.").2.1,
    (EscMD_spec "plain text").2.2.2 (by decide)⟩

/-! ## The day schedule -/

theorem foldl_scheduleStep (loc : Location) (events : List Event) :
    ∀ st : String × Nat,
      events.foldl (scheduleStep loc) st
        = (st.1 ++ concatAll ((events.enumFrom (st.2 + 1)).map
              (fun p => formatShort p.1 p.2 loc)),
            st.2 + events.length) := by
  induction events with
  | nil => intro st; simp [concatAll, String.append_empty]
  | cons e rest ih =>
    intro st
    simp only [List.foldl_cons, List.enumFrom_cons, List.map_cons, concatAll, List.length_cons]
    rw [ih]
    simp only [scheduleStep, String.append_assoc]
    refine Prod.ext rfl ?_
    simp only []
    omega

/-- Claim C15 (the day schedule numbers every event), as amended.  For every
list of `n ≥ 1` events passed to `FormatDaySchedule`, the text is the heading,
then one entry per event, the entry of the `k`-th event of the list bearing the
number `k`, for `k` from 1 to `n` in the order of the list, then the closing
line; the entries are in non-decreasing order of start when the list passed
is. -/
theorem FormatDaySchedule_entries (events : List Event) (loc : Location) (now : Time)
    (h : events ≠ []) :
    FormatDaySchedule events loc now
        = scheduleHeader loc now
          ++ concatAll ((events.enumFrom 1).map (fun p => formatShort p.1 p.2 loc))
          ++ scheduleFooter events.length
      ∧ (events.enumFrom 1).map Prod.fst = List.range' 1 events.length
      ∧ (events.enumFrom 1).map Prod.snd = events
      ∧ (events.Pairwise (fun a b => a.Start ≤ b.Start) →
          ((events.enumFrom 1).map (fun p => p.2.Start)).Pairwise (fun a b => a ≤ b)) := by
  refine ⟨?_, List.enumFrom_map_fst 1 events, List.enumFrom_map_snd 1 events, ?_⟩
  · unfold FormatDaySchedule scheduleHeader scheduleFooter
    have hlen : events.length ≠ 0 := fun h0 => h (List.length_eq_zero.mp h0)
    simp only [hlen, if_false]
    rw [foldl_scheduleStep]
    simp only [String.append_assoc]
  · intro hsorted
    have hmap : (events.enumFrom 1).map (fun p => p.2.Start) = events.map Event.Start := by
      rw [← List.enumFrom_map_snd 1 events, List.map_map, List.enumFrom_map_snd]
      rfl
    rw [hmap, List.pairwise_map]
    exact hsorted

/-- Instance of C15: two meetings passed in start order. -/
theorem FormatDaySchedule_entries_witness :
    [meetingTen, meetingNoon] ≠ []
      ∧ FormatDaySchedule [meetingTen, meetingNoon] ⟨0⟩ 0
        = scheduleHeader ⟨0⟩ 0
          ++ concatAll [formatShort 1 meetingTen ⟨0⟩, formatShort 2 meetingNoon ⟨0⟩]
          ++ scheduleFooter 2 :=
  ⟨by decide,
    (FormatDaySchedule_entries [meetingTen, meetingNoon] ⟨0⟩ 0 (by decide)).1⟩

/-- Claim C15 fails as stated: passed the noon meeting before the ten o'clock
meeting, `FormatDaySchedule` gives number 1 to the noon meeting and number 2 to
the ten o'clock one; it does not sort. -/
theorem FormatDaySchedule_order_counterexample :
    meetingTen.Start < meetingNoon.Start
      ∧ FormatDaySchedule [meetingNoon, meetingTen] ⟨0⟩ 0
        = "📅 *1 января 1* — расписание дня\n\n"
          ++ "1\\. *Lunch talk* \\(12:00–13:00\\)\n\n"
          ++ "2\\. *Standup* \\(10:00–10:30\\)\n\n"
          ++ "\n_Всего встреч: 2_" := by
  decide

/-! ## Overlapping invocations: the invariant -/

theorem concInv_frame (cfg : Config) (id : String) (total : Nat) (fetched : Nat → List Event) (st : Shared)
    (h : ConcInv cfg id total fetched st) (i : Nat) (t2 : Invocation) (state2 : Scheduler)
    (holder2 : Option Nat)
    (hidle : t2.todo = [] → t2.pc = Pc.lock)
    (hmutex : ∀ j, (Function.update st.threads i t2 j).pc.holding = true ↔ holder2 = some j)
    (hmono : isReminded st.state (reminderKey id cfg.ReminderMinutes) = true →
      isReminded state2 (reminderKey id cfg.ReminderMinutes) = true)
    (hun : isReminded state2 (reminderKey id cfg.ReminderMinutes) = false →
      remindersFor id t2.sent = 0
        ∧ (t2.onID id = true → t2.pc = Pc.lock ∨ t2.pc = Pc.read ∨ t2.pc = Pc.mark false))
    (hcredit : isReminded st.state (reminderKey id cfg.ReminderMinutes) = true →
      t2.credit id = (st.threads i).credit id)
    (hnew : isReminded st.state (reminderKey id cfg.ReminderMinutes) = false →
      isReminded state2 (reminderKey id cfg.ReminderMinutes) = true →
      t2.credit id = 1 ∧ ∀ j, j ≠ i → (st.threads j).willSend id = false)
    (hhandled : (∃ ev ∈ (st.threads i).todo, ev.ID = id) →
      (∃ ev ∈ t2.todo, ev.ID = id)
        ∨ isReminded state2 (reminderKey id cfg.ReminderMinutes) = true) :
    ConcInv cfg id total fetched ⟨state2, holder2, Function.update st.threads i t2⟩ := by
  have hold : isReminded state2 (reminderKey id cfg.ReminderMinutes) = false →
      isReminded st.state (reminderKey id cfg.ReminderMinutes) = false := by
    intro h2
    cases h1 : isReminded st.state (reminderKey id cfg.ReminderMinutes)
    · rfl
    · rw [hmono h1] at h2; cases h2
  refine ⟨?_, hmutex, ?_, ?_, fun hu => h.quota (hold hu), ?_⟩
  · intro j
    by_cases hj : j = i
    · subst hj; simpa using hidle
    · simpa [Function.update_noteq hj] using h.idle j
  · intro hu j
    by_cases hj : j = i
    · subst hj; simpa using hun hu
    · simpa [Function.update_noteq hj] using h.unmarked (hold hu) j
  · intro hm
    cases h1 : isReminded st.state (reminderKey id cfg.ReminderMinutes)
    · obtain ⟨hc, hothers⟩ := hnew h1 hm
      refine ⟨i, by simpa [h.quota h1] using hc, ?_⟩
      intro j hj
      simp only [Function.update_noteq hj]
      unfold Invocation.credit
      rw [(h.unmarked h1 j).1, hothers j hj]
      simp
    · obtain ⟨o, ho, hothers⟩ := h.marked h1
      refine ⟨o, ?_, ?_⟩
      · by_cases hoi : o = i
        · subst hoi; simpa [hcredit h1] using ho
        · simpa [Function.update_noteq hoi] using ho
      · intro j hj
        by_cases hji : j = i
        · subst hji; simpa [hcredit h1] using hothers j hj
        · simpa [Function.update_noteq hji] using hothers j hj
  · intro j hf
    by_cases hj : j = i
    · subst hj
      simp only [Function.update_same]
      rcases h.handled j hf with h1 | h1
      · exact hhandled h1
      · exact Or.inr (hmono h1)
    · simp only [Function.update_noteq hj]
      rcases h.handled j hf with h1 | h1
      · exact Or.inl h1
      · exact Or.inr (hmono h1)

theorem mutex_update_same (st : Shared) (i : Nat) (t2 : Invocation)
    (hm : ∀ j, (st.threads j).pc.holding = true ↔ st.holder = some j)
    (hpc : t2.pc.holding = (st.threads i).pc.holding) :
    ∀ j, (Function.update st.threads i t2 j).pc.holding = true ↔ st.holder = some j := by
  intro j
  by_cases hj : j = i
  · subst hj; simpa [hpc] using hm j
  · simpa [Function.update_noteq hj] using hm j

theorem isReminded_insert (s : Scheduler) (key key2 : String) :
    isReminded ⟨s.reminded.insert key2 true, s.knownEvents⟩ key
      = (decide (key = key2) || isReminded s key) := by
  unfold isReminded
  by_cases hk : key = key2
  · subst hk; simp [AList.lookup_insert]
  · simp [hk, AList.lookup_insert_ne hk]

theorem onID_of_todo (t : Invocation) (id : String) (ev : Event) (rest : List Event)
    (h : t.todo = ev :: rest) : t.onID id = decide (ev.ID = id) := by
  unfold Invocation.onID
  rw [h]
  cases hd : decide (ev.ID = id) <;> simp_all

theorem reminderKey_eq_iff (cfg : Config) (a b : String) :
    reminderKey a cfg.ReminderMinutes = reminderKey b cfg.ReminderMinutes ↔ a = b :=
  ⟨reminderKey_left_inj a b _, fun h => by rw [h]⟩

theorem concInv_step_lock (cfg : Config) (id : String) (total : Nat) (fetched : Nat → List Event)
    (st : Shared) (h : ConcInv cfg id total fetched st) (i : Nat) (ev : Event) (rest : List Event)
    (htodo : (st.threads i).todo = ev :: rest) (hpc : (st.threads i).pc = Pc.lock) :
    ConcInv cfg id total fetched (stepOn cfg i st (st.threads i) ev rest Pc.lock) := by
  unfold stepOn
  cases hh : st.holder with
  | some k => simpa using h
  | none =>
    simp only []
    apply concInv_frame cfg id total fetched st h i
    · intro hn
      simp only [htodo] at hn
      cases hn
    · intro j
      by_cases hj : j = i
      · subst hj; simp [Pc.holding]
      · have hm := h.mutex j
        rw [hh] at hm
        have hne : ¬ (i = j) := fun e => hj e.symm
        simp only [Function.update_noteq hj, Option.some.injEq, hne, iff_false]
        intro hhold
        have := hm.mp hhold
        cases this
    · exact fun x => x
    · intro hu
      exact ⟨(h.unmarked hu i).1, fun _ => Or.inr (Or.inl rfl)⟩
    · intro _
      simp [Invocation.credit, Invocation.willSend, hpc]
    · intro h1 h2
      rw [h1] at h2; cases h2
    · intro hex
      exact Or.inl hex

theorem concInv_step_read (cfg : Config) (id : String) (total : Nat) (fetched : Nat → List Event)
    (st : Shared) (h : ConcInv cfg id total fetched st) (i : Nat) (ev : Event) (rest : List Event)
    (htodo : (st.threads i).todo = ev :: rest) (hpc : (st.threads i).pc = Pc.read) :
    ConcInv cfg id total fetched (stepOn cfg i st (st.threads i) ev rest Pc.read) := by
  unfold stepOn
  have hon := onID_of_todo (st.threads i) id ev rest htodo
  apply concInv_frame cfg id total fetched st h i
  · intro hn
    simp only [htodo] at hn
    cases hn
  · exact mutex_update_same st i _ h.mutex (by simp [hpc, Pc.holding])
  · exact fun x => x
  · intro hu
    refine ⟨(h.unmarked hu i).1, ?_⟩
    intro hid
    have hid2 : ev.ID = id := by
      have : (⟨(st.threads i).world, (st.threads i).todo,
          Pc.mark (isReminded st.state (reminderKey ev.ID cfg.ReminderMinutes)),
          (st.threads i).sent⟩ : Invocation).onID id = decide (ev.ID = id) :=
        onID_of_todo _ id ev rest htodo
      rw [this] at hid
      simpa using hid
    right; right
    simp only [hid2, hu]
  · intro hm
    have hw2 : (⟨(st.threads i).world, (st.threads i).todo,
        Pc.mark (isReminded st.state (reminderKey ev.ID cfg.ReminderMinutes)),
        (st.threads i).sent⟩ : Invocation).willSend id = false := by
      have hon3 := onID_of_todo (⟨(st.threads i).world, (st.threads i).todo,
        Pc.mark (isReminded st.state (reminderKey ev.ID cfg.ReminderMinutes)),
        (st.threads i).sent⟩ : Invocation) id ev rest htodo
      unfold Invocation.willSend
      rw [hon3]
      by_cases hid : ev.ID = id
      · simp [hid, hm]
      · simp [hid]
    have hw1 : (st.threads i).willSend id = false := by
      simp [Invocation.willSend, hpc]
    simp [Invocation.credit, hw1, hw2]
  · intro h1 h2
    rw [h1] at h2; cases h2
  · intro hex
    exact Or.inl hex

theorem concInv_step_mark (cfg : Config) (id : String) (total : Nat) (fetched : Nat → List Event)
    (st : Shared) (h : ConcInv cfg id total fetched st) (i : Nat) (ev : Event) (rest : List Event)
    (already : Bool)
    (htodo : (st.threads i).todo = ev :: rest) (hpc : (st.threads i).pc = Pc.mark already) :
    ConcInv cfg id total fetched (stepOn cfg i st (st.threads i) ev rest (Pc.mark already)) := by
  unfold stepOn
  have hon := onID_of_todo (st.threads i) id ev rest htodo
  have hon2 : ∀ p s, (⟨(st.threads i).world, (st.threads i).todo, p, s⟩ : Invocation).onID id
      = decide (ev.ID = id) := fun p s => onID_of_todo _ id ev rest htodo
  cases already with
  | true =>
    simp only [if_true]
    apply concInv_frame cfg id total fetched st h i
    · intro hn
      simp only [htodo] at hn
      cases hn
    · exact mutex_update_same st i _ h.mutex (by simp [hpc, Pc.holding])
    · exact fun x => x
    · intro hu
      refine ⟨(h.unmarked hu i).1, ?_⟩
      intro hid
      rw [hon2] at hid
      rw [← hon] at hid
      have := (h.unmarked hu i).2 hid
      rw [hpc] at this
      simp at this
    · intro _
      simp [Invocation.credit, Invocation.willSend, hpc]
    · intro h1 h2
      rw [h1] at h2; cases h2
    · intro hex
      exact Or.inl hex
  | false =>
    simp only [Bool.false_eq_true, if_false]
    have hrem := isReminded_insert st.state (reminderKey id cfg.ReminderMinutes)
      (reminderKey ev.ID cfg.ReminderMinutes)
    apply concInv_frame cfg id total fetched st h i
    · intro hn
      simp only [htodo] at hn
      cases hn
    · exact mutex_update_same st i _ h.mutex (by simp [hpc, Pc.holding])
    · intro hm
      rw [hrem, hm, Bool.or_true]
    · intro hu
      rw [hrem] at hu
      simp only [Bool.or_eq_false_iff, decide_eq_false_iff_not] at hu
      refine ⟨(h.unmarked hu.2 i).1, ?_⟩
      intro hid
      rw [hon2] at hid
      simp only [decide_eq_true_eq] at hid
      exact absurd (by rw [hid]) hu.1
    · intro _
      simp [Invocation.credit, Invocation.willSend, hon2, hon, hpc]
    · intro h1 h2
      rw [hrem, h1, Bool.or_false] at h2
      simp only [decide_eq_true_eq] at h2
      have hid : ev.ID = id := ((reminderKey_eq_iff cfg id ev.ID).mp h2).symm
      constructor
      · simp [Invocation.credit, Invocation.willSend, hon2, hid, (h.unmarked h1 i).1]
      · intro j hj
        cases hw : (st.threads j).willSend id
        · rfl
        · exfalso
          unfold Invocation.willSend at hw
          simp only [Bool.and_eq_true, Bool.or_eq_true, beq_iff_eq] at hw
          have hpcj := (h.unmarked h1 j).2 hw.1
          have hjm : (st.threads j).pc = Pc.mark false := by
            rcases hw.2 with (e | e) | e
            · exact e
            · rw [e] at hpcj; simp at hpcj
            · rw [e] at hpcj; simp at hpcj
          have h1j := (h.mutex j).mp (by rw [hjm]; rfl)
          have h1i := (h.mutex i).mp (by rw [hpc]; rfl)
          rw [h1i] at h1j
          exact hj (Option.some.inj h1j).symm
    · intro hex
      exact Or.inl hex

theorem concInv_step_unlock (cfg : Config) (id : String) (total : Nat) (fetched : Nat → List Event)
    (st : Shared) (h : ConcInv cfg id total fetched st) (i : Nat) (ev : Event) (rest : List Event)
    (already : Bool)
    (htodo : (st.threads i).todo = ev :: rest) (hpc : (st.threads i).pc = Pc.unlock already) :
    ConcInv cfg id total fetched (stepOn cfg i st (st.threads i) ev rest (Pc.unlock already)) := by
  unfold stepOn
  have hon := onID_of_todo (st.threads i) id ev rest htodo
  have hon2 : ∀ p s, (⟨(st.threads i).world, (st.threads i).todo, p, s⟩ : Invocation).onID id
      = decide (ev.ID = id) := fun p s => onID_of_todo _ id ev rest htodo
  have hheld : st.holder = some i := (h.mutex i).mp (by rw [hpc]; rfl)
  apply concInv_frame cfg id total fetched st h i
  · intro hn
    simp only [htodo] at hn
    cases hn
  · intro j
    by_cases hj : j = i
    · subst hj; simp [Pc.holding]
    · simp only [Function.update_noteq hj, iff_false, reduceCtorEq]
      intro hhold
      have := (h.mutex j).mp hhold
      rw [hheld] at this
      exact hj (Option.some.inj this).symm
  · exact fun x => x
  · intro hu
    refine ⟨(h.unmarked hu i).1, ?_⟩
    intro hid
    rw [hon2, ← hon] at hid
    have := (h.unmarked hu i).2 hid
    rw [hpc] at this
    simp at this
  · intro _
    simp [Invocation.credit, Invocation.willSend, hon2, hon, hpc]
  · intro h1 h2
    rw [h1] at h2; cases h2
  · intro hex
    exact Or.inl hex

theorem remindersFor_append_reminder (id : String) (sent : List SendAttempt) (w : World)
    (ev : Event) (n : Int) :
    remindersFor id (sent ++ [send w (Notification.reminder ev n)])
      = remindersFor id sent + (if ev.ID = id then 1 else 0) := by
  by_cases hid : ev.ID = id <;>
    simp [remindersFor, send, Notification.isReminderFor, List.countP_append, hid]

theorem concInv_step_branch (cfg : Config) (id : String) (total : Nat) (fetched : Nat → List Event)
    (st : Shared) (h : ConcInv cfg id total fetched st) (i : Nat) (ev : Event) (rest : List Event)
    (already : Bool)
    (htodo : (st.threads i).todo = ev :: rest) (hpc : (st.threads i).pc = Pc.branch already) :
    ConcInv cfg id total fetched (stepOn cfg i st (st.threads i) ev rest (Pc.branch already)) := by
  unfold stepOn
  have hon := onID_of_todo (st.threads i) id ev rest htodo
  have hnotun : isReminded st.state (reminderKey id cfg.ReminderMinutes) = false →
      ¬ ev.ID = id := by
    intro hu hid
    have := (h.unmarked hu i).2 (by rw [hon]; simpa using hid)
    rw [hpc] at this
    simp at this
  have hhandled : (∃ e ∈ (st.threads i).todo, e.ID = id) →
      (∃ e ∈ rest, e.ID = id)
        ∨ isReminded st.state (reminderKey id cfg.ReminderMinutes) = true := by
    rintro ⟨e, he, hid⟩
    rw [htodo] at he
    rcases List.mem_cons.mp he with rfl | he2
    · right
      cases hm : isReminded st.state (reminderKey id cfg.ReminderMinutes)
      · exact absurd hid (hnotun hm)
      · rfl
    · exact Or.inl ⟨e, he2, hid⟩
  cases already with
  | true =>
    simp only [if_true]
    apply concInv_frame cfg id total fetched st h i
    · intro _; rfl
    · exact mutex_update_same st i _ h.mutex (by simp [hpc, Pc.holding])
    · exact fun x => x
    · intro hu
      exact ⟨(h.unmarked hu i).1, fun _ => Or.inl rfl⟩
    · intro _
      simp [Invocation.credit, Invocation.willSend, hpc]
    · intro h1 h2
      rw [h1] at h2; cases h2
    · exact hhandled
  | false =>
    simp only [Bool.false_eq_true, if_false]
    apply concInv_frame cfg id total fetched st h i
    · intro _; rfl
    · exact mutex_update_same st i _ h.mutex (by simp [hpc, Pc.holding])
    · exact fun x => x
    · intro hu
      refine ⟨?_, fun _ => Or.inl rfl⟩
      rw [remindersFor_append_reminder, (h.unmarked hu i).1]
      simp [hnotun hu]
    · intro _
      simp only [Invocation.credit, remindersFor_append_reminder]
      by_cases hid : ev.ID = id
      · simp [Invocation.willSend, hon, hpc, hid]
      · simp [Invocation.willSend, hon, hpc, hid]
    · intro h1 h2
      rw [h1] at h2; cases h2
    · exact hhandled

theorem concInv_step (cfg : Config) (id : String) (total : Nat) (fetched : Nat → List Event)
    (st : Shared) (h : ConcInv cfg id total fetched st) (i : Nat) :
    ConcInv cfg id total fetched (stepThread cfg i st) := by
  unfold stepThread
  cases htodo : (st.threads i).todo with
  | nil => simpa using h
  | cons ev rest =>
    simp only []
    cases hpc : (st.threads i).pc with
    | lock => exact concInv_step_lock cfg id total fetched st h i ev rest htodo hpc
    | read => exact concInv_step_read cfg id total fetched st h i ev rest htodo hpc
    | mark a => exact concInv_step_mark cfg id total fetched st h i ev rest a htodo hpc
    | unlock a => exact concInv_step_unlock cfg id total fetched st h i ev rest a htodo hpc
    | branch a => exact concInv_step_branch cfg id total fetched st h i ev rest a htodo hpc

theorem concInv_run (cfg : Config) (id : String) (total : Nat) (fetched : Nat → List Event)
    (schedule : List Nat) :
    ∀ st : Shared, ConcInv cfg id total fetched st →
      ConcInv cfg id total fetched (runSchedule cfg schedule st) := by
  induction schedule with
  | nil => intro st h; exact h
  | cons i rest ih =>
    intro st h
    exact ih _ (concInv_step cfg id total fetched st h i)

theorem concInv_start (cfg : Config) (id : String) (s : Scheduler)
    (invs : List (World × List Event)) :
    ConcInv cfg id (if isReminded s (reminderKey id cfg.ReminderMinutes) then 0 else 1)
      (fun i => ((startShared s invs).threads i).todo) (startShared s invs) := by
  have hpc : ∀ i, ((startShared s invs).threads i).pc = Pc.lock := by
    intro i
    unfold startShared
    simp only []
    cases invs[i]? <;> rfl
  have hsent : ∀ i, ((startShared s invs).threads i).sent = [] := by
    intro i
    unfold startShared
    simp only []
    cases invs[i]? <;> rfl
  have hstate : (startShared s invs).state = s := rfl
  have hcredit : ∀ i, ((startShared s invs).threads i).credit id = 0 := by
    intro i
    simp [Invocation.credit, Invocation.willSend, hpc i, hsent i, remindersFor]
  refine ⟨fun i _ => hpc i, ?_, ?_, ?_, ?_, ?_⟩
  · intro i
    rw [hpc i]
    simp [Pc.holding, startShared]
  · intro _ i
    rw [hsent i]
    exact ⟨rfl, fun _ => Or.inl (hpc i)⟩
  · intro hm
    rw [hstate] at hm
    rw [hm]
    exact ⟨0, hcredit 0, fun j _ => hcredit j⟩
  · intro hu
    rw [hstate] at hu
    rw [hu]
    rfl
  · intro i hex
    exact Or.inl hex

/-! ## Overlapping invocations: every run can be completed -/

theorem stepsLeft_at_lock (w : World) (rest : List Event) (sent : List SendAttempt) :
    (⟨w, rest, Pc.lock, sent⟩ : Invocation).stepsLeft = 5 * rest.length := by
  cases rest <;> simp [Invocation.stepsLeft]
  omega

theorem stepThread_progress (cfg : Config) (i : Nat) (st : Shared) (k : Nat)
    (hfree : st.holder = none ∨ st.holder = some i)
    (hmx : (st.threads i).pc.holding = true ↔ st.holder = some i)
    (hk : (st.threads i).stepsLeft = k + 1) :
    ((stepThread cfg i st).threads i).stepsLeft = k
      ∧ (∀ j, j ≠ i → (stepThread cfg i st).threads j = st.threads j)
      ∧ ((stepThread cfg i st).holder = none ∨ (stepThread cfg i st).holder = some i)
      ∧ (((stepThread cfg i st).threads i).pc.holding = true
          ↔ (stepThread cfg i st).holder = some i)
      ∧ (((stepThread cfg i st).threads i).todo = [] →
          ((stepThread cfg i st).threads i).pc = Pc.lock) := by
  unfold stepThread
  cases htodo : (st.threads i).todo with
  | nil => simp [Invocation.stepsLeft, htodo] at hk
  | cons ev rest =>
    simp only []
    have hupd : ∀ (t2 : Invocation) (j : Nat), j ≠ i →
        Function.update st.threads i t2 j = st.threads j :=
      fun t2 j hj => Function.update_noteq hj _ _
    cases hpc : (st.threads i).pc with
    | lock =>
      have hnone : st.holder = none := by
        rcases hfree with h | h
        · exact h
        · have := hmx.mpr h
          rw [hpc] at this
          cases this
      simp only [Invocation.stepsLeft, htodo, hpc] at hk
      simp only [stepOn, hnone, Function.update_same, Invocation.stepsLeft, htodo, Pc.holding]
      refine ⟨by omega, fun j hj => hupd _ j hj, ?_, ?_, ?_⟩ <;> simp
    | read =>
      have hheld : st.holder = some i := hmx.mp (by rw [hpc]; rfl)
      simp only [Invocation.stepsLeft, htodo, hpc] at hk
      simp only [stepOn, Function.update_same, Invocation.stepsLeft, htodo, Pc.holding]
      refine ⟨by omega, fun j hj => hupd _ j hj, ?_, ?_, ?_⟩ <;> simp [hheld]
    | mark a =>
      have hheld : st.holder = some i := hmx.mp (by rw [hpc]; rfl)
      simp only [Invocation.stepsLeft, htodo, hpc] at hk
      simp only [stepOn, Function.update_same, Invocation.stepsLeft, htodo, Pc.holding]
      refine ⟨by omega, fun j hj => hupd _ j hj, ?_, ?_, ?_⟩ <;> simp [hheld]
    | unlock a =>
      simp only [Invocation.stepsLeft, htodo, hpc] at hk
      simp only [stepOn, Function.update_same, Invocation.stepsLeft, htodo, Pc.holding]
      refine ⟨by omega, fun j hj => hupd _ j hj, ?_, ?_, ?_⟩ <;> simp
    | branch a =>
      have hnone : st.holder = none := by
        rcases hfree with h | h
        · exact h
        · have := hmx.mpr h
          rw [hpc] at this
          cases this
      simp only [Invocation.stepsLeft, htodo, hpc] at hk
      cases a <;>
        simp only [stepOn, Function.update_same, stepsLeft_at_lock, Pc.holding, hnone,
          if_true, if_false, Bool.false_eq_true] <;>
        refine ⟨by omega, fun j hj => hupd _ j hj, ?_, ?_, ?_⟩ <;> simp

theorem finish_thread (cfg : Config) (i : Nat) :
    ∀ (k : Nat) (st : Shared),
      (st.holder = none ∨ st.holder = some i) →
      ((st.threads i).pc.holding = true ↔ st.holder = some i) →
      ((st.threads i).todo = [] → (st.threads i).pc = Pc.lock) →
      (st.threads i).stepsLeft = k →
      ((runSchedule cfg (List.replicate k i) st).threads i).todo = []
        ∧ ((runSchedule cfg (List.replicate k i) st).threads i).pc = Pc.lock
        ∧ (runSchedule cfg (List.replicate k i) st).holder = none
        ∧ ∀ j, j ≠ i → (runSchedule cfg (List.replicate k i) st).threads j = st.threads j := by
  intro k
  induction k with
  | zero =>
    intro st hfree hmx hidle hk
    have htodo : (st.threads i).todo = [] := by
      cases ht : (st.threads i).todo with
      | nil => rfl
      | cons ev rest =>
        cases hp : (st.threads i).pc <;>
          simp [Invocation.stepsLeft, ht, hp] at hk
    refine ⟨htodo, hidle htodo, ?_, fun j _ => rfl⟩
    rcases hfree with h | h
    · exact h
    · have := hmx.mpr h
      rw [hidle htodo] at this
      cases this
  | succ k ih =>
    intro st hfree hmx hidle hk
    obtain ⟨h1, h2, h3, h4, h5⟩ := stepThread_progress cfg i st k hfree hmx hk
    obtain ⟨r1, r0, r2, r3⟩ := ih (stepThread cfg i st) h3 h4 h5 h1
    simp only [List.replicate_succ, runSchedule, List.foldl_cons] at r1 r0 r2 r3 ⊢
    exact ⟨r1, r0, r2, fun j hj => by rw [r3 j hj, h2 j hj]⟩

theorem runSchedule_append (cfg : Config) (a b : List Nat) (st : Shared) :
    runSchedule cfg (a ++ b) st = runSchedule cfg b (runSchedule cfg a st) := by
  simp [runSchedule, List.foldl_append]

theorem finish_all (cfg : Config) :
    ∀ (n : Nat) (st : Shared),
      st.holder = none →
      (∀ i, (st.threads i).pc.holding = false) →
      (∀ i, (st.threads i).todo = [] → (st.threads i).pc = Pc.lock) →
      (∀ i, n ≤ i → (st.threads i).todo = []) →
      ∃ schedule, ∀ i, ((runSchedule cfg schedule st).threads i).todo = [] := by
  intro n
  induction n with
  | zero =>
    intro st _ _ _ hsup
    exact ⟨[], fun i => hsup i (Nat.zero_le i)⟩
  | succ n ih =>
    intro st hnone hnh hidle hsup
    obtain ⟨r1, r0, r2, r3⟩ := finish_thread cfg n (st.threads n).stepsLeft st (Or.inl hnone)
      (by rw [hnh n, hnone]; simp) (hidle n) rfl
    have hothers : ∀ j, j ≠ n →
        (runSchedule cfg (List.replicate (st.threads n).stepsLeft n) st).threads j
          = st.threads j := r3
    have hpcn : ∀ j, ((runSchedule cfg (List.replicate (st.threads n).stepsLeft n)
        st).threads j).todo = [] →
        ((runSchedule cfg (List.replicate (st.threads n).stepsLeft n) st).threads j).pc
          = Pc.lock := by
      intro j hj
      by_cases hjn : j = n
      · subst hjn
        exact r0
      · rw [hothers j hjn] at hj ⊢
        exact hidle j hj
    obtain ⟨more, hmore⟩ := ih (runSchedule cfg (List.replicate (st.threads n).stepsLeft n) st)
      r2
      (by
        intro j
        by_cases hjn : j = n
        · subst hjn
          rw [hpcn j r1]; rfl
        · rw [hothers j hjn]; exact hnh j)
      hpcn
      (by
        intro j hj
        by_cases hjn : j = n
        · subst hjn; exact r1
        · rw [hothers j hjn]
          exact hsup j (by omega))
    exact ⟨List.replicate (st.threads n).stepsLeft n ++ more, by
      intro i
      rw [runSchedule_append]
      exact hmore i⟩

theorem stepThread_other (cfg : Config) (i j : Nat) (st : Shared) (hij : i ≠ j) :
    (stepThread cfg j st).threads i = st.threads i := by
  unfold stepThread
  cases (st.threads j).todo with
  | nil => rfl
  | cons ev rest =>
    simp only []
    cases (st.threads j).pc with
    | lock =>
      unfold stepOn
      cases st.holder <;> simp [Function.update_noteq hij]
    | read => simp [stepOn, Function.update_noteq hij]
    | mark a => simp [stepOn, Function.update_noteq hij]
    | unlock a => simp [stepOn, Function.update_noteq hij]
    | branch a => cases a <;> simp [stepOn, Function.update_noteq hij]

theorem todo_nil_run (cfg : Config) (i : Nat) (schedule : List Nat) :
    ∀ st : Shared, (st.threads i).todo = [] →
      ((runSchedule cfg schedule st).threads i).todo = [] := by
  induction schedule with
  | nil => intro st h; exact h
  | cons j rest ih =>
    intro st h
    have hstep : ((stepThread cfg j st).threads i).todo = [] := by
      by_cases hij : i = j
      · subst hij
        unfold stepThread
        rw [h]
        exact h
      · rw [stepThread_other cfg i j st hij]
        exact h
    exact ih _ hstep

theorem complete_from (cfg : Config) (id : String) (total : Nat) (fetched : Nat → List Event) (st : Shared)
    (h : ConcInv cfg id total fetched st) (n : Nat) (hsup : ∀ i, n ≤ i → (st.threads i).todo = []) :
    ∃ more, ∀ i, ((runSchedule cfg more st).threads i).todo = [] := by
  cases hh : st.holder with
  | none =>
    refine finish_all cfg n st hh ?_ h.idle hsup
    intro i
    cases hp : (st.threads i).pc.holding
    · rfl
    · have := (h.mutex i).mp hp
      rw [hh] at this
      cases this
  | some k =>
    obtain ⟨r1, r0, r2, r3⟩ := finish_thread cfg k (st.threads k).stepsLeft st (Or.inr hh)
      (h.mutex k) (h.idle k) rfl
    have hnh : ∀ j, ((runSchedule cfg (List.replicate (st.threads k).stepsLeft k)
        st).threads j).pc.holding = false := by
      intro j
      by_cases hjk : j = k
      · subst hjk
        rw [r0]; rfl
      · rw [r3 j hjk]
        cases hp : (st.threads j).pc.holding
        · rfl
        · have := (h.mutex j).mp hp
          rw [hh] at this
          exact absurd (Option.some.inj this).symm hjk
    obtain ⟨more, hmore⟩ := finish_all cfg n
      (runSchedule cfg (List.replicate (st.threads k).stepsLeft k) st) r2 hnh
      (by
        intro j hj
        by_cases hjk : j = k
        · subst hjk; exact r0
        · rw [r3 j hjk] at hj ⊢
          exact h.idle j hj)
      (by
        intro j hj
        by_cases hjk : j = k
        · subst hjk; exact r1
        · rw [r3 j hjk]
          exact hsup j hj)
    exact ⟨List.replicate (st.threads k).stepsLeft k ++ more, by
      intro i
      rw [runSchedule_append]
      exact hmore i⟩

theorem startShared_todo (s : Scheduler) (invs : List (World × List Event)) (i : Nat) :
    ((startShared s invs).threads i).todo = (invs[i]?.map Prod.snd).getD [] := by
  unfold startShared
  simp only []
  cases invs[i]? <;> rfl

theorem credit_facts (t : Invocation) (id : String) :
    (t.credit id = 0 → remindersFor id t.sent = 0)
      ∧ (t.credit id = 1 → remindersFor id t.sent ≤ 1)
      ∧ (t.todo = [] → t.credit id = remindersFor id t.sent) := by
  unfold Invocation.credit
  refine ⟨fun h => by omega, fun h => by omega, ?_⟩
  intro h
  simp [Invocation.willSend, Invocation.onID, h]

/-- Claim C17 (no event is reminded twice under overlapping invocations).
Take any number of invocations of `checkReminders` that have fetched their
lists and share the scheduler, and any interleaving `schedule` of their
statements, `Lock` letting through one invocation at a time.  At every moment
at most one invocation is between `Lock` and `Unlock`; no invocation has sent
more than one reminder for `E` and no two invocations have sent one; the run
can always be continued until every invocation has finished; once all have
finished, if one of them had fetched the identity of `E` and the key of `E`
was unmarked at the start, exactly one invocation has sent a reminder for it
and it has sent exactly one; and if the key was marked at the start, no
invocation sends a reminder for `E`. -/
theorem overlapping_reminders_once (cfg : Config) (E : Event) (s : Scheduler)
    (invs : List (World × List Event)) (schedule : List Nat) :
    (∀ i j, ((runSchedule cfg schedule (startShared s invs)).threads i).pc.holding = true →
        ((runSchedule cfg schedule (startShared s invs)).threads j).pc.holding = true → i = j)
      ∧ (∀ i, remindersFor E.ID
          ((runSchedule cfg schedule (startShared s invs)).threads i).sent ≤ 1)
      ∧ (∀ i j, i ≠ j →
          remindersFor E.ID ((runSchedule cfg schedule (startShared s invs)).threads i).sent = 0
            ∨ remindersFor E.ID
              ((runSchedule cfg schedule (startShared s invs)).threads j).sent = 0)
      ∧ (∃ more, ∀ i,
          ((runSchedule cfg (schedule ++ more) (startShared s invs)).threads i).todo = [])
      ∧ ((∀ i, ((runSchedule cfg schedule (startShared s invs)).threads i).todo = []) →
          (∃ p ∈ invs, ∃ ev ∈ p.2, ev.ID = E.ID) →
          isReminded s (reminderKey E.ID cfg.ReminderMinutes) = false →
          ∃ o, remindersFor E.ID
                ((runSchedule cfg schedule (startShared s invs)).threads o).sent = 1
            ∧ ∀ j, j ≠ o → remindersFor E.ID
                ((runSchedule cfg schedule (startShared s invs)).threads j).sent = 0)
      ∧ (isReminded s (reminderKey E.ID cfg.ReminderMinutes) = true →
          ∀ i, remindersFor E.ID
            ((runSchedule cfg schedule (startShared s invs)).threads i).sent = 0) := by
  have hinv := concInv_run cfg E.ID _ _ schedule _ (concInv_start cfg E.ID s invs)
  have htotal : (if isReminded s (reminderKey E.ID cfg.ReminderMinutes) then 0 else 1) ≤ 1 := by
    split <;> omega
  have hle : ∀ t : Invocation, remindersFor E.ID t.sent ≤ t.credit E.ID := by
    intro t
    unfold Invocation.credit
    omega
  have hcount : ∀ i j, i ≠ j →
      remindersFor E.ID ((runSchedule cfg schedule (startShared s invs)).threads i).sent ≤ 1
        ∧ (remindersFor E.ID
              ((runSchedule cfg schedule (startShared s invs)).threads i).sent = 0
            ∨ remindersFor E.ID
              ((runSchedule cfg schedule (startShared s invs)).threads j).sent = 0) := by
    intro i j hij
    cases hm : isReminded (runSchedule cfg schedule (startShared s invs)).state
        (reminderKey E.ID cfg.ReminderMinutes)
    · have hi := (hinv.unmarked hm i).1
      exact ⟨by omega, Or.inl hi⟩
    · obtain ⟨o, ho, hothers⟩ := hinv.marked hm
      by_cases hio : i = o
      · subst hio
        have h1 := hle ((runSchedule cfg schedule (startShared s invs)).threads i)
        exact ⟨by omega,
          Or.inr ((credit_facts _ E.ID).1 (hothers j (fun e => hij e.symm)))⟩
      · have hi := (credit_facts _ E.ID).1 (hothers i hio)
        exact ⟨by omega, Or.inl hi⟩
  refine ⟨?_, fun i => (hcount i (i + 1) (by omega)).1, fun i j hij => (hcount i j hij).2,
    ?_, ?_, ?_⟩
  · intro i j hi hj
    have h1 := (hinv.mutex i).mp hi
    have h2 := (hinv.mutex j).mp hj
    rw [h1] at h2
    exact Option.some.inj h2
  · obtain ⟨more, hmore⟩ := complete_from cfg E.ID _ _ _ hinv invs.length (by
      intro i hi
      apply todo_nil_run
      rw [startShared_todo, List.getElem?_eq_none hi]
      rfl)
    exact ⟨more, fun i => by rw [runSchedule_append]; exact hmore i⟩
  · intro hdone hfetched hnew
    rw [hnew] at hinv
    obtain ⟨p, hp, ev, hev, hid⟩ := hfetched
    obtain ⟨k, hk, hkp⟩ := List.getElem_of_mem hp
    have hmarked : isReminded (runSchedule cfg schedule (startShared s invs)).state
        (reminderKey E.ID cfg.ReminderMinutes) = true := by
      have hf : ∃ ev ∈ ((startShared s invs).threads k).todo, ev.ID = E.ID := by
        rw [startShared_todo, List.getElem?_eq_getElem hk, hkp]
        exact ⟨ev, hev, hid⟩
      rcases hinv.handled k hf with ⟨e, he, _⟩ | h2
      · rw [hdone k] at he
        cases he
      · exact h2
    obtain ⟨o, ho, hothers⟩ := hinv.marked hmarked
    refine ⟨o, ?_, fun j hj => (credit_facts _ E.ID).1 (hothers j hj)⟩
    rw [← (credit_facts _ E.ID).2.2 (hdone o)]
    exact ho
  · intro hold i
    rw [hold] at hinv
    cases hm : isReminded (runSchedule cfg schedule (startShared s invs)).state
        (reminderKey E.ID cfg.ReminderMinutes)
    · exact (hinv.unmarked hm i).1
    · obtain ⟨o, ho, hothers⟩ := hinv.marked hm
      have h1 := hle ((runSchedule cfg schedule (startShared s invs)).threads i)
      by_cases hio : i = o
      · subst hio
        simp only [if_true] at ho
        omega
      · have := hothers i hio
        omega

/-- Instance of C17: two overlapping invocations that both fetched meeting
`A`; the second takes the mutex while the first waits, and only the second
sends. -/
theorem overlapping_reminders_once_witness :
    isReminded New (reminderKey meetingA.ID cfg30.ReminderMinutes) = false
      ∧ (∀ i, ((runSchedule cfg30 [1, 0, 1, 0, 1, 1, 0, 1, 0, 0, 0, 0, 0, 0, 0, 0, 0]
          (startShared New twoInvocations)).threads i).todo = [])
      ∧ ((runSchedule cfg30 [1, 0, 1, 0, 1, 1, 0, 1, 0, 0, 0, 0, 0, 0, 0, 0, 0]
          (startShared New twoInvocations)).threads 1).sent
        = [⟨Notification.reminder meetingA 30, true⟩]
      ∧ ((runSchedule cfg30 [1, 0, 1, 0, 1, 1, 0, 1, 0, 0, 0, 0, 0, 0, 0, 0, 0]
          (startShared New twoInvocations)).threads 0).sent = []
      ∧ ∀ i j, i ≠ j →
          remindersFor meetingA.ID
              ((runSchedule cfg30 [1, 0, 1, 0, 1, 1, 0, 1, 0, 0, 0, 0, 0, 0, 0, 0, 0]
                (startShared New twoInvocations)).threads i).sent = 0
            ∨ remindersFor meetingA.ID
              ((runSchedule cfg30 [1, 0, 1, 0, 1, 1, 0, 1, 0, 0, 0, 0, 0, 0, 0, 0, 0]
                (startShared New twoInvocations)).threads j).sent = 0 :=
  ⟨by decide,
    by
      intro i
      match i with
      | 0 => decide
      | 1 => decide
      | k + 2 => exact todo_nil_run cfg30 (k + 2) _ _ rfl,
    by decide, by decide,
    (overlapping_reminders_once cfg30 meetingA New twoInvocations
      [1, 0, 1, 0, 1, 1, 0, 1, 0, 0, 0, 0, 0, 0, 0, 0, 0]).2.2.1⟩

/-- Counterexample to C17 as worded: two overlapping invocations share a set
in which the key of meeting `A` is already marked and both fetch `A`; they run
to the end, interleaved, and neither emits the reminder, so it is not the case
that exactly one of them does. -/
theorem overlapping_reminders_counterexample :
    isReminded remindedA (reminderKey meetingA.ID cfg30.ReminderMinutes) = true
      ∧ ((runSchedule cfg30 [1, 0, 1, 0, 1, 1, 0, 1, 0, 0, 0, 0, 0, 0, 0, 0, 0]
          (startShared remindedA twoInvocations)).threads 0).todo = []
      ∧ ((runSchedule cfg30 [1, 0, 1, 0, 1, 1, 0, 1, 0, 0, 0, 0, 0, 0, 0, 0, 0]
          (startShared remindedA twoInvocations)).threads 1).todo = []
      ∧ ((runSchedule cfg30 [1, 0, 1, 0, 1, 1, 0, 1, 0, 0, 0, 0, 0, 0, 0, 0, 0]
          (startShared remindedA twoInvocations)).threads 0).sent = []
      ∧ ((runSchedule cfg30 [1, 0, 1, 0, 1, 1, 0, 1, 0, 0, 0, 0, 0, 0, 0, 0, 0]
          (startShared remindedA twoInvocations)).threads 1).sent = [] := by
  decide

end TgCalendarBot
